import Mathlib

/-!
Verification development for the hover-highlighter content scripts.

The repository ships two variants of the injected content script.  Both
resolve, from a pointer position, a "word" range and a "visual line" range
over the DOM:

* variant 1 (the script using an incremental single-line heuristic with a
  running bounding box, `MAX_LINES_SPANNED_CHECKS = 105`), embedded below
  under the `Impl1` namespace;
* variant 2 (the script recomputing client rectangles each step, with
  `spansMultipleLines`, `MAX_LINES_SPANNED_CHECKS = 115`), embedded under
  the `Impl2` namespace.

The embedding models:

* viewport geometry with exact rationals (`Rect`);
* the character classifiers (`isDelimiter`, `isWordChar`,
  `isWhitespaceOrZeroWidth`) including the JavaScript `\s` and `\p{Cf}`
  character sets;
* the text content tree as a flat list of sibling nodes (`DomNode`) under
  `document.body` — text leaves carry their character data, element leaves
  carry their `occupiesSpace` status.  The traversal helpers
  (`getNextTextNode`, `getLastNonEmptyTextNode`, the sibling/uncle walk)
  are embedded specialized to this shape: for leaf children of `body` the
  uncle search in the scripts terminates immediately at `body`;
* the layout engine as an oracle (`Layout`) supplying
  `getBoundingClientRect` and `getClientRects` for arbitrary ranges, and a
  caret-position oracle (`Env.caretAt`) for `document.caretPositionFromPoint`;
* ranges as pairs of positions (node index, character offset); the DOM
  `collapsed` state is equality of the two boundary points.

JavaScript quirks kept by the embedding: reading a character past the end
of a string yields `undefined`, and `isDelimiter(undefined)` /
`isWhitespaceOrZeroWidth(undefined)` test the string "undefined", whose
characters are all word characters; `jsCharAt` therefore defaults to `'u'`.
-/

namespace HoverHighlighter

/-- `Math.min` on exact rationals and on naturals, written with an explicit
comparison so that kernel reduction works on concrete inputs. -/
def ratMin (a b : ℚ) : ℚ := if a ≤ b then a else b

/-- `Math.min` on natural numbers (used for the seed-offset clamp). -/
def natMin (a b : Nat) : Nat := if a ≤ b then a else b

/-- Axis-aligned bounding box in viewport coordinates, the embedded view of
a `DOMRect`: stored sides `left`, `top`, `right`, `bottom`, with `width`,
`height`, `x`, `y` derived as in the DOM. -/
structure Rect where
  left : ℚ
  top : ℚ
  right : ℚ
  bottom : ℚ
deriving DecidableEq, Repr

def Rect.width (r : Rect) : ℚ := r.right - r.left

def Rect.height (r : Rect) : ℚ := r.bottom - r.top

/-- `rect.x` of a `DOMRect` (our rectangles never have negative extents). -/
def Rect.x (r : Rect) : ℚ := r.left

/-- `rect.y` of a `DOMRect`. -/
def Rect.y (r : Rect) : ℚ := r.top

/-- `rectOccupiesSpace` from variant 1: positive width and height. -/
def rectOccupiesSpace (r : Rect) : Bool :=
  decide (0 < r.width) && decide (0 < r.height)

/-- `isInsideRect` (identical in both variants): the point lies inside the
rectangle and the rectangle is non-degenerate. -/
def isInsideRect (r : Rect) (x y : ℚ) : Bool :=
  decide (r.left ≤ x) && decide (x ≤ r.right) && decide (r.top ≤ y) &&
    decide (y ≤ r.bottom) && decide (0 < r.width) && decide (0 < r.height)

/-- `rectanglesAreEqual` from variant 2: componentwise equality of the four
sides. -/
def rectanglesAreEqual (r1 r2 : Rect) : Bool :=
  decide (r1.left = r2.left) && decide (r1.right = r2.right) &&
    decide (r1.top = r2.top) && decide (r1.bottom = r2.bottom)

/-- Inner loop of `hasMoreThanOne` from variant 1: scan consecutive pairs
for two space-occupying rectangles that differ in `x`, `y`, `width` or
`height`. -/
def hasAdjacentDistinct : List Rect → Bool
  | r1 :: r2 :: rest =>
    (rectOccupiesSpace r1 && rectOccupiesSpace r2 &&
      (decide (r1.x ≠ r2.x) || decide (r1.y ≠ r2.y) ||
        decide (r1.width ≠ r2.width) || decide (r1.height ≠ r2.height))) ||
    hasAdjacentDistinct (r2 :: rest)
  | _ => false

/-- `hasMoreThanOne` from variant 1. -/
def hasMoreThanOne (rects : List Rect) : Bool :=
  if rects.length ≤ 1 then false else hasAdjacentDistinct rects

/-- The JavaScript regular-expression class `\s`: tab, line feed, vertical
tab, form feed, carriage return, space, no-break space, ogham space mark,
the U+2000–U+200A spaces, line/paragraph separators, narrow no-break
space, medium mathematical space, ideographic space and the byte-order
mark. -/
def isJsWhitespace (c : Char) : Bool :=
  c.val = 0x9 || c.val = 0xa || c.val = 0xb || c.val = 0xc || c.val = 0xd ||
  c.val = 0x20 || c.val = 0xa0 || c.val = 0x1680 ||
  (0x2000 ≤ c.val && c.val ≤ 0x200a) ||
  c.val = 0x2028 || c.val = 0x2029 || c.val = 0x202f || c.val = 0x205f ||
  c.val = 0x3000 || c.val = 0xfeff

/-- The Unicode `Format` (Cf) category, as matched by `\p{Cf}` with the `u`
flag. -/
def isUnicodeFormatChar (c : Char) : Bool :=
  c.val = 0xad || (0x600 ≤ c.val && c.val ≤ 0x605) || c.val = 0x61c ||
  c.val = 0x6dd || c.val = 0x70f || (0x890 ≤ c.val && c.val ≤ 0x891) ||
  c.val = 0x8e2 || c.val = 0x180e ||
  (0x200b ≤ c.val && c.val ≤ 0x200f) ||
  (0x202a ≤ c.val && c.val ≤ 0x202e) ||
  (0x2060 ≤ c.val && c.val ≤ 0x2064) ||
  (0x2066 ≤ c.val && c.val ≤ 0x206f) ||
  c.val = 0xfeff || (0xfff9 ≤ c.val && c.val ≤ 0xfffb) ||
  c.val = 0x110bd || c.val = 0x110cd ||
  (0x13430 ≤ c.val && c.val ≤ 0x1343f) ||
  (0x1bca0 ≤ c.val && c.val ≤ 0x1bca3) ||
  (0x1d173 ≤ c.val && c.val ≤ 0x1d17a) ||
  c.val = 0xe0001 || (0xe0020 ≤ c.val && c.val ≤ 0xe007f)

/-- `isWhitespaceOrZeroWidth` (identical in both variants): the regular
expression `\s|\p{Cf}` with the `u` flag. -/
def isWhitespaceOrZeroWidth (c : Char) : Bool :=
  isJsWhitespace c || isUnicodeFormatChar c

/-- The non-whitespace delimiter characters of variant 1's `isDelimiter`
regular expression, in the order they appear in the character class:
underscore, hyphen-minus, em dash, en dash, slash, parentheses, curly
braces, square brackets, comma, dot, colon, semicolon, question mark,
exclamation mark, horizontal ellipsis. -/
def delimiterChars1 : List Char :=
  ['_', '-', '—', '–', '/', '(', ')', '\x7b', '\x7d', '[', ']', ',', '.',
    ':', ';', '?', '!', '…']

/-- The non-whitespace delimiter characters of variant 2's `isDelimiter`:
the same class without the em dash. -/
def delimiterChars2 : List Char :=
  ['_', '-', '–', '/', '(', ')', '\x7b', '\x7d', '[', ']', ',', '.', ':',
    ';', '?', '!', '…']

/-- `isDelimiter` from variant 1: the test of the regular expression
`[\s_\-—–/\(\)\{\}\[\],\.:;?!…]` on a single character. -/
def Impl1.isDelimiter (c : Char) : Bool :=
  isJsWhitespace c || delimiterChars1.contains c

/-- `isWordChar` from variant 1. -/
def Impl1.isWordChar (c : Char) : Bool :=
  !Impl1.isDelimiter c

/-- `isDelimiter` from variant 2: the test of the regular expression
`[\s_\-–/\(\)\{\}\[\],\.:;?!…]` on a single character. -/
def Impl2.isDelimiter (c : Char) : Bool :=
  isJsWhitespace c || delimiterChars2.contains c

/-- `isWordChar` from variant 2. -/
def Impl2.isWordChar (c : Char) : Bool :=
  !Impl2.isDelimiter c

/-- A child of `document.body` in the embedded content tree: either a text
node with its character data, or an element leaf recording whether it
occupies space (`offsetWidth > 0 && offsetHeight > 0`). -/
inductive DomNode where
  | text : List Char → DomNode
  | elem : Bool → DomNode
deriving DecidableEq, Repr

/-- `occupiesSpace` (identical in both variants): non-element nodes always
occupy space; element nodes occupy space according to their offsets. -/
def occupiesSpace : DomNode → Bool
  | .text _ => true
  | .elem b => b

/-- Indexing `textContent[k]`: JavaScript yields `undefined` out of range,
and both `isDelimiter` and `isWhitespaceOrZeroWidth` then test the string
"undefined", whose first character `'u'` decides the match (no character of
"undefined" is a delimiter, whitespace or format character).  We therefore
default to `'u'`. -/
def jsCharAt (t : List Char) (k : Nat) : Char :=
  t.getD k 'u'

/-- A position in the content tree: index of the sibling node under `body`,
and character offset inside it. -/
abbrev Pos := Nat × Nat

/-- A DOM `Range` value: start and end boundary points. -/
abbrev RangeV := Pos × Pos

/-- The DOM `collapsed` state: the two boundary points coincide. -/
def collapsedR (r : RangeV) : Bool :=
  decide (r.1 = r.2)

/-- `range.collapse(false)`: move the start boundary to the end boundary. -/
def collapseR (r : RangeV) : RangeV :=
  (r.2, r.2)

/-!
The word-range resolver.  The two variants share this code verbatim except
for the delimiter alphabet, so the embedding is parameterized by the
`isDel` predicate used as `isDelimiter`.
-/

/-- Number of characters the forward word loop steps over: the leading
word characters of the given character suffix. -/
def scanFwdCount (isDel : Char → Bool) : List Char → Nat
  | [] => 0
  | c :: s => if isDel c then 0 else scanFwdCount isDel s + 1

/-- The inner forward loop of `setHighlightWordRange`:
`while (endOffset < len && isWordChar(t[endOffset])) endOffset++`,
expressed as the offset plus the number of word characters stepped over
from it. -/
def scanFwd (isDel : Char → Bool) (t : List Char) (o : Nat) : Nat :=
  o + scanFwdCount isDel (t.drop o)

/-- The inner backward loop of `setHighlightWordRange`:
`while (startOffset > 0 && isWordChar(t[startOffset - 1])) startOffset--`. -/
def scanBwd (isDel : Char → Bool) (t : List Char) : Nat → Nat
  | 0 => 0
  | k + 1 => if isDel (jsCharAt t k) then k + 1 else scanBwd isDel t k

/-- The forward (exclusive-end) search of `setHighlightWordRange`: scan the
current text node (index `i`, content `t`, from offset `o`), and when the
scan exhausts it and the next sibling is also a text node, continue there
from offset `0`.  `rest` is the list of siblings after node `i`. -/
def findWordEnd (isDel : Char → Bool) (i : Nat) (t : List Char) (o : Nat) :
    List DomNode → Nat × Nat
  | [] => (i, scanFwd isDel t o)
  | .text u :: rest' =>
    let o' := scanFwd isDel t o
    if o' < t.length then (i, o')
    else findWordEnd isDel (i + 1) u 0 rest'
  | .elem _ :: _ => (i, scanFwd isDel t o)

/-- The previous-sibling walk of `setHighlightWordRange`: `prevRest` lists
the previous siblings nearest first, the first of them having index `j`;
skip empty text siblings; stop at a missing or non-text sibling, or at a
text sibling ending in a delimiter; otherwise continue the backward scan
inside that sibling from its last character (the inner backward loop of
the source, entered at `startOffset = length - 1`). -/
def wordStartWalk (isDel : Char → Bool) (iorig j : Nat) :
    List DomNode → Nat × Nat
  | [] => (iorig, 0)
  | .text [] :: rest' => wordStartWalk isDel iorig (j - 1) rest'
  | .text (c :: cs) :: rest' =>
    if isDel ((c :: cs).getLast (by simp)) then (iorig, 0)
    else
      let o' := scanBwd isDel (c :: cs) ((c :: cs).length - 1)
      if 0 < o' then (j, o')
      else wordStartWalk isDel j (j - 1) rest'
  | .elem _ :: _ => (iorig, 0)

/-- The backward (inclusive-start) search of `setHighlightWordRange`: scan
backward through the current text node; on reaching its beginning, hand
over to the previous-sibling walk. -/
def findWordStart (isDel : Char → Bool) (i : Nat) (t : List Char) (o : Nat)
    (prevRest : List DomNode) : Nat × Nat :=
  let o' := scanBwd isDel t o
  if 0 < o' then (i, o') else wordStartWalk isDel i (i - 1) prevRest

/-- `setHighlightWordRange`: resolve the word at the caret position and set
the word range, returning the range unchanged when the function bails out
(no caret, caret not on a text node, or caret on a delimiter character). -/
def setHighlightWordRange (isDel : Char → Bool) (doc : List DomNode)
    (caret : Option Pos) (r : RangeV) : RangeV :=
  match caret with
  | none => r
  | some (i, o) =>
    match doc[i]? with
    | some (.text t) =>
      if h : o < t.length then
        if isDel (t.get ⟨o, h⟩) then r
        else
          (findWordStart isDel i t o ((doc.take i).reverse),
            findWordEnd isDel i t (o + 1) (doc.drop (i + 1)))
      else
        (findWordStart isDel i t o ((doc.take i).reverse),
          findWordEnd isDel i t t.length (doc.drop (i + 1)))
    | some (.elem _) => r
    | none => r

/-!
Flattened view of a run of consecutive text siblings, used to state what
the word resolver computes: the character sequence after a position (to the
end of its text-sibling run) and the reversed character sequence before it
(to the start of the run).
-/

/-- Concatenation of the character data of the consecutive text siblings
starting at index `j` (stopping at the first element sibling or at the end
of the child list). -/
def flatAfter (doc : List DomNode) (j : Nat) : List Char :=
  match h : doc[j]? with
  | some (.text u) => u ++ flatAfter doc (j + 1)
  | some (.elem _) => []
  | none => []
termination_by doc.length - j
decreasing_by
  have : j < doc.length := (List.getElem?_eq_some_iff.mp h).1
  omega

/-- Reversed concatenation of the character data of the consecutive text
siblings below index `j`, nearest sibling first (stopping at the first
element sibling or at the start of the child list). -/
def flatBeforeRev (doc : List DomNode) : Nat → List Char
  | 0 => []
  | j + 1 =>
    match doc[j]? with
    | some (.text u) => u.reverse ++ flatBeforeRev doc j
    | some (.elem _) => []
    | none => []

/-!
The line-span detector/expander.  Geometry is supplied by a layout oracle;
the two variants differ in their single-line heuristic, their expansion
budget (105 vs 115) and small details of the sibling walk, so each is
embedded separately.

The character loops walk the current text node through an explicit cursor:
the numeric offset (used for range boundaries and geometry queries)
together with the character suffix (forward direction) or reversed
character prefix (backward direction) at that offset, and the sibling walk
likewise carries the remaining sibling list alongside the numeric node
index.  Callers pass the views consistent with the offsets.
-/

/-- The layout oracle: `getBoundingClientRect` and `getClientRects` for an
arbitrary range value.  The rectangle of the single-character range
`[o, o+1)` of node `i` is `rangeRect ((i, o), (i, o + 1))`. -/
structure Layout where
  rangeRect : RangeV → Rect
  rangeRects : RangeV → List Rect

/-- State of variant 1's `CachedLineRange`: the range boundaries, the
manually maintained bounding top/bottom, the minimum observed
single-character rectangle height, and the expansion-check counter. -/
structure LR1State where
  range : RangeV
  bTop : ℚ
  bBot : ℚ
  minH : ℚ
  checks : Nat
deriving DecidableEq, Repr

/-- `MAX_LINES_SPANNED_CHECKS` of variant 1. -/
def Impl1.maxChecks : Nat := 105

/-- `setInitialRect` of variant 1: seed the running bounds and minimum
height from the seed rectangle and reset the check counter. -/
def Impl1.setInitialRect (st : LR1State) (rect : Rect) : LR1State :=
  { st with
    minH := rect.bottom - rect.top
    bTop := rect.top
    bBot := rect.bottom
    checks := 0 }

/-- `tryToExpandEnd` of variant 1: bump the counter (rejecting over
budget), measure the one-character rectangle `[newOffset-1, newOffset)`,
form the union and intercept bounds against the running bounds, and accept
iff `1.75 · min(runningMin, charHeight) > unionHeight` and
`1.75 · interceptHeight > unionHeight`; on acceptance commit the new
bounds, minimum and end boundary. -/
def Impl1.tryToExpandEnd (L : Layout) (st : LR1State) (newPos : Pos) :
    Bool × LR1State :=
  let checks := st.checks + 1
  if Impl1.maxChecks < checks then (false, { st with checks := checks })
  else
    let r := L.rangeRect ((newPos.1, newPos.2 - 1), (newPos.1, newPos.2))
    let minHeight := ratMin st.minH r.height
    let nTop := if r.top < st.bTop then r.top else st.bTop
    let iTop := if r.top < st.bTop then st.bTop else r.top
    let nBot := if st.bBot < r.bottom then r.bottom else st.bBot
    let iBot := if st.bBot < r.bottom then st.bBot else r.bottom
    let isSameLine :=
      decide ((7 / 4 : ℚ) * minHeight > nBot - nTop) &&
      decide ((7 / 4 : ℚ) * (iBot - iTop) > nBot - nTop)
    if isSameLine then
      (true,
        { range := (st.range.1, newPos), bTop := nTop, bBot := nBot,
          minH := minHeight, checks := checks })
    else (false, { st with checks := checks })

/-- `tryToExpandStart` of variant 1: symmetric to `tryToExpandEnd`, with
the one-character rectangle `[newOffset, newOffset+1)` and the start
boundary. -/
def Impl1.tryToExpandStart (L : Layout) (st : LR1State) (newPos : Pos) :
    Bool × LR1State :=
  let checks := st.checks + 1
  if Impl1.maxChecks < checks then (false, { st with checks := checks })
  else
    let r := L.rangeRect ((newPos.1, newPos.2), (newPos.1, newPos.2 + 1))
    let minHeight := ratMin st.minH r.height
    let nTop := if r.top < st.bTop then r.top else st.bTop
    let iTop := if r.top < st.bTop then st.bTop else r.top
    let nBot := if st.bBot < r.bottom then r.bottom else st.bBot
    let iBot := if st.bBot < r.bottom then st.bBot else r.bottom
    let isSameLine :=
      decide ((7 / 4 : ℚ) * minHeight > nBot - nTop) &&
      decide ((7 / 4 : ℚ) * (iBot - iTop) > nBot - nTop)
    if isSameLine then
      (true,
        { range := (newPos, st.range.2), bTop := nTop, bBot := nBot,
          minH := minHeight, checks := checks })
    else (false, { st with checks := checks })

/-- `range.collapse(false)` on the line state. -/
def Impl1.collapseLine (st : LR1State) : LR1State :=
  { st with range := collapseR st.range }

/-- Outcome of the inner character loop of the update functions: either
the whole update returns (`done`), or the current node is exhausted and
the sibling walk continues with the given state (`next`). -/
inductive ScanOutcome (σ : Type) where
  | done : Bool → σ → ScanOutcome σ
  | next : σ → ScanOutcome σ
deriving DecidableEq, Repr

/-- The state carried by either outcome of the inner character loop. -/
def ScanOutcome.state {σ : Type} : ScanOutcome σ → σ
  | .done _ s => s
  | .next s => s

/-- The inner character loop of `updateHighlightLineRangeEnd` of
variant 1, over the text `suffix` of node `i` from offset `o`: skip
whitespace/zero-width characters without probing; otherwise try to expand
the end to just past the character — the update returns on failure and (in
one-char mode) on the first success; otherwise the loop continues.
Exhausting the node hands over to the sibling walk. -/
def Impl1.scanEnd (L : Layout) (oneChar : Bool) (i : Nat) :
    Nat → List Char → LR1State → ScanOutcome LR1State
  | o, c :: suf, st =>
    if isWhitespaceOrZeroWidth c then Impl1.scanEnd L oneChar i (o + 1) suf st
    else
      let p := Impl1.tryToExpandEnd L st (i, o + 1)
      if p.1 then
        if oneChar then .done true p.2
        else Impl1.scanEnd L oneChar i (o + 1) suf p.2
      else .done false p.2
  | _, [], st => .next st

/-- The next-sibling walk of `updateHighlightLineRangeEnd` of variant 1
over the following siblings `rest` (the first of them having index `j`):
siblings that occupy no space or contain no non-empty text are stepped
over; the character loop resumes at offset `0` of the next non-empty text
node; running out of siblings ends the uncle search at `body` — no
further expansion. -/
def Impl1.walkEnd (L : Layout) (oneChar : Bool) :
    Nat → List DomNode → LR1State → Bool × LR1State
  | _, [], st => (false, st)
  | j, .text (c :: cs) :: rest', st =>
    match Impl1.scanEnd L oneChar j 0 (c :: cs) st with
    | .done b st' => (b, st')
    | .next st' => Impl1.walkEnd L oneChar (j + 1) rest' st'
  | j, _ :: rest', st => Impl1.walkEnd L oneChar (j + 1) rest' st

/-- The inner backward character loop of `updateHighlightLineRangeStart`
of variant 1; `before` is the reversed text of node `i` before offset
`o`. -/
def Impl1.scanStart (L : Layout) (oneChar : Bool) (i : Nat) :
    Nat → List Char → LR1State → ScanOutcome LR1State
  | o, c :: bef, st =>
    if isWhitespaceOrZeroWidth c then
      Impl1.scanStart L oneChar i (o - 1) bef st
    else
      let p := Impl1.tryToExpandStart L st (i, o - 1)
      if p.1 then
        if oneChar then .done true p.2
        else Impl1.scanStart L oneChar i (o - 1) bef p.2
      else .done false p.2
  | _, [], st => .next st

/-- The previous-sibling walk of `updateHighlightLineRangeStart` of
variant 1 over the previous siblings (nearest first, the first of them
having index `j`): siblings without non-empty text are stepped over; at
the last character of the previous non-empty text node, a
whitespace/zero-width character is skipped without probing
(`shouldSkip`), otherwise it is probed — the update returns on a failed
probe and (in one-char mode, when not skipping) on a successful one; the
backward loop then resumes inside that node. -/
def Impl1.walkStart (L : Layout) (oneChar : Bool) :
    Nat → List DomNode → LR1State → Bool × LR1State
  | _, [], st => (false, st)
  | j, .text (c :: cs) :: rest', st =>
    if isWhitespaceOrZeroWidth (jsCharAt (c :: cs) ((c :: cs).length - 1))
    then
      match Impl1.scanStart L oneChar j ((c :: cs).length - 1)
          (((c :: cs).take ((c :: cs).length - 1)).reverse) st with
      | .done b st' => (b, st')
      | .next st' => Impl1.walkStart L oneChar (j - 1) rest' st'
    else
      let p := Impl1.tryToExpandStart L st (j, (c :: cs).length - 1)
      if p.1 then
        if oneChar then (true, p.2)
        else
          match Impl1.scanStart L oneChar j ((c :: cs).length - 1)
              (((c :: cs).take ((c :: cs).length - 1)).reverse) p.2 with
          | .done b st' => (b, st')
          | .next st' => Impl1.walkStart L oneChar (j - 1) rest' st'
      else (false, p.2)
  | j, _ :: rest', st => Impl1.walkStart L oneChar (j - 1) rest' st

/-- `updateHighlightLineRangeEnd` of variant 1, entered at the range's end
boundary: scan the rest of the end node, then walk the following
siblings. -/
def Impl1.updateHighlightLineRangeEnd (L : Layout) (doc : List DomNode)
    (oneChar : Bool) (st : LR1State) : Bool × LR1State :=
  match doc[st.range.2.1]? with
  | some (.text t) =>
    match Impl1.scanEnd L oneChar st.range.2.1 st.range.2.2
        (t.drop st.range.2.2) st with
    | .done b st' => (b, st')
    | .next st' =>
      Impl1.walkEnd L oneChar (st.range.2.1 + 1)
        (doc.drop (st.range.2.1 + 1)) st'
  | _ => (false, st)

/-- `updateHighlightLineRangeStart` of variant 1, entered at the range's
start boundary: scan backward through the start node, then walk the
previous siblings. -/
def Impl1.updateHighlightLineRangeStart (L : Layout) (doc : List DomNode)
    (oneChar : Bool) (st : LR1State) : Bool × LR1State :=
  match doc[st.range.1.1]? with
  | some (.text t) =>
    match Impl1.scanStart L oneChar st.range.1.1 st.range.1.2
        ((t.take st.range.1.2).reverse) st with
    | .done b st' => (b, st')
    | .next st' =>
      Impl1.walkStart L oneChar (st.range.1.1 - 1)
        ((doc.take st.range.1.1).reverse) st'
  | _ => (false, st)

/-- The alternating one-character expansion loop of `setHighlightLineRange`
(`do … while (keepGoingStart && keepGoingEnd)`), with an explicit fuel
parameter; `loopFuel` below exceeds the largest possible number of
iterations (each continued iteration consumes at least two expansion
checks out of a budget of at most 115), which is proved later as a
fuel-indifference theorem. -/
def Impl1.expandLoop (L : Layout) (doc : List DomNode) :
    Nat → LR1State → Bool × Bool × LR1State
  | 0, st => (false, false, st)
  | fuel + 1, st =>
    let (ke, st1) := Impl1.updateHighlightLineRangeEnd L doc true st
    let (ks, st2) := Impl1.updateHighlightLineRangeStart L doc true st1
    if ks && ke then Impl1.expandLoop L doc fuel st2 else (ks, ke, st2)

/-- Fuel used for the alternation loops; larger than any possible
iteration count for either variant's budget. -/
def loopFuel : Nat := 200

/-- The expansion phase of variant 1's `setHighlightLineRange`: the
alternating loop followed by the greedy phase on whichever side could
still grow. -/
def Impl1.lineExpand (L : Layout) (doc : List DomNode) (st : LR1State) :
    LR1State :=
  let (ks, ke, st1) := Impl1.expandLoop L doc loopFuel st
  let st2 :=
    if ks then (Impl1.updateHighlightLineRangeStart L doc false st1).2
    else st1
  let st3 :=
    if ke then (Impl1.updateHighlightLineRangeEnd L doc false st2).2
    else st2
  st3

/-- The final whitespace trim of `setHighlightLineRange` (identical in both
variants): if either boundary still sits at the seed position and the seed
character is whitespace/zero-width, collapse the whole range. -/
def Impl1.postProcessLine (i so : Nat) (t : List Char) (st : LR1State) :
    LR1State :=
  if (st.range.1 = (i, so) ∧ isWhitespaceOrZeroWidth (jsCharAt t so)) ∨
     (st.range.2 = (i, so + 1) ∧ isWhitespaceOrZeroWidth (jsCharAt t so))
  then Impl1.collapseLine st
  else st

/-- `setHighlightLineRange` of variant 1: seed a one-character range at the
caret (offset clamped below the node length), reject when the pointer's
vertical coordinate misses the seed rectangle or the rectangle is
degenerate, seed the running bounds, reject when the seed already shows
more than one distinct non-degenerate client rectangle, expand, and trim
whitespace seeds. -/
def Impl1.setHighlightLineRange (L : Layout) (doc : List DomNode)
    (caret : Option Pos) (mouseY : ℚ) (st : LR1State) : LR1State :=
  match caret with
  | none => st
  | some (i, o) =>
    match doc[i]? with
    | some (.text t) =>
      let so := natMin o (t.length - 1)
      let st0 := { st with range := ((i, so), (i, so + 1)) }
      let lineRect := L.rangeRect st0.range
      if lineRect.height = 0 ∨ mouseY < lineRect.top ∨
          lineRect.bottom < mouseY then
        Impl1.collapseLine st0
      else
        let st1 := Impl1.setInitialRect st0 lineRect
        if hasMoreThanOne (L.rangeRects st1.range) then
          Impl1.collapseLine st1
        else
          Impl1.postProcessLine i so t (Impl1.lineExpand L doc st1)
    | _ => st

/-- State of variant 2's `CachedLineRange`: the range boundaries and the
expansion-check counter.  The memoized bounding rectangle is not modelled:
within a single resolution pass every mutation invalidates it and the
layout oracle is pure, so the cache is semantically transparent. -/
structure LR2State where
  range : RangeV
  checks : Nat
deriving DecidableEq, Repr

/-- `MAX_LINES_SPANNED_CHECKS` of variant 2. -/
def Impl2.maxChecks : Nat := 115

/-- `Math.min(...rects.map(({height}) => height))` over a non-empty list
(the sole caller guards `rects.length ≥ 2`). -/
def minRectHeight : List Rect → ℚ
  | [] => 0
  | r :: rs => rs.foldl (fun m s => ratMin m s.height) r.height

/-- `spansMultipleLines` of variant 2: bump the counter (over budget counts
as spanning multiple lines), filter the range's client rectangles to the
non-degenerate ones; fewer than two means a single line; otherwise the
range spans multiple lines iff `1.73 · minRectHeight ≤ boundingHeight`. -/
def Impl2.spansMultipleLines (L : Layout) (st : LR2State) :
    Bool × LR2State :=
  let checks := st.checks + 1
  let st' : LR2State := { st with checks := checks }
  if Impl2.maxChecks < checks then (true, st')
  else
    let rects := (L.rangeRects st.range).filter
      (fun r => decide (0 < r.width) && decide (0 < r.height))
    if rects.length < 2 then (false, st')
    else
      (decide ((173 / 100 : ℚ) * minRectHeight rects
        ≤ (L.rangeRect st.range).height), st')

/-- `tryToExpandEnd` of variant 2: move the end boundary, then roll back
and reject if (when `checkRectangleGrew` is set) the bounding rectangle
did not change — in which case `spansMultipleLines` is not consulted and
the counter is not bumped — or if the expanded range spans multiple
lines. -/
def Impl2.tryToExpandEnd (L : Layout) (st : LR2State) (newPos : Pos)
    (checkRectangleGrew : Bool) : Bool × LR2State :=
  let prevEnd := st.range.2
  let prevRect := L.rangeRect st.range
  let st1 : LR2State := { st with range := (st.range.1, newPos) }
  if checkRectangleGrew &&
      rectanglesAreEqual prevRect (L.rangeRect st1.range) then
    (false, { st1 with range := (st1.range.1, prevEnd) })
  else
    match Impl2.spansMultipleLines L st1 with
    | (true, st2) => (false, { st2 with range := (st2.range.1, prevEnd) })
    | (false, st2) => (true, st2)

/-- `tryToExpandStart` of variant 2, symmetric to `tryToExpandEnd`. -/
def Impl2.tryToExpandStart (L : Layout) (st : LR2State) (newPos : Pos)
    (checkRectangleGrew : Bool) : Bool × LR2State :=
  let prevStart := st.range.1
  let prevRect := L.rangeRect st.range
  let st1 : LR2State := { st with range := (newPos, st.range.2) }
  if checkRectangleGrew &&
      rectanglesAreEqual prevRect (L.rangeRect st1.range) then
    (false, { st1 with range := (prevStart, st1.range.2) })
  else
    match Impl2.spansMultipleLines L st1 with
    | (true, st2) => (false, { st2 with range := (prevStart, st2.range.2) })
    | (false, st2) => (true, st2)

/-- `collapse(false)` on variant 2's line state. -/
def Impl2.collapseLine (st : LR2State) : LR2State :=
  { st with range := collapseR st.range }

/-- The inner character loop of `updateHighlightLineRangeEnd` of
variant 2, over the text `suffix` of node `i` from offset `o`; `cg` is the
local `checkRectangleGrew` flag, set by the walk when entering a new node
and cleared after a successful expansion. -/
def Impl2.scanEnd (L : Layout) (oneChar : Bool) (i : Nat) :
    Nat → List Char → Bool → LR2State → ScanOutcome LR2State
  | o, c :: suf, cg, st =>
    if isWhitespaceOrZeroWidth c then
      Impl2.scanEnd L oneChar i (o + 1) suf cg st
    else
      let p := Impl2.tryToExpandEnd L st (i, o + 1) cg
      if p.1 then
        if oneChar then .done true p.2
        else Impl2.scanEnd L oneChar i (o + 1) suf false p.2
      else .done false p.2
  | _, [], _, st => .next st

/-- The next-sibling walk of `updateHighlightLineRangeEnd` of variant 2: a
missing or non-space-occupying next sibling sends the uncle search to
`body` (no further expansion, the document being flat); empty text nodes
and textless occupying elements are stepped over; the character loop
resumes in the next non-empty text node with `checkRectangleGrew` set. -/
def Impl2.walkEnd (L : Layout) (oneChar : Bool) :
    Nat → List DomNode → LR2State → Bool × LR2State
  | _, [], st => (false, st)
  | j, .text (c :: cs) :: rest', st =>
    match Impl2.scanEnd L oneChar j 0 (c :: cs) true st with
    | .done b st' => (b, st')
    | .next st' => Impl2.walkEnd L oneChar (j + 1) rest' st'
  | j, .text [] :: rest', st => Impl2.walkEnd L oneChar (j + 1) rest' st
  | j, .elem b :: rest', st =>
    if b then Impl2.walkEnd L oneChar (j + 1) rest' st else (false, st)

/-- The inner backward character loop of `updateHighlightLineRangeStart`
of variant 2: within-node probes pass `checkRectangleGrew = false`. -/
def Impl2.scanStart (L : Layout) (oneChar : Bool) (i : Nat) :
    Nat → List Char → LR2State → ScanOutcome LR2State
  | o, c :: bef, st =>
    if isWhitespaceOrZeroWidth c then
      Impl2.scanStart L oneChar i (o - 1) bef st
    else
      let p := Impl2.tryToExpandStart L st (i, o - 1) false
      if p.1 then
        if oneChar then .done true p.2
        else Impl2.scanStart L oneChar i (o - 1) bef p.2
      else .done false p.2
  | _, [], st => .next st

/-- The previous-sibling walk of `updateHighlightLineRangeStart` of
variant 2: a missing or non-space-occupying previous sibling ends the
uncle search at `body`; empty text nodes and textless occupying elements
are stepped over; hop probes pass `checkRectangleGrew = true`, and a
whitespace/zero-width last character is skipped without a probe
(`shouldSkip`). -/
def Impl2.walkStart (L : Layout) (oneChar : Bool) :
    Nat → List DomNode → LR2State → Bool × LR2State
  | _, [], st => (false, st)
  | j, .text (c :: cs) :: rest', st =>
    if isWhitespaceOrZeroWidth (jsCharAt (c :: cs) ((c :: cs).length - 1))
    then
      match Impl2.scanStart L oneChar j ((c :: cs).length - 1)
          (((c :: cs).take ((c :: cs).length - 1)).reverse) st with
      | .done b st' => (b, st')
      | .next st' => Impl2.walkStart L oneChar (j - 1) rest' st'
    else
      let p := Impl2.tryToExpandStart L st (j, (c :: cs).length - 1) true
      if p.1 then
        if oneChar then (true, p.2)
        else
          match Impl2.scanStart L oneChar j ((c :: cs).length - 1)
              (((c :: cs).take ((c :: cs).length - 1)).reverse) p.2 with
          | .done b st' => (b, st')
          | .next st' => Impl2.walkStart L oneChar (j - 1) rest' st'
      else (false, p.2)
  | j, .text [] :: rest', st => Impl2.walkStart L oneChar (j - 1) rest' st
  | j, .elem b :: rest', st =>
    if b then Impl2.walkStart L oneChar (j - 1) rest' st
    else (false, st)

/-- `updateHighlightLineRangeEnd` of variant 2, entered at the range's end
boundary with `checkRectangleGrew` initially false. -/
def Impl2.updateHighlightLineRangeEnd (L : Layout) (doc : List DomNode)
    (oneChar : Bool) (st : LR2State) : Bool × LR2State :=
  match doc[st.range.2.1]? with
  | some (.text t) =>
    match Impl2.scanEnd L oneChar st.range.2.1 st.range.2.2
        (t.drop st.range.2.2) false st with
    | .done b st' => (b, st')
    | .next st' =>
      Impl2.walkEnd L oneChar (st.range.2.1 + 1)
        (doc.drop (st.range.2.1 + 1)) st'
  | _ => (false, st)

/-- `updateHighlightLineRangeStart` of variant 2, entered at the range's
start boundary. -/
def Impl2.updateHighlightLineRangeStart (L : Layout) (doc : List DomNode)
    (oneChar : Bool) (st : LR2State) : Bool × LR2State :=
  match doc[st.range.1.1]? with
  | some (.text t) =>
    match Impl2.scanStart L oneChar st.range.1.1 st.range.1.2
        ((t.take st.range.1.2).reverse) st with
    | .done b st' => (b, st')
    | .next st' =>
      Impl2.walkStart L oneChar (st.range.1.1 - 1)
        ((doc.take st.range.1.1).reverse) st'
  | _ => (false, st)

/-- The alternating one-character expansion loop of variant 2's
`setHighlightLineRange`, with explicit fuel as for variant 1. -/
def Impl2.expandLoop (L : Layout) (doc : List DomNode) :
    Nat → LR2State → Bool × Bool × LR2State
  | 0, st => (false, false, st)
  | fuel + 1, st =>
    let (ke, st1) := Impl2.updateHighlightLineRangeEnd L doc true st
    let (ks, st2) := Impl2.updateHighlightLineRangeStart L doc true st1
    if ks && ke then Impl2.expandLoop L doc fuel st2 else (ks, ke, st2)

/-- The expansion phase of variant 2's `setHighlightLineRange`. -/
def Impl2.lineExpand (L : Layout) (doc : List DomNode) (st : LR2State) :
    LR2State :=
  let (ks, ke, st1) := Impl2.expandLoop L doc loopFuel st
  let st2 :=
    if ks then (Impl2.updateHighlightLineRangeStart L doc false st1).2
    else st1
  let st3 :=
    if ke then (Impl2.updateHighlightLineRangeEnd L doc false st2).2
    else st2
  st3

/-- The final whitespace trim of variant 2's `setHighlightLineRange`
(same code as variant 1's). -/
def Impl2.postProcessLine (i so : Nat) (t : List Char) (st : LR2State) :
    LR2State :=
  if (st.range.1 = (i, so) ∧ isWhitespaceOrZeroWidth (jsCharAt t so)) ∨
     (st.range.2 = (i, so + 1) ∧ isWhitespaceOrZeroWidth (jsCharAt t so))
  then Impl2.collapseLine st
  else st

/-- `setHighlightLineRange` of variant 2: as variant 1, except that the
defensive seed check counts the raw client rectangles
(`getClientRects().length > 1`, degenerate ones included) and the check
counter is reset by `resetLinesSpannedChecksCount` after that check. -/
def Impl2.setHighlightLineRange (L : Layout) (doc : List DomNode)
    (caret : Option Pos) (mouseY : ℚ) (st : LR2State) : LR2State :=
  match caret with
  | none => st
  | some (i, o) =>
    match doc[i]? with
    | some (.text t) =>
      let so := natMin o (t.length - 1)
      let st0 : LR2State := { st with range := ((i, so), (i, so + 1)) }
      let lineRect := L.rangeRect st0.range
      if lineRect.height = 0 ∨ mouseY < lineRect.top ∨
          lineRect.bottom < mouseY then
        Impl2.collapseLine st0
      else if 1 < (L.rangeRects st0.range).length then
        Impl2.collapseLine st0
      else
        let st1 : LR2State := { st0 with checks := 0 }
        Impl2.postProcessLine i so t (Impl2.lineExpand L doc st1)
    | _ => st

/-!
The pointer-move coordinator.  `document.caretPositionFromPoint` is an
oracle of the environment; a hit on a non-text node is modelled the same
way as no hit (both make the resolvers bail out), so the oracle returns an
optional position.
-/

/-- The environment of a pointer event: the layout oracle and the
caret-position-from-point oracle. -/
structure Env where
  L : Layout
  caretAt : ℚ → ℚ → Option Pos

/-- `isPointOutsideHighlightedWord` (identical in both variants): true when
the word range is collapsed or no client rectangle of the word range
contains the point. -/
def isPointOutsideHighlightedWord (L : Layout) (w : RangeV) (x y : ℚ) :
    Bool :=
  collapsedR w || !((L.rangeRects w).any fun r => isInsideRect r x y)

/-- `isPointOutsideHighlightedLine` of variant 1 (variant 2 is the same
after its cache invalidation, which the pure model elides): true when the
line range is collapsed or its bounding rectangle does not contain the
point. -/
def isPointOutsideHighlightedLine (L : Layout) (r : RangeV) (x y : ℚ) :
    Bool :=
  collapsedR r || !isInsideRect (L.rangeRect r) x y

/-- The pointer-move handler of variant 1.  Returns the new word range and
line state together with the number of `caretPositionFromPoint` calls the
event performed. -/
def Impl1.pointerMoveHandler (env : Env) (doc : List DomNode) (x y : ℚ)
    (word : RangeV) (line : LR1State) : (RangeV × LR1State) × Nat :=
  let wordStep : RangeV × Option (Option Pos) × Nat :=
    if isPointOutsideHighlightedWord env.L word x y then
      let w0 := collapseR word
      let cp := env.caretAt x y
      let w1 := setHighlightWordRange Impl1.isDelimiter doc cp w0
      let w2 :=
        if isPointOutsideHighlightedWord env.L w1 x y then collapseR w1
        else w1
      (w2, some cp, 1)
    else (word, none, 0)
  let word' := wordStep.1
  if isPointOutsideHighlightedLine env.L line.range x y then
    let l0 := Impl1.collapseLine line
    let cpAndCost : Option Pos × Nat :=
      match wordStep.2.1 with
      | some cp => (cp, 0)
      | none => (env.caretAt x y, 1)
    let l1 := Impl1.setHighlightLineRange env.L doc cpAndCost.1 y l0
    let l2 :=
      if isPointOutsideHighlightedLine env.L l1.range x y then
        Impl1.collapseLine l1
      else l1
    ((word', l2), wordStep.2.2 + cpAndCost.2)
  else ((word', line), wordStep.2.2)

/-- The pointer-move handler of variant 2 (same structure, over variant 2's
resolvers and delimiter alphabet). -/
def Impl2.pointerMoveHandler (env : Env) (doc : List DomNode) (x y : ℚ)
    (word : RangeV) (line : LR2State) : (RangeV × LR2State) × Nat :=
  let wordStep : RangeV × Option (Option Pos) × Nat :=
    if isPointOutsideHighlightedWord env.L word x y then
      let w0 := collapseR word
      let cp := env.caretAt x y
      let w1 := setHighlightWordRange Impl2.isDelimiter doc cp w0
      let w2 :=
        if isPointOutsideHighlightedWord env.L w1 x y then collapseR w1
        else w1
      (w2, some cp, 1)
    else (word, none, 0)
  let word' := wordStep.1
  if isPointOutsideHighlightedLine env.L line.range x y then
    let l0 := Impl2.collapseLine line
    let cpAndCost : Option Pos × Nat :=
      match wordStep.2.1 with
      | some cp => (cp, 0)
      | none => (env.caretAt x y, 1)
    let l1 := Impl2.setHighlightLineRange env.L doc cpAndCost.1 y l0
    let l2 :=
      if isPointOutsideHighlightedLine env.L l1.range x y then
        Impl2.collapseLine l1
      else l1
    ((word', l2), wordStep.2.2 + cpAndCost.2)
  else ((word', line), wordStep.2.2)

/-- The delimiter alphabet as the specification words it for variant 1:
whitespace, underscore, the hyphen variants, slash, parentheses, curly
braces, square brackets, comma, dot, colon, semicolon, question mark,
exclamation mark, and the ellipsis. -/
def specDelimiterProp1 (c : Char) : Prop :=
  isJsWhitespace c = true ∨ c = '_' ∨ c = '-' ∨ c = '—' ∨ c = '–' ∨
  c = '/' ∨ c = '(' ∨ c = ')' ∨ c = '\x7b' ∨ c = '\x7d' ∨ c = '[' ∨
  c = ']' ∨ c = ',' ∨ c = '.' ∨ c = ':' ∨ c = ';' ∨ c = '?' ∨ c = '!' ∨
  c = '…'

/-- The delimiter alphabet as the specification words it for variant 2:
the same fixed set with the hyphen variants `-` and `–`. -/
def specDelimiterProp2 (c : Char) : Prop :=
  isJsWhitespace c = true ∨ c = '_' ∨ c = '-' ∨ c = '–' ∨ c = '/' ∨
  c = '(' ∨ c = ')' ∨ c = '\x7b' ∨ c = '\x7d' ∨ c = '[' ∨ c = ']' ∨
  c = ',' ∨ c = '.' ∨ c = ':' ∨ c = ';' ∨ c = '?' ∨ c = '!' ∨ c = '…'

/-- A single-delimiter document: one text child holding a dot. -/
def docDot : List DomNode := [.text ['.']]

/-- Layout for `docDot`: the one-character seed range occupies a 10x10 box,
every other range is degenerate. -/
def layoutDot : Layout where
  rangeRect rv :=
    if rv = (((0, 0) : Pos), ((0, 1) : Pos)) then ⟨0, 0, 10, 10⟩
    else ⟨0, 0, 0, 0⟩
  rangeRects rv :=
    if rv = (((0, 0) : Pos), ((0, 1) : Pos)) then [⟨0, 0, 10, 10⟩]
    else []

/-- Environment for `docDot`: every hit-test lands on the dot. -/
def envDot : Env := { L := layoutDot, caretAt := fun _ _ => some (0, 0) }

/-- A single-letter document. -/
def docSingle : List DomNode := [.text ['a']]

/-- Layout whose seed range reports three client rectangles: two distinct
space-occupying ones separated by a degenerate one — the rendering artifact
shape that `hasMoreThanOne` scans for, with the degenerate rectangle
sitting between the witnesses. -/
def layoutAdj : Layout where
  rangeRect rv :=
    if rv = (((0, 0) : Pos), ((0, 1) : Pos)) then ⟨0, 0, 10, 10⟩
    else ⟨0, 0, 0, 0⟩
  rangeRects rv :=
    if rv = (((0, 0) : Pos), ((0, 1) : Pos)) then
      [⟨0, 0, 10, 10⟩, ⟨10, 0, 10, 10⟩, ⟨12, 0, 22, 10⟩]
    else []

/-- Layout whose seed range reports two adjacent distinct space-occupying
client rectangles. -/
def layoutTwo : Layout where
  rangeRect rv :=
    if rv = (((0, 0) : Pos), ((0, 1) : Pos)) then ⟨0, 0, 10, 10⟩
    else ⟨0, 0, 0, 0⟩
  rangeRects rv :=
    if rv = (((0, 0) : Pos), ((0, 1) : Pos)) then
      [⟨0, 0, 10, 10⟩, ⟨12, 0, 22, 10⟩]
    else []

/-- Layout placing every range inside one 10x10 box (used for the
containment pre-check scenario). -/
def envIn : Env where
  L := { rangeRect := fun _ => ⟨0, 0, 10, 10⟩,
         rangeRects := fun _ => [⟨0, 0, 10, 10⟩] }
  caretAt := fun _ _ => none

/-- Every character of a text node is whitespace or zero-width (elements
are unconstrained): the all-whitespace document shape of the pure-seed
scenario. -/
def nodeAllWs : DomNode → Bool
  | .text u => u.all isWhitespaceOrZeroWidth
  | .elem _ => true

/-- A single-space document. -/
def docSpace : List DomNode := [.text [' ']]

/-- Layout of a two-line document used to compare the two single-line
heuristics: characters `0` and `1` of node `0` sit side by side on one
10-unit line, character `0` of node `1` sits on the next line. -/
def layoutEq : Layout where
  rangeRect rv :=
    if rv = (((0, 0) : Pos), ((0, 1) : Pos)) then ⟨0, 0, 10, 10⟩
    else if rv = (((0, 1) : Pos), ((0, 2) : Pos)) then ⟨10, 0, 20, 10⟩
    else if rv = (((0, 0) : Pos), ((0, 2) : Pos)) then ⟨0, 0, 20, 10⟩
    else if rv = (((1, 0) : Pos), ((1, 1) : Pos)) then ⟨0, 20, 10, 30⟩
    else if rv = (((0, 0) : Pos), ((1, 1) : Pos)) then ⟨0, 0, 20, 30⟩
    else ⟨0, 0, 0, 0⟩
  rangeRects rv :=
    if rv = (((0, 0) : Pos), ((0, 2) : Pos)) then [⟨0, 0, 20, 10⟩]
    else if rv = (((0, 0) : Pos), ((1, 1) : Pos)) then
      [⟨0, 0, 20, 10⟩, ⟨0, 20, 10, 30⟩]
    else []

/-- A non-collapsed variant 1 line state inside `envIn`. -/
def lineIn1 : LR1State :=
  { range := ((0, 0), (0, 1)), bTop := 0, bBot := 10, minH := 10,
    checks := 0 }

/-- A non-collapsed variant 2 line state inside `envIn`. -/
def lineIn2 : LR2State := { range := ((0, 0), (0, 1)), checks := 0 }

/-- Concrete content for the run "ab" split by markup: a letter `a`, an
empty text sibling, then a letter `b`. -/
def docSplitWord : List DomNode := [.text ['a'], .text [], .text ['b']]

/-- Concrete content where a word is followed by an empty text sibling and
then an element: the forward search ends in the empty text node. -/
def docTrailingEmpty : List DomNode := [.text ['a', 'b'], .text [], .elem true]

/-- The two-sided flattened characterization of a word-resolver result
position, stated relative to the flattened reversed-text-before `P` and
flattened text-after `S` of the input position: the result sits after
exactly the word characters of `S` have been consumed into the range. -/
def EndZip (isDel : Char → Bool) (doc : List DomNode) (P S : List Char)
    (res : Nat × Nat) : Prop :=
  ∃ u, doc[res.1]? = some (.text u) ∧ res.2 ≤ u.length ∧
    u.drop res.2 ++ flatAfter doc (res.1 + 1)
      = S.dropWhile (fun c => !isDel c) ∧
    (u.take res.2).reverse ++ flatBeforeRev doc res.1
      = (S.takeWhile (fun c => !isDel c)).reverse ++ P

/-- Two-sided flattened characterization of the backward word search, with
the additional fact that the result's text node is the original node or a
non-empty node (the backward walk only enters non-empty siblings). -/
def StartZip (isDel : Char → Bool) (doc : List DomNode) (i0 : Nat)
    (t0 : List Char) (P S : List Char) (res : Nat × Nat) : Prop :=
  ∃ u, doc[res.1]? = some (.text u) ∧ res.2 ≤ u.length ∧
    ((res.1 = i0 ∧ u = t0) ∨ u ≠ []) ∧
    (u.take res.2).reverse ++ flatBeforeRev doc res.1
      = P.dropWhile (fun c => !isDel c) ∧
    u.drop res.2 ++ flatAfter doc (res.1 + 1)
      = (P.takeWhile (fun c => !isDel c)).reverse ++ S

/-- The boundary-run invariant's target: index `j` references a non-empty
text child. -/
def refsNonEmptyText (doc : List DomNode) (j : Nat) : Prop :=
  ∃ u, doc[j]? = some (.text u) ∧ u ≠ []

/-! Generic list facts used by the word-resolver proofs. -/

theorem takeWhile_append_all {p : α → Bool} {l₁ : List α} (l₂ : List α)
    (h : ∀ a ∈ l₁, p a = true) :
    (l₁ ++ l₂).takeWhile p = l₁ ++ l₂.takeWhile p := by
  induction l₁ with
  | nil => simp
  | cons a l ih =>
    simp only [List.cons_append, List.takeWhile_cons]
    rw [h a (by simp), ih fun b hb => h b (by simp [hb])]
    simp

theorem dropWhile_append_all {p : α → Bool} {l₁ : List α} (l₂ : List α)
    (h : ∀ a ∈ l₁, p a = true) :
    (l₁ ++ l₂).dropWhile p = l₂.dropWhile p := by
  induction l₁ with
  | nil => simp
  | cons a l ih =>
    simp only [List.cons_append, List.dropWhile_cons]
    rw [h a (by simp), ih fun b hb => h b (by simp [hb])]
    simp

theorem takeWhile_append_stop {p : α → Bool} {l₁ : List α} (l₂ : List α)
    (h : l₁.dropWhile p ≠ []) :
    (l₁ ++ l₂).takeWhile p = l₁.takeWhile p := by
  induction l₁ with
  | nil => simp at h
  | cons a l ih =>
    cases hpa : p a with
    | false => simp [List.takeWhile_cons, hpa]
    | true =>
      have h' : l.dropWhile p ≠ [] := by
        simpa [List.dropWhile_cons, hpa] using h
      simp [List.takeWhile_cons, hpa, ih h']

theorem dropWhile_append_stop {p : α → Bool} {l₁ : List α} (l₂ : List α)
    (h : l₁.dropWhile p ≠ []) :
    (l₁ ++ l₂).dropWhile p = l₁.dropWhile p ++ l₂ := by
  induction l₁ with
  | nil => simp at h
  | cons a l ih =>
    cases hpa : p a with
    | false => simp [List.dropWhile_cons, hpa]
    | true =>
      have h' : l.dropWhile p ≠ [] := by
        simpa [List.dropWhile_cons, hpa] using h
      simp [List.dropWhile_cons, hpa, ih h']

theorem reverse_eq_getLast_cons {l : List α} (h : l ≠ []) :
    l.reverse = l.getLast h :: (l.take (l.length - 1)).reverse := by
  conv_lhs => rw [← List.dropLast_append_getLast h]
  rw [List.reverse_append, ← List.dropLast_eq_take]
  simp

theorem drop_length_sub_one {l : List α} (h : l ≠ []) :
    l.drop (l.length - 1) = [l.getLast h] := by
  have hlt : l.length - 1 < l.length := by
    cases l with
    | nil => simp at h
    | cons a t => simp
  have h2 : l.length - 1 + 1 = l.length := by omega
  rw [List.drop_eq_getElem_cons hlt, h2, List.drop_length]
  congr 1
  exact (List.getLast_eq_getElem l h).symm

/-! Characterizations of the two character-scanning loops. -/

theorem scanFwdCount_spec (isDel : Char → Bool) :
    ∀ s : List Char,
      scanFwdCount isDel s = (s.takeWhile (fun c => !isDel c)).length := by
  intro s
  induction s with
  | nil => rfl
  | cons c cs ih =>
    rw [scanFwdCount, List.takeWhile_cons]
    cases hd : isDel c with
    | true => simp [hd]
    | false => simp [hd, ih]

theorem scanFwd_zip (isDel : Char → Bool) (t : List Char) :
    ∀ o, o ≤ t.length →
      o ≤ scanFwd isDel t o ∧ scanFwd isDel t o ≤ t.length ∧
      t.drop (scanFwd isDel t o)
        = (t.drop o).dropWhile (fun c => !isDel c) ∧
      t.take (scanFwd isDel t o)
        = t.take o ++ (t.drop o).takeWhile (fun c => !isDel c) := by
  intro o ho
  rw [scanFwd, scanFwdCount_spec]
  set A := (t.drop o).takeWhile (fun c => !isDel c) with hA
  set B := (t.drop o).dropWhile (fun c => !isDel c) with hB
  have hsplit0 : A ++ B = t.drop o := by
    rw [hA, hB, List.takeWhile_append_dropWhile]
  have hsplit : (t.take o ++ A) ++ B = t := by
    rw [List.append_assoc, hsplit0, List.take_append_drop]
  have hABlen : A.length + B.length = t.length - o := by
    have := congrArg List.length hsplit0
    simpa using this
  have hlen_part : (t.take o ++ A).length = o + A.length := by
    simp [List.length_take]
    omega
  refine ⟨by omega, by omega, ?_, ?_⟩
  · have h1 := List.drop_left (t.take o ++ A) B
    rw [hlen_part, hsplit] at h1
    exact h1
  · have h1 := List.take_left (t.take o ++ A) B
    rw [hlen_part, hsplit] at h1
    exact h1

theorem scanBwd_zip (isDel : Char → Bool) (t : List Char) :
    ∀ o, o ≤ t.length →
      scanBwd isDel t o ≤ o ∧
      (t.take (scanBwd isDel t o)).reverse
        = ((t.take o).reverse).dropWhile (fun c => !isDel c) ∧
      t.drop (scanBwd isDel t o)
        = (((t.take o).reverse).takeWhile (fun c => !isDel c)).reverse
            ++ t.drop o := by
  intro o
  induction o with
  | zero => intro _; simp [scanBwd]
  | succ k ih =>
    intro ho
    have hk : k < t.length := by omega
    have hchar : jsCharAt t k = t[k] := by
      simp [jsCharAt, List.getD_eq_getElem?_getD, List.getElem?_eq_getElem hk]
    have htake : t.take (k + 1) = t.take k ++ [t[k]] := by
      rw [List.take_succ]
      simp [List.getElem?_eq_getElem hk]
    have hrev : (t.take (k + 1)).reverse = t[k] :: (t.take k).reverse := by
      rw [htake]; simp
    have hdropk : t.drop k = t[k] :: t.drop (k + 1) := List.drop_eq_getElem_cons hk
    rw [scanBwd]
    by_cases hd : isDel (jsCharAt t k)
    · rw [if_pos hd]
      rw [hchar] at hd
      refine ⟨le_refl _, ?_, ?_⟩
      · rw [hrev, List.dropWhile_cons]
        simp [hd]
      · rw [hrev, List.takeWhile_cons]
        simp [hd]
    · rw [if_neg hd]
      rw [hchar] at hd
      obtain ⟨h1, h2, h3⟩ := ih (by omega)
      refine ⟨by omega, ?_, ?_⟩
      · rw [h2, hrev, List.dropWhile_cons]
        simp [hd]
      · rw [h3, hrev, List.takeWhile_cons]
        simp only [hd, Bool.not_false, if_pos]
        rw [hdropk]
        simp

/-! Unfolding equations for the flattened views. -/

theorem flatAfter_text {doc : List DomNode} {j : Nat} {u : List Char}
    (h : doc[j]? = some (.text u)) :
    flatAfter doc j = u ++ flatAfter doc (j + 1) := by
  rw [flatAfter]
  split <;> simp_all

theorem flatAfter_elem {doc : List DomNode} {j : Nat} {b : Bool}
    (h : doc[j]? = some (.elem b)) :
    flatAfter doc j = [] := by
  rw [flatAfter]
  split <;> simp_all

theorem flatAfter_none {doc : List DomNode} {j : Nat}
    (h : doc[j]? = none) :
    flatAfter doc j = [] := by
  rw [flatAfter]
  split <;> simp_all

theorem flatBeforeRev_text {doc : List DomNode} {j : Nat} {u : List Char}
    (h : doc[j]? = some (.text u)) :
    flatBeforeRev doc (j + 1) = u.reverse ++ flatBeforeRev doc j := by
  rw [flatBeforeRev]
  split <;> simp_all

theorem flatBeforeRev_elem {doc : List DomNode} {j : Nat} {b : Bool}
    (h : doc[j]? = some (.elem b)) :
    flatBeforeRev doc (j + 1) = [] := by
  rw [flatBeforeRev]
  split <;> simp_all

theorem flatBeforeRev_none {doc : List DomNode} {j : Nat}
    (h : doc[j]? = none) :
    flatBeforeRev doc (j + 1) = [] := by
  rw [flatBeforeRev]
  split <;> simp_all

theorem flatBeforeRev_empties (doc : List DomNode) (a : Nat) :
    ∀ b, a ≤ b → (∀ k, a ≤ k → k < b → doc[k]? = some (.text [])) →
      flatBeforeRev doc b = flatBeforeRev doc a := by
  intro b
  induction b with
  | zero =>
    intro hab _
    have : a = 0 := by omega
    rw [this]
  | succ j ih =>
    intro hab hk
    by_cases hj : a = j + 1
    · rw [hj]
    · have haj : a ≤ j := by omega
      rw [flatBeforeRev_text (hk j haj (by omega))]
      simpa using ih haj fun k h1 h2 => hk k h1 (by omega)

theorem flatAfter_empties (doc : List DomNode) (a : Nat) :
    ∀ b, a ≤ b → (∀ k, a ≤ k → k < b → doc[k]? = some (.text [])) →
      flatAfter doc a = flatAfter doc b := by
  intro b hab
  induction b, hab using Nat.le_induction with
  | base => intro _; rfl
  | succ m hm ih =>
    intro hk
    rw [ih fun k h1 h2 => hk k h1 (by omega)]
    rw [flatAfter_text (hk m hm (by omega))]
    simp

theorem rev_drop_append_rev_take (t : List Char) (o : Nat) :
    (t.drop o).reverse ++ (t.take o).reverse = t.reverse := by
  rw [← List.reverse_append, List.take_append_drop]

theorem endZip_within (isDel : Char → Bool) (doc : List DomNode)
    {i : Nat} {t : List Char} {o : Nat}
    (hi : doc[i]? = some (.text t)) (ho : o ≤ t.length)
    (hlt : scanFwd isDel t o < t.length) :
    EndZip isDel doc ((t.take o).reverse ++ flatBeforeRev doc i)
      (t.drop o ++ flatAfter doc (i + 1)) (i, scanFwd isDel t o) := by
  obtain ⟨hle, hlen, hdw, htw⟩ := scanFwd_zip isDel t o ho
  have hne : (t.drop o).dropWhile (fun c => !isDel c) ≠ [] := by
    intro hnil
    rw [← hdw] at hnil
    have hlen0 := congrArg List.length hnil
    simp at hlen0
    omega
  refine ⟨t, hi, hlen, ?_, ?_⟩
  · rw [dropWhile_append_stop _ hne, hdw]
  · rw [takeWhile_append_stop _ hne, htw]
    simp [List.reverse_append]

theorem endZip_exhaust (isDel : Char → Bool) (doc : List DomNode)
    {i : Nat} {t : List Char} {o : Nat}
    (hi : doc[i]? = some (.text t)) (ho : o ≤ t.length)
    (hge : ¬ scanFwd isDel t o < t.length)
    (hfa : flatAfter doc (i + 1) = []) :
    EndZip isDel doc ((t.take o).reverse ++ flatBeforeRev doc i)
      (t.drop o ++ flatAfter doc (i + 1)) (i, scanFwd isDel t o) := by
  obtain ⟨hle, hlen, hdw, htw⟩ := scanFwd_zip isDel t o ho
  have hsl : scanFwd isDel t o = t.length := by omega
  have hall : ∀ a ∈ t.drop o, (!isDel a) = true := by
    rw [← List.dropWhile_eq_nil_iff]
    rw [← hdw, hsl, List.drop_length]
  have hdnil : (t.drop o).dropWhile (fun c => !isDel c) = [] :=
    List.dropWhile_eq_nil_iff.mpr hall
  have htka : (t.drop o).takeWhile (fun c => !isDel c) = t.drop o := by
    have h5 := List.takeWhile_append_dropWhile (fun c => !isDel c)
      (t.drop o)
    rw [hdnil, List.append_nil] at h5
    exact h5
  refine ⟨t, hi, hlen, ?_, ?_⟩
  · rw [hsl, List.drop_length, hfa]
    simp [hdnil]
  · rw [hsl, List.take_length, hfa]
    simp only [List.append_nil]
    rw [htka, ← rev_drop_append_rev_take t o]
    simp [List.append_assoc]

theorem findWordEnd_zip (isDel : Char → Bool) (doc : List DomNode) :
    ∀ rest i t o,
      doc[i]? = some (.text t) → rest = doc.drop (i + 1) → o ≤ t.length →
      EndZip isDel doc ((t.take o).reverse ++ flatBeforeRev doc i)
        (t.drop o ++ flatAfter doc (i + 1))
        (findWordEnd isDel i t o rest) := by
  intro rest
  induction rest with
  | nil =>
    intro i t o hi hrest ho
    rw [findWordEnd]
    by_cases hlt : scanFwd isDel t o < t.length
    · exact endZip_within isDel doc hi ho hlt
    · have hnone : doc[i + 1]? = none := by
        rw [List.getElem?_eq_none_iff]
        have hlen1 := congrArg List.length hrest
        simp [List.length_drop] at hlen1
        omega
      exact endZip_exhaust isDel doc hi ho hlt (flatAfter_none hnone)
  | cons hd rest' ih =>
    intro i t o hi hrest ho
    have hlt1 : i + 1 < doc.length := by
      by_contra hcon
      rw [List.drop_eq_nil_of_le (by omega)] at hrest
      simp at hrest
    have hdecomp : doc.drop (i + 1) = doc[i + 1] :: doc.drop (i + 2) :=
      List.drop_eq_getElem_cons hlt1
    rw [hdecomp] at hrest
    injection hrest with hhd hrest'
    have hsome : doc[i + 1]? = some hd := by
      rw [hhd]
      exact List.getElem?_eq_getElem hlt1
    cases hd with
    | text u =>
      rw [findWordEnd]
      by_cases hlt : scanFwd isDel t o < t.length
      · simp only [hlt, if_true]
        exact endZip_within isDel doc hi ho hlt
      · simp only [hlt, if_false]
        obtain ⟨hle, hlen, hdw, htw⟩ := scanFwd_zip isDel t o ho
        have hsl : scanFwd isDel t o = t.length := by omega
        have hall : ∀ a ∈ t.drop o, (!isDel a) = true := by
          rw [← List.dropWhile_eq_nil_iff]
          rw [← hdw, hsl, List.drop_length]
        have hIH := ih (i + 1) u 0 hsome hrest' (Nat.zero_le _)
        simp only [List.take_zero, List.drop_zero, List.reverse_nil,
          List.nil_append] at hIH
        obtain ⟨v, h1, h2, h3, h4⟩ := hIH
        refine ⟨v, h1, h2, ?_, ?_⟩
        · rw [flatAfter_text hsome, dropWhile_append_all _ hall]
          exact h3
        · rw [flatAfter_text hsome, takeWhile_append_all _ hall]
          rw [h4, flatBeforeRev_text hi]
          rw [List.reverse_append]
          simp only [List.append_assoc]
          rw [← rev_drop_append_rev_take t o]
          simp [List.append_assoc]
    | elem b =>
      rw [findWordEnd]
      by_cases hlt : scanFwd isDel t o < t.length
      · exact endZip_within isDel doc hi ho hlt
      · exact endZip_exhaust isDel doc hi ho hlt (flatAfter_elem hsome)

theorem findWordStart_zip_of_walk (isDel : Char → Bool) (doc : List DomNode)
    (i : Nat) (t : List Char) (o : Nat) (prevRest : List DomNode)
    (hi : doc[i]? = some (.text t)) (ho : o ≤ t.length)
    (hstep : StartZip isDel doc i t (flatBeforeRev doc i)
      (t ++ flatAfter doc (i + 1))
      (wordStartWalk isDel i (i - 1) prevRest)) :
    StartZip isDel doc i t ((t.take o).reverse ++ flatBeforeRev doc i)
      (t.drop o ++ flatAfter doc (i + 1))
      (findWordStart isDel i t o prevRest) := by
  obtain ⟨h1, h2, h3⟩ := scanBwd_zip isDel t o ho
  rw [findWordStart]
  by_cases h0 : 0 < scanBwd isDel t o
  · simp only [h0, if_true]
    have hne : ((t.take o).reverse).dropWhile (fun c => !isDel c) ≠ [] := by
      intro hnil
      rw [← h2] at hnil
      have hlen0 := congrArg List.length hnil
      rw [List.length_reverse, List.length_take] at hlen0
      simp only [List.length_nil] at hlen0
      omega
    refine ⟨t, hi, by omega, Or.inl ⟨rfl, rfl⟩, ?_, ?_⟩
    · rw [dropWhile_append_stop _ hne, h2]
    · rw [takeWhile_append_stop _ hne, h3]
      simp [List.append_assoc]
  · simp only [h0, if_false]
    have hz : scanBwd isDel t o = 0 := by omega
    have hall : ∀ a ∈ (t.take o).reverse, (!isDel a) = true := by
      rw [← List.dropWhile_eq_nil_iff]
      rw [← h2, hz]
      simp
    obtain ⟨u, H1, H2, H3, H4, H5⟩ := hstep
    refine ⟨u, H1, H2, H3, ?_, ?_⟩
    · rw [dropWhile_append_all _ hall]
      exact H4
    · rw [takeWhile_append_all _ hall, List.reverse_append]
      rw [H5]
      simp only [List.reverse_reverse, List.append_assoc]
      rw [← List.append_assoc (t.take o) (t.drop o) _, List.take_append_drop]

theorem wordStartWalk_zip (isDel : Char → Bool) (doc : List DomNode) :
    ∀ m, m ≤ doc.length →
      ∀ iorig t0, doc[iorig]? = some (.text t0) → m ≤ iorig →
      (∀ k, m ≤ k → k < iorig → doc[k]? = some (.text [])) →
      StartZip isDel doc iorig t0 (flatBeforeRev doc m)
        (t0 ++ flatAfter doc (iorig + 1))
        (wordStartWalk isDel iorig (m - 1) ((doc.take m).reverse)) := by
  intro m
  induction m with
  | zero =>
    intro _ iorig t0 hio hj hk
    have hfb : flatBeforeRev doc iorig = flatBeforeRev doc 0 :=
      flatBeforeRev_empties doc 0 iorig (Nat.zero_le _)
        fun k h1 h2 => hk k h1 h2
    simp only [List.take_zero, List.reverse_nil]
    rw [wordStartWalk]
    refine ⟨t0, hio, Nat.zero_le _, Or.inl ⟨rfl, rfl⟩, ?_, ?_⟩
    · rw [hfb]
      simp [flatBeforeRev]
    · simp [flatBeforeRev]
  | succ k ih =>
    intro hm iorig t0 hio hj hk
    have hklt : k < doc.length := by omega
    have htake : (doc.take (k + 1)).reverse
        = doc[k] :: (doc.take k).reverse := by
      rw [List.take_succ, List.getElem?_eq_getElem hklt]
      simp
    simp only [Nat.add_sub_cancel]
    rw [htake]
    cases hdk : doc[k] with
    | text u =>
      have hkk : doc[k]? = some (.text u) := by
        rw [List.getElem?_eq_getElem hklt, hdk]
      cases u with
      | nil =>
        have hfb : flatBeforeRev doc (k + 1) = flatBeforeRev doc k := by
          rw [flatBeforeRev_text hkk]
          simp
        rw [hfb, wordStartWalk]
        exact ih (by omega) iorig t0 hio (by omega)
          fun m h1 h2 => by
            rcases Nat.eq_or_lt_of_le h1 with h | h
            · rw [← h]; exact hkk
            · exact hk m (by omega) h2
      | cons c cs =>
        have hne : (c :: cs) ≠ [] := by simp
        have hrev : (c :: cs).reverse
            = (c :: cs).getLast hne
              :: ((c :: cs).take ((c :: cs).length - 1)).reverse :=
          reverse_eq_getLast_cons hne
        have hfb : flatBeforeRev doc (k + 1)
            = (c :: cs).reverse ++ flatBeforeRev doc k :=
          flatBeforeRev_text hkk
        have hfbe : flatBeforeRev doc iorig = flatBeforeRev doc (k + 1) :=
          flatBeforeRev_empties doc (k + 1) iorig hj hk
        have hfae : flatAfter doc (k + 1) = flatAfter doc iorig :=
          flatAfter_empties doc (k + 1) iorig hj hk
        have hfat : flatAfter doc iorig = t0 ++ flatAfter doc (iorig + 1) :=
          flatAfter_text hio
        rw [wordStartWalk]
        by_cases hd : isDel ((c :: cs).getLast hne)
        · rw [if_pos hd]
          refine ⟨t0, hio, Nat.zero_le _, Or.inl ⟨rfl, rfl⟩, ?_, ?_⟩
          · rw [hfbe, hfb, hrev]
            rw [List.cons_append, List.dropWhile_cons]
            simp [hd]
          · rw [hfb, hrev, List.cons_append, List.takeWhile_cons]
            simp [hd]
        · rw [if_neg hd]
          have hstep := ih (by omega) k (c :: cs) hkk (le_refl k)
            fun m h1 h2 => by omega
          have hzip := findWordStart_zip_of_walk isDel doc k (c :: cs)
            ((c :: cs).length - 1) ((doc.take k).reverse) hkk (by omega)
            hstep
          obtain ⟨u, H1, H2, H3, H4, H5⟩ := hzip
          have hdrop1 : (c :: cs).drop ((c :: cs).length - 1)
              = [(c :: cs).getLast hne] := drop_length_sub_one hne
          refine ⟨u, H1, H2, ?_, ?_, ?_⟩
          · rcases H3 with ⟨_, hu⟩ | hu
            · exact Or.inr (by rw [hu]; simp)
            · exact Or.inr hu
          · rw [hfb, hrev, List.cons_append, List.dropWhile_cons]
            simp only [hd, Bool.not_false, if_pos]
            exact H4
          · rw [hfb, hrev, List.cons_append, List.takeWhile_cons]
            simp only [hd, Bool.not_false, if_pos]
            rw [hdrop1, hfae, hfat] at H5
            simp only [List.singleton_append] at H5
            simp only [List.reverse_cons, List.append_assoc,
              List.singleton_append]
            exact H5
    | elem b =>
      have hkk : doc[k]? = some (.elem b) := by
        rw [List.getElem?_eq_getElem hklt, hdk]
      have hfb : flatBeforeRev doc (k + 1) = [] := flatBeforeRev_elem hkk
      have hfbe : flatBeforeRev doc iorig = flatBeforeRev doc (k + 1) :=
        flatBeforeRev_empties doc (k + 1) iorig hj hk
      rw [wordStartWalk]
      refine ⟨t0, hio, Nat.zero_le _, Or.inl ⟨rfl, rfl⟩, ?_, ?_⟩
      · rw [hfbe, hfb]
        simp
      · rw [hfb]
        simp

theorem findWordStart_zip (isDel : Char → Bool) (doc : List DomNode)
    (i : Nat) (t : List Char) (o : Nat)
    (hi : doc[i]? = some (.text t)) (ho : o ≤ t.length) :
    StartZip isDel doc i t ((t.take o).reverse ++ flatBeforeRev doc i)
      (t.drop o ++ flatAfter doc (i + 1))
      (findWordStart isDel i t o ((doc.take i).reverse)) :=
  findWordStart_zip_of_walk isDel doc i t o ((doc.take i).reverse) hi ho
    (wordStartWalk_zip isDel doc i
      (by have := (List.getElem?_eq_some_iff.mp hi).1; omega)
      i t hi (le_refl i) fun m h1 h2 => by omega)


/-- Claim C3: each variant's `isDelimiter` is a total predicate on single
characters, true exactly on its fixed literal set (JavaScript `\s`
whitespace together with the enumerated punctuation; no locale
dependence enters the definitions), and each variant's `isWordChar` is its
exact pointwise complement. -/
theorem delimiter_classifier_exact (c : Char) :
    (Impl1.isDelimiter c = true ↔ specDelimiterProp1 c) ∧
    (Impl2.isDelimiter c = true ↔ specDelimiterProp2 c) ∧
    Impl1.isWordChar c = !Impl1.isDelimiter c ∧
    Impl2.isWordChar c = !Impl2.isDelimiter c := by
  refine ⟨?_, ?_, rfl, rfl⟩
  · simp [Impl1.isDelimiter, delimiterChars1, specDelimiterProp1,
      List.elem_iff]
  · simp [Impl2.isDelimiter, delimiterChars2, specDelimiterProp2,
      List.elem_iff]

/-- In the word-character case the resolver bails out of neither guard and
returns the pair of backward and forward searches. -/
theorem setHighlightWordRange_eq_of_word (isDel : Char → Bool)
    (doc : List DomNode) (i o : Nat) (t : List Char) (r : RangeV)
    (hi : doc[i]? = some (.text t)) (ho : o < t.length)
    (hw : isDel (t.get ⟨o, ho⟩) = false) :
    setHighlightWordRange isDel doc (some (i, o)) r
      = (findWordStart isDel i t o ((doc.take i).reverse),
        findWordEnd isDel i t (o + 1) (doc.drop (i + 1))) := by
  rw [setHighlightWordRange, hi]
  dsimp only []
  rw [dif_pos ho, if_neg (by
    simp only [List.get_eq_getElem] at hw
    simp [hw])]

/-- Claim C2: when the hit-test position's character is a word character,
word resolution sets the word range to exactly the maximal contiguous run
of word characters containing the position.  The characterization is
two-sided and flattened: writing `P`/`S` for the (reversed) flattened text
before/after a position within its run of consecutive text siblings
(`flatBeforeRev`/`flatAfter`, which skip over empty sibling runs
transparently and end at a non-text sibling), the resolved start is the
position reached by removing the word characters of `P`, and the resolved
end the one reached by removing the word characters of `S` past the seed
character — so the range may span several sibling runs and passes through
empty runs in both directions. -/
theorem word_resolution_maximal_run (isDel : Char → Bool)
    (doc : List DomNode) (i o : Nat) (t : List Char) (r : RangeV)
    (hi : doc[i]? = some (.text t)) (ho : o < t.length)
    (hw : isDel (t.get ⟨o, ho⟩) = false) :
    StartZip isDel doc i t ((t.take o).reverse ++ flatBeforeRev doc i)
      (t.drop o ++ flatAfter doc (i + 1))
      (setHighlightWordRange isDel doc (some (i, o)) r).1 ∧
    EndZip isDel doc ((t.take (o + 1)).reverse ++ flatBeforeRev doc i)
      (t.drop (o + 1) ++ flatAfter doc (i + 1))
      (setHighlightWordRange isDel doc (some (i, o)) r).2 := by
  rw [setHighlightWordRange_eq_of_word isDel doc i o t r hi ho hw]
  exact ⟨findWordStart_zip isDel doc i t o hi (le_of_lt ho),
    findWordEnd_zip isDel doc (doc.drop (i + 1)) i t (o + 1) hi rfl
      (by omega)⟩

/-- Witness for claim C2 at the cross-run document `docSplitWord`: the word
resolver seeded on the `a` resolves a range whose flattened boundaries are
those of the full word "ab" spanning both non-empty runs. -/
theorem word_resolution_maximal_run_witness :
    StartZip Impl1.isDelimiter docSplitWord 0 ['a']
      ((['a'].take 0).reverse ++ flatBeforeRev docSplitWord 0)
      (['a'].drop 0 ++ flatAfter docSplitWord 1)
      (setHighlightWordRange Impl1.isDelimiter docSplitWord (some (0, 0))
        ((0, 0), (0, 0))).1 ∧
    EndZip Impl1.isDelimiter docSplitWord
      ((['a'].take 1).reverse ++ flatBeforeRev docSplitWord 0)
      (['a'].drop 1 ++ flatAfter docSplitWord 1)
      (setHighlightWordRange Impl1.isDelimiter docSplitWord (some (0, 0))
        ((0, 0), (0, 0))).2 :=
  word_resolution_maximal_run Impl1.isDelimiter docSplitWord 0 0 ['a']
    ((0, 0), (0, 0)) rfl (by decide) (by decide)

/-- Counterexample to claim C6 as stated: resolving the word at `(0, 0)` of
`docTrailingEmpty` completes with a non-collapsed word range whose end
boundary references the empty text run (node 1, offset 0). -/
theorem word_range_end_in_empty_run :
    collapsedR (setHighlightWordRange Impl1.isDelimiter docTrailingEmpty
      (some (0, 0)) ((0, 0), (0, 0))) = false ∧
    docTrailingEmpty[(setHighlightWordRange Impl1.isDelimiter
      docTrailingEmpty (some (0, 0)) ((0, 0), (0, 0))).2.1]?
      = some (DomNode.text []) := by
  decide

/-- Claim C7: a hit-test position on a delimiter character makes word
resolution return the range it was given (the handler passes the collapsed
range in, so the word stays collapsed), while line resolution on the same
event proceeds independently — in the concrete dot scenario the handler
leaves the word collapsed yet produces the non-collapsed line range over
the dot. -/
theorem delimiter_word_collapses_line_proceeds (isDel : Char → Bool)
    (doc : List DomNode) (i o : Nat) (t : List Char) (r : RangeV)
    (hi : doc[i]? = some (.text t)) (ho : o < t.length)
    (hd : isDel (t.get ⟨o, ho⟩) = true) :
    setHighlightWordRange isDel doc (some (i, o)) r = r ∧
    (Impl2.pointerMoveHandler envDot docDot 5 5 ((0, 0), (0, 0))
        { range := ((0, 0), (0, 0)), checks := 0 }).1.1 = ((0, 0), (0, 0)) ∧
    collapsedR (Impl2.pointerMoveHandler envDot docDot 5 5 ((0, 0), (0, 0))
        { range := ((0, 0), (0, 0)), checks := 0 }).1.1 = true ∧
    (Impl2.pointerMoveHandler envDot docDot 5 5 ((0, 0), (0, 0))
        { range := ((0, 0), (0, 0)), checks := 0 }).1.2.range
      = ((0, 0), (0, 1)) ∧
    collapsedR (Impl2.pointerMoveHandler envDot docDot 5 5 ((0, 0), (0, 0))
        { range := ((0, 0), (0, 0)), checks := 0 }).1.2.range = false := by
  refine ⟨?_, by with_unfolding_all decide, by with_unfolding_all decide,
    by with_unfolding_all decide, by with_unfolding_all decide⟩
  rw [setHighlightWordRange, hi]
  dsimp only []
  rw [dif_pos ho, if_pos (by
    simp only [List.get_eq_getElem] at hd
    simp [hd])]

/-- Witness for claim C7: in the dot document the resolver hands back the
range unchanged, and the concrete handler run highlights the line but not
the word. -/
theorem delimiter_word_collapses_line_proceeds_witness :
    setHighlightWordRange Impl2.isDelimiter docDot (some (0, 0))
      ((1, 2), (3, 4)) = ((1, 2), (3, 4)) ∧
    collapsedR (Impl2.pointerMoveHandler envDot docDot 5 5 ((0, 0), (0, 0))
        { range := ((0, 0), (0, 0)), checks := 0 }).1.1 = true ∧
    collapsedR (Impl2.pointerMoveHandler envDot docDot 5 5 ((0, 0), (0, 0))
        { range := ((0, 0), (0, 0)), checks := 0 }).1.2.range = false := by
  have h := delimiter_word_collapses_line_proceeds Impl2.isDelimiter docDot
    0 0 ['.'] ((1, 2), (3, 4)) rfl (by decide) (by decide)
  exact ⟨h.1, h.2.2.1, h.2.2.2.2⟩

/-- Counterexample to claim C8 as stated: `layoutAdj`'s seed range reports
two non-degenerate client rectangles (three raw ones, the distinct
space-occupying pair separated by a degenerate one), yet variant 1's line
resolution does not collapse — `hasMoreThanOne` only compares adjacent
rectangle pairs and both adjacent pairs straddle the degenerate
rectangle. -/
theorem seed_multi_rect_not_collapsed :
    2 ≤ ((layoutAdj.rangeRects ((0, 0), (0, 1))).filter
      rectOccupiesSpace).length ∧
    hasMoreThanOne (layoutAdj.rangeRects ((0, 0), (0, 1))) = false ∧
    collapsedR (Impl1.setHighlightLineRange layoutAdj docSingle
      (some (0, 0)) 5
      { range := ((0, 0), (0, 0)), bTop := 0, bBot := 0, minH := 0,
        checks := 0 }).range = false := by
  with_unfolding_all decide

/-- Claim C9: when the pointer lies inside the highlighted word's client
rectangles and inside the highlighted line's bounding rectangle, the
pointer-move handler of either variant performs no hit-test and returns
both ranges unchanged; moreover each containment check gates only its own
range — the word stays untouched whenever its check passes, and whenever
the line check passes the line stays untouched and the event's hit-test
count is exactly that of the word side. -/
theorem containment_precheck_skips (env : Env) (doc : List DomNode)
    (x y : ℚ) (word : RangeV) (line1 : LR1State) (line2 : LR2State)
    (hw : isPointOutsideHighlightedWord env.L word x y = false) :
    (isPointOutsideHighlightedLine env.L line1.range x y = false →
      Impl1.pointerMoveHandler env doc x y word line1
        = ((word, line1), 0)) ∧
    (isPointOutsideHighlightedLine env.L line2.range x y = false →
      Impl2.pointerMoveHandler env doc x y word line2
        = ((word, line2), 0)) ∧
    (Impl1.pointerMoveHandler env doc x y word line1).1.1 = word ∧
    (Impl2.pointerMoveHandler env doc x y word line2).1.1 = word ∧
    (∀ w : RangeV,
      isPointOutsideHighlightedLine env.L line1.range x y = false →
      (Impl1.pointerMoveHandler env doc x y w line1).1.2 = line1 ∧
      (Impl1.pointerMoveHandler env doc x y w line1).2
        = (if isPointOutsideHighlightedWord env.L w x y then 1 else 0)) ∧
    (∀ w : RangeV,
      isPointOutsideHighlightedLine env.L line2.range x y = false →
      (Impl2.pointerMoveHandler env doc x y w line2).1.2 = line2 ∧
      (Impl2.pointerMoveHandler env doc x y w line2).2
        = (if isPointOutsideHighlightedWord env.L w x y then 1 else 0)) := by
  refine ⟨?_, ?_, ?_, ?_, ?_, ?_⟩
  · intro hl
    simp [Impl1.pointerMoveHandler, hw, hl]
  · intro hl
    simp [Impl2.pointerMoveHandler, hw, hl]
  · by_cases hl : isPointOutsideHighlightedLine env.L line1.range x y <;>
      simp [Impl1.pointerMoveHandler, hw, hl]
  · by_cases hl : isPointOutsideHighlightedLine env.L line2.range x y <;>
      simp [Impl2.pointerMoveHandler, hw, hl]
  · intro w hl
    by_cases hww : isPointOutsideHighlightedWord env.L w x y <;>
      simp [Impl1.pointerMoveHandler, hww, hl]
  · intro w hl
    by_cases hww : isPointOutsideHighlightedWord env.L w x y <;>
      simp [Impl2.pointerMoveHandler, hww, hl]

/-- Witness for claim C9 inside `envIn`: both handlers skip entirely. -/
theorem containment_precheck_skips_witness :
    Impl1.pointerMoveHandler envIn [] 5 5 ((0, 0), (0, 1)) lineIn1
      = ((((0, 0), (0, 1)), lineIn1), 0) ∧
    Impl2.pointerMoveHandler envIn [] 5 5 ((0, 0), (0, 1)) lineIn2
      = ((((0, 0), (0, 1)), lineIn2), 0) := by
  have h := containment_precheck_skips envIn [] 5 5 ((0, 0), (0, 1))
    lineIn1 lineIn2 (by with_unfolding_all decide)
  exact ⟨h.1 (by with_unfolding_all decide),
    h.2.1 (by with_unfolding_all decide)⟩

/-- Whitespace/zero-width characters are stepped over by variant 1's
forward line scan without touching the state. -/
theorem scanEnd1_skip (L : Layout) (oneChar : Bool) (i : Nat) :
    ∀ (w : List Char) (o : Nat) (suf : List Char) (st : LR1State),
      w.all isWhitespaceOrZeroWidth = true →
      Impl1.scanEnd L oneChar i o (w ++ suf) st
        = Impl1.scanEnd L oneChar i (o + w.length) suf st := by
  intro w
  induction w with
  | nil => intro o suf st _; simp
  | cons c w' ih =>
    intro o suf st hw
    simp only [List.all_cons, Bool.and_eq_true] at hw
    have harg : o + 1 + w'.length = o + (c :: w').length := by
      simp only [List.length_cons]
      omega
    rw [List.cons_append, Impl1.scanEnd, if_pos hw.1,
      ih (o + 1) suf st hw.2, harg]

/-- Whitespace/zero-width characters are stepped over by variant 1's
backward line scan without touching the state. -/
theorem scanStart1_skip (L : Layout) (oneChar : Bool) (i : Nat) :
    ∀ (w : List Char) (o : Nat) (bef : List Char) (st : LR1State),
      w.all isWhitespaceOrZeroWidth = true →
      Impl1.scanStart L oneChar i o (w ++ bef) st
        = Impl1.scanStart L oneChar i (o - w.length) bef st := by
  intro w
  induction w with
  | nil => intro o bef st _; simp
  | cons c w' ih =>
    intro o bef st hw
    simp only [List.all_cons, Bool.and_eq_true] at hw
    have harg : o - 1 - w'.length = o - (c :: w').length := by
      simp only [List.length_cons]
      omega
    rw [List.cons_append, Impl1.scanStart, if_pos hw.1,
      ih (o - 1) bef st hw.2, harg]

/-- Whitespace/zero-width characters are stepped over by variant 2's
forward line scan without touching the state or the grow flag. -/
theorem scanEnd2_skip (L : Layout) (oneChar : Bool) (i : Nat) :
    ∀ (w : List Char) (o : Nat) (suf : List Char) (cg : Bool)
      (st : LR2State),
      w.all isWhitespaceOrZeroWidth = true →
      Impl2.scanEnd L oneChar i o (w ++ suf) cg st
        = Impl2.scanEnd L oneChar i (o + w.length) suf cg st := by
  intro w
  induction w with
  | nil => intro o suf cg st _; simp
  | cons c w' ih =>
    intro o suf cg st hw
    simp only [List.all_cons, Bool.and_eq_true] at hw
    have harg : o + 1 + w'.length = o + (c :: w').length := by
      simp only [List.length_cons]
      omega
    rw [List.cons_append, Impl2.scanEnd, if_pos hw.1,
      ih (o + 1) suf cg st hw.2, harg]

/-- Whitespace/zero-width characters are stepped over by variant 2's
backward line scan without touching the state. -/
theorem scanStart2_skip (L : Layout) (oneChar : Bool) (i : Nat) :
    ∀ (w : List Char) (o : Nat) (bef : List Char) (st : LR2State),
      w.all isWhitespaceOrZeroWidth = true →
      Impl2.scanStart L oneChar i o (w ++ bef) st
        = Impl2.scanStart L oneChar i (o - w.length) bef st := by
  intro w
  induction w with
  | nil => intro o bef st _; simp
  | cons c w' ih =>
    intro o bef st hw
    simp only [List.all_cons, Bool.and_eq_true] at hw
    have harg : o - 1 - w'.length = o - (c :: w').length := by
      simp only [List.length_cons]
      omega
    rw [List.cons_append, Impl2.scanStart, if_pos hw.1,
      ih (o - 1) bef st hw.2, harg]

/-- An all-whitespace suffix makes variant 1's forward scan hand over to
the sibling walk with the state untouched. -/
theorem scanEnd1_allws (L : Layout) (oneChar : Bool) (i o : Nat)
    (w : List Char) (st : LR1State)
    (hw : w.all isWhitespaceOrZeroWidth = true) :
    Impl1.scanEnd L oneChar i o w st = ScanOutcome.next st := by
  have h := scanEnd1_skip L oneChar i w o [] st hw
  rw [List.append_nil] at h
  rw [h, Impl1.scanEnd]

/-- An all-whitespace reversed prefix makes variant 1's backward scan hand
over to the sibling walk with the state untouched. -/
theorem scanStart1_allws (L : Layout) (oneChar : Bool) (i o : Nat)
    (w : List Char) (st : LR1State)
    (hw : w.all isWhitespaceOrZeroWidth = true) :
    Impl1.scanStart L oneChar i o w st = ScanOutcome.next st := by
  have h := scanStart1_skip L oneChar i w o [] st hw
  rw [List.append_nil] at h
  rw [h, Impl1.scanStart]

/-- An all-whitespace suffix makes variant 2's forward scan hand over to
the sibling walk with the state untouched. -/
theorem scanEnd2_allws (L : Layout) (oneChar : Bool) (i o : Nat)
    (w : List Char) (cg : Bool) (st : LR2State)
    (hw : w.all isWhitespaceOrZeroWidth = true) :
    Impl2.scanEnd L oneChar i o w cg st = ScanOutcome.next st := by
  have h := scanEnd2_skip L oneChar i w o [] cg st hw
  rw [List.append_nil] at h
  rw [h, Impl2.scanEnd]

/-- An all-whitespace reversed prefix makes variant 2's backward scan hand
over to the sibling walk with the state untouched. -/
theorem scanStart2_allws (L : Layout) (oneChar : Bool) (i o : Nat)
    (w : List Char) (st : LR2State)
    (hw : w.all isWhitespaceOrZeroWidth = true) :
    Impl2.scanStart L oneChar i o w st = ScanOutcome.next st := by
  have h := scanStart2_skip L oneChar i w o [] st hw
  rw [List.append_nil] at h
  rw [h, Impl2.scanStart]

/-- The character at a clamped offset of a non-empty text is an actual
character of the text. -/
theorem jsCharAt_mem {t : List Char} (k : Nat) (hk : k < t.length) :
    jsCharAt t k = t[k] := by
  simp [jsCharAt, List.getD_eq_getElem?_getD, List.getElem?_eq_getElem hk]

/-! Step equations for the sibling walks, stated by definitional
unfolding (their autogenerated equation lemmas are impractically slow to
produce). -/

theorem walkEnd1_nil (L : Layout) (oneChar : Bool) (j : Nat)
    (st : LR1State) :
    Impl1.walkEnd L oneChar j [] st = (false, st) := rfl

theorem walkEnd1_text_nil (L : Layout) (oneChar : Bool) (j : Nat)
    (rest' : List DomNode) (st : LR1State) :
    Impl1.walkEnd L oneChar j (.text [] :: rest') st
      = Impl1.walkEnd L oneChar (j + 1) rest' st := rfl

theorem walkEnd1_elem (L : Layout) (oneChar : Bool) (j : Nat) (b : Bool)
    (rest' : List DomNode) (st : LR1State) :
    Impl1.walkEnd L oneChar j (.elem b :: rest') st
      = Impl1.walkEnd L oneChar (j + 1) rest' st := rfl

theorem walkEnd1_text_cons (L : Layout) (oneChar : Bool) (j : Nat)
    (c : Char) (cs : List Char) (rest' : List DomNode) (st : LR1State) :
    Impl1.walkEnd L oneChar j (.text (c :: cs) :: rest') st
      = (match Impl1.scanEnd L oneChar j 0 (c :: cs) st with
         | ScanOutcome.done b st' => (b, st')
         | ScanOutcome.next st' =>
           Impl1.walkEnd L oneChar (j + 1) rest' st') := rfl

theorem walkStart1_nil (L : Layout) (oneChar : Bool) (j : Nat)
    (st : LR1State) :
    Impl1.walkStart L oneChar j [] st = (false, st) := rfl

theorem walkStart1_text_nil (L : Layout) (oneChar : Bool) (j : Nat)
    (rest' : List DomNode) (st : LR1State) :
    Impl1.walkStart L oneChar j (.text [] :: rest') st
      = Impl1.walkStart L oneChar (j - 1) rest' st := rfl

theorem walkStart1_elem (L : Layout) (oneChar : Bool) (j : Nat) (b : Bool)
    (rest' : List DomNode) (st : LR1State) :
    Impl1.walkStart L oneChar j (.elem b :: rest') st
      = Impl1.walkStart L oneChar (j - 1) rest' st := rfl

theorem walkStart1_text_cons (L : Layout) (oneChar : Bool) (j : Nat)
    (c : Char) (cs : List Char) (rest' : List DomNode) (st : LR1State) :
    Impl1.walkStart L oneChar j (.text (c :: cs) :: rest') st
      = (if isWhitespaceOrZeroWidth
            (jsCharAt (c :: cs) ((c :: cs).length - 1)) then
          match Impl1.scanStart L oneChar j ((c :: cs).length - 1)
              (((c :: cs).take ((c :: cs).length - 1)).reverse) st with
          | ScanOutcome.done b st' => (b, st')
          | ScanOutcome.next st' =>
            Impl1.walkStart L oneChar (j - 1) rest' st'
        else
          let p := Impl1.tryToExpandStart L st (j, (c :: cs).length - 1)
          if p.1 then
            if oneChar then (true, p.2)
            else
              match Impl1.scanStart L oneChar j ((c :: cs).length - 1)
                  (((c :: cs).take ((c :: cs).length - 1)).reverse) p.2 with
              | ScanOutcome.done b st' => (b, st')
              | ScanOutcome.next st' =>
                Impl1.walkStart L oneChar (j - 1) rest' st'
          else (false, p.2)) := rfl

theorem walkEnd2_nil (L : Layout) (oneChar : Bool) (j : Nat)
    (st : LR2State) :
    Impl2.walkEnd L oneChar j [] st = (false, st) := rfl

theorem walkEnd2_text_nil (L : Layout) (oneChar : Bool) (j : Nat)
    (rest' : List DomNode) (st : LR2State) :
    Impl2.walkEnd L oneChar j (.text [] :: rest') st
      = Impl2.walkEnd L oneChar (j + 1) rest' st := rfl

theorem walkEnd2_elem (L : Layout) (oneChar : Bool) (j : Nat) (b : Bool)
    (rest' : List DomNode) (st : LR2State) :
    Impl2.walkEnd L oneChar j (.elem b :: rest') st
      = (if b then Impl2.walkEnd L oneChar (j + 1) rest' st
         else (false, st)) := rfl

theorem walkEnd2_text_cons (L : Layout) (oneChar : Bool) (j : Nat)
    (c : Char) (cs : List Char) (rest' : List DomNode) (st : LR2State) :
    Impl2.walkEnd L oneChar j (.text (c :: cs) :: rest') st
      = (match Impl2.scanEnd L oneChar j 0 (c :: cs) true st with
         | ScanOutcome.done b st' => (b, st')
         | ScanOutcome.next st' =>
           Impl2.walkEnd L oneChar (j + 1) rest' st') := rfl

theorem walkStart2_nil (L : Layout) (oneChar : Bool) (j : Nat)
    (st : LR2State) :
    Impl2.walkStart L oneChar j [] st = (false, st) := rfl

theorem walkStart2_text_nil (L : Layout) (oneChar : Bool) (j : Nat)
    (rest' : List DomNode) (st : LR2State) :
    Impl2.walkStart L oneChar j (.text [] :: rest') st
      = Impl2.walkStart L oneChar (j - 1) rest' st := rfl

theorem walkStart2_elem (L : Layout) (oneChar : Bool) (j : Nat) (b : Bool)
    (rest' : List DomNode) (st : LR2State) :
    Impl2.walkStart L oneChar j (.elem b :: rest') st
      = (if b then Impl2.walkStart L oneChar (j - 1) rest' st
         else (false, st)) := rfl

theorem walkStart2_text_cons (L : Layout) (oneChar : Bool) (j : Nat)
    (c : Char) (cs : List Char) (rest' : List DomNode) (st : LR2State) :
    Impl2.walkStart L oneChar j (.text (c :: cs) :: rest') st
      = (if isWhitespaceOrZeroWidth
            (jsCharAt (c :: cs) ((c :: cs).length - 1)) then
          match Impl2.scanStart L oneChar j ((c :: cs).length - 1)
              (((c :: cs).take ((c :: cs).length - 1)).reverse) st with
          | ScanOutcome.done b st' => (b, st')
          | ScanOutcome.next st' =>
            Impl2.walkStart L oneChar (j - 1) rest' st'
        else
          let p := Impl2.tryToExpandStart L st (j, (c :: cs).length - 1)
            true
          if p.1 then
            if oneChar then (true, p.2)
            else
              match Impl2.scanStart L oneChar j ((c :: cs).length - 1)
                  (((c :: cs).take ((c :: cs).length - 1)).reverse) p.2 with
              | ScanOutcome.done b st' => (b, st')
              | ScanOutcome.next st' =>
                Impl2.walkStart L oneChar (j - 1) rest' st'
          else (false, p.2)) := rfl

/-- In an all-whitespace sibling list, variant 1's forward walk finds
nothing to probe and reports no growth with the state untouched. -/
theorem walkEnd1_allws (L : Layout) (oneChar : Bool) :
    ∀ (rest : List DomNode) (j : Nat) (st : LR1State),
      (∀ nd ∈ rest, nodeAllWs nd = true) →
      Impl1.walkEnd L oneChar j rest st = (false, st) := by
  intro rest
  induction rest with
  | nil => intro j st _; exact walkEnd1_nil L oneChar j st
  | cons nd rest' ih =>
    intro j st hall
    have hnd := hall nd (List.mem_cons_self nd rest')
    have hrest := fun m hm => hall m (List.mem_cons_of_mem nd hm)
    cases nd with
    | text u =>
      cases u with
      | nil =>
        rw [walkEnd1_text_nil]
        exact ih (j + 1) st hrest
      | cons c cs =>
        have hws : (c :: cs).all isWhitespaceOrZeroWidth = true := by
          simpa [nodeAllWs] using hnd
        rw [walkEnd1_text_cons,
          scanEnd1_allws L oneChar j 0 (c :: cs) st hws]
        exact ih (j + 1) st hrest
    | elem b =>
      rw [walkEnd1_elem]
      exact ih (j + 1) st hrest

/-- In an all-whitespace sibling list, variant 1's backward walk finds
nothing to probe and reports no growth with the state untouched. -/
theorem walkStart1_allws (L : Layout) (oneChar : Bool) :
    ∀ (rest : List DomNode) (j : Nat) (st : LR1State),
      (∀ nd ∈ rest, nodeAllWs nd = true) →
      Impl1.walkStart L oneChar j rest st = (false, st) := by
  intro rest
  induction rest with
  | nil => intro j st _; exact walkStart1_nil L oneChar j st
  | cons nd rest' ih =>
    intro j st hall
    have hnd := hall nd (List.mem_cons_self nd rest')
    have hrest := fun m hm => hall m (List.mem_cons_of_mem nd hm)
    cases nd with
    | text u =>
      cases u with
      | nil =>
        rw [walkStart1_text_nil]
        exact ih (j - 1) st hrest
      | cons c cs =>
        have hws : (c :: cs).all isWhitespaceOrZeroWidth = true := by
          simpa [nodeAllWs] using hnd
        have hlt : (c :: cs).length - 1 < (c :: cs).length := by simp
        have hlast : isWhitespaceOrZeroWidth
            (jsCharAt (c :: cs) ((c :: cs).length - 1)) = true := by
          rw [jsCharAt_mem _ hlt]
          exact List.all_eq_true.mp hws _ (List.getElem_mem hlt)
        have hws2 : (((c :: cs).take ((c :: cs).length - 1)).reverse).all
            isWhitespaceOrZeroWidth = true := by
          rw [List.all_eq_true] at hws ⊢
          intro a ha
          exact hws a (List.mem_of_mem_take (List.mem_reverse.mp ha))
        rw [walkStart1_text_cons, if_pos hlast,
          scanStart1_allws L oneChar j ((c :: cs).length - 1)
            (((c :: cs).take ((c :: cs).length - 1)).reverse) st hws2]
        exact ih (j - 1) st hrest
    | elem b =>
      rw [walkStart1_elem]
      exact ih (j - 1) st hrest

/-- In an all-whitespace sibling list, variant 2's forward walk finds
nothing to probe and reports no growth with the state untouched. -/
theorem walkEnd2_allws (L : Layout) (oneChar : Bool) :
    ∀ (rest : List DomNode) (j : Nat) (st : LR2State),
      (∀ nd ∈ rest, nodeAllWs nd = true) →
      Impl2.walkEnd L oneChar j rest st = (false, st) := by
  intro rest
  induction rest with
  | nil => intro j st _; exact walkEnd2_nil L oneChar j st
  | cons nd rest' ih =>
    intro j st hall
    have hnd := hall nd (List.mem_cons_self nd rest')
    have hrest := fun m hm => hall m (List.mem_cons_of_mem nd hm)
    cases nd with
    | text u =>
      cases u with
      | nil =>
        rw [walkEnd2_text_nil]
        exact ih (j + 1) st hrest
      | cons c cs =>
        have hws : (c :: cs).all isWhitespaceOrZeroWidth = true := by
          simpa [nodeAllWs] using hnd
        rw [walkEnd2_text_cons,
          scanEnd2_allws L oneChar j 0 (c :: cs) true st hws]
        exact ih (j + 1) st hrest
    | elem b =>
      rw [walkEnd2_elem]
      cases b with
      | true =>
        rw [if_pos rfl]
        exact ih (j + 1) st hrest
      | false => rw [if_neg (by simp)]

/-- In an all-whitespace sibling list, variant 2's backward walk finds
nothing to probe and reports no growth with the state untouched. -/
theorem walkStart2_allws (L : Layout) (oneChar : Bool) :
    ∀ (rest : List DomNode) (j : Nat) (st : LR2State),
      (∀ nd ∈ rest, nodeAllWs nd = true) →
      Impl2.walkStart L oneChar j rest st = (false, st) := by
  intro rest
  induction rest with
  | nil => intro j st _; exact walkStart2_nil L oneChar j st
  | cons nd rest' ih =>
    intro j st hall
    have hnd := hall nd (List.mem_cons_self nd rest')
    have hrest := fun m hm => hall m (List.mem_cons_of_mem nd hm)
    cases nd with
    | text u =>
      cases u with
      | nil =>
        rw [walkStart2_text_nil]
        exact ih (j - 1) st hrest
      | cons c cs =>
        have hws : (c :: cs).all isWhitespaceOrZeroWidth = true := by
          simpa [nodeAllWs] using hnd
        have hlt : (c :: cs).length - 1 < (c :: cs).length := by simp
        have hlast : isWhitespaceOrZeroWidth
            (jsCharAt (c :: cs) ((c :: cs).length - 1)) = true := by
          rw [jsCharAt_mem _ hlt]
          exact List.all_eq_true.mp hws _ (List.getElem_mem hlt)
        have hws2 : (((c :: cs).take ((c :: cs).length - 1)).reverse).all
            isWhitespaceOrZeroWidth = true := by
          rw [List.all_eq_true] at hws ⊢
          intro a ha
          exact hws a (List.mem_of_mem_take (List.mem_reverse.mp ha))
        rw [walkStart2_text_cons, if_pos hlast,
          scanStart2_allws L oneChar j ((c :: cs).length - 1)
            (((c :: cs).take ((c :: cs).length - 1)).reverse) st hws2]
        exact ih (j - 1) st hrest
    | elem b =>
      rw [walkStart2_elem]
      cases b with
      | true =>
        rw [if_pos rfl]
        exact ih (j - 1) st hrest
      | false => rw [if_neg (by simp)]

/-- In an all-whitespace document, variant 1's end update reports no
growth and leaves the state untouched. -/
theorem update1End_allws (L : Layout) (doc : List DomNode) (oneChar : Bool)
    (st : LR1State) (hall : doc.all nodeAllWs = true) :
    Impl1.updateHighlightLineRangeEnd L doc oneChar st = (false, st) := by
  rw [Impl1.updateHighlightLineRangeEnd]
  split
  · rename_i t heq
    have hmem : DomNode.text t ∈ doc := List.getElem?_mem heq
    have htws : t.all isWhitespaceOrZeroWidth = true := by
      simpa [nodeAllWs] using List.all_eq_true.mp hall _ hmem
    have hdws : (t.drop st.range.2.2).all isWhitespaceOrZeroWidth = true
        := by
      rw [List.all_eq_true] at htws ⊢
      intro a ha
      exact htws a (List.mem_of_mem_drop ha)
    rw [scanEnd1_allws L oneChar st.range.2.1 st.range.2.2
      (t.drop st.range.2.2) st hdws]
    exact walkEnd1_allws L oneChar _ _ st
      fun nd hm => List.all_eq_true.mp hall nd (List.mem_of_mem_drop hm)
  · rfl
/-- In an all-whitespace document, variant 1's start update reports no
growth and leaves the state untouched. -/
theorem update1Start_allws (L : Layout) (doc : List DomNode)
    (oneChar : Bool) (st : LR1State) (hall : doc.all nodeAllWs = true) :
    Impl1.updateHighlightLineRangeStart L doc oneChar st = (false, st) := by
  rw [Impl1.updateHighlightLineRangeStart]
  split
  · rename_i t heq
    have hmem : DomNode.text t ∈ doc := List.getElem?_mem heq
    have htws : t.all isWhitespaceOrZeroWidth = true := by
      simpa [nodeAllWs] using List.all_eq_true.mp hall _ hmem
    have hdws : ((t.take st.range.1.2).reverse).all
        isWhitespaceOrZeroWidth = true := by
      rw [List.all_eq_true] at htws ⊢
      intro a ha
      exact htws a (List.mem_of_mem_take (List.mem_reverse.mp ha))
    rw [scanStart1_allws L oneChar st.range.1.1 st.range.1.2
      ((t.take st.range.1.2).reverse) st hdws]
    exact walkStart1_allws L oneChar _ _ st
      fun nd hm => List.all_eq_true.mp hall nd
        (List.mem_of_mem_take (List.mem_reverse.mp hm))
  · rfl

/-- In an all-whitespace document, variant 2's end update reports no
growth and leaves the state untouched. -/
theorem update2End_allws (L : Layout) (doc : List DomNode) (oneChar : Bool)
    (st : LR2State) (hall : doc.all nodeAllWs = true) :
    Impl2.updateHighlightLineRangeEnd L doc oneChar st = (false, st) := by
  rw [Impl2.updateHighlightLineRangeEnd]
  split
  · rename_i t heq
    have hmem : DomNode.text t ∈ doc := List.getElem?_mem heq
    have htws : t.all isWhitespaceOrZeroWidth = true := by
      simpa [nodeAllWs] using List.all_eq_true.mp hall _ hmem
    have hdws : (t.drop st.range.2.2).all isWhitespaceOrZeroWidth = true
        := by
      rw [List.all_eq_true] at htws ⊢
      intro a ha
      exact htws a (List.mem_of_mem_drop ha)
    rw [scanEnd2_allws L oneChar st.range.2.1 st.range.2.2
      (t.drop st.range.2.2) false st hdws]
    exact walkEnd2_allws L oneChar _ _ st
      fun nd hm => List.all_eq_true.mp hall nd (List.mem_of_mem_drop hm)
  · rfl

/-- In an all-whitespace document, variant 2's start update reports no
growth and leaves the state untouched. -/
theorem update2Start_allws (L : Layout) (doc : List DomNode)
    (oneChar : Bool) (st : LR2State) (hall : doc.all nodeAllWs = true) :
    Impl2.updateHighlightLineRangeStart L doc oneChar st = (false, st)
    := by
  rw [Impl2.updateHighlightLineRangeStart]
  split
  · rename_i t heq
    have hmem : DomNode.text t ∈ doc := List.getElem?_mem heq
    have htws : t.all isWhitespaceOrZeroWidth = true := by
      simpa [nodeAllWs] using List.all_eq_true.mp hall _ hmem
    have hdws : ((t.take st.range.1.2).reverse).all
        isWhitespaceOrZeroWidth = true := by
      rw [List.all_eq_true] at htws ⊢
      intro a ha
      exact htws a (List.mem_of_mem_take (List.mem_reverse.mp ha))
    rw [scanStart2_allws L oneChar st.range.1.1 st.range.1.2
      ((t.take st.range.1.2).reverse) st hdws]
    exact walkStart2_allws L oneChar _ _ st
      fun nd hm => List.all_eq_true.mp hall nd
        (List.mem_of_mem_take (List.mem_reverse.mp hm))
  · rfl

/-- One unfolding step of variant 1's alternation loop. -/
theorem expandLoop1_succ (L : Layout) (doc : List DomNode) (fuel : Nat)
    (st : LR1State) :
    Impl1.expandLoop L doc (fuel + 1) st
      = (match Impl1.updateHighlightLineRangeEnd L doc true st with
         | (ke, st1) =>
           match Impl1.updateHighlightLineRangeStart L doc true st1 with
           | (ks, st2) =>
             if ks && ke then Impl1.expandLoop L doc fuel st2
             else (ks, ke, st2)) := rfl

/-- One unfolding step of variant 2's alternation loop. -/
theorem expandLoop2_succ (L : Layout) (doc : List DomNode) (fuel : Nat)
    (st : LR2State) :
    Impl2.expandLoop L doc (fuel + 1) st
      = (match Impl2.updateHighlightLineRangeEnd L doc true st with
         | (ke, st1) =>
           match Impl2.updateHighlightLineRangeStart L doc true st1 with
           | (ks, st2) =>
             if ks && ke then Impl2.expandLoop L doc fuel st2
             else (ks, ke, st2)) := rfl

/-- In an all-whitespace document, variant 1's whole expansion phase
leaves the state untouched. -/
theorem lineExpand1_allws (L : Layout) (doc : List DomNode)
    (st : LR1State) (hall : doc.all nodeAllWs = true) :
    Impl1.lineExpand L doc st = st := by
  have hloop : Impl1.expandLoop L doc loopFuel st = (false, false, st) := by
    rw [show loopFuel = 199 + 1 from rfl, expandLoop1_succ,
      update1End_allws L doc true st hall]
    dsimp only []
    rw [update1Start_allws L doc true st hall]
    rfl
  rw [Impl1.lineExpand, hloop]
  rfl

/-- In an all-whitespace document, variant 2's whole expansion phase
leaves the state untouched. -/
theorem lineExpand2_allws (L : Layout) (doc : List DomNode)
    (st : LR2State) (hall : doc.all nodeAllWs = true) :
    Impl2.lineExpand L doc st = st := by
  have hloop : Impl2.expandLoop L doc loopFuel st = (false, false, st) := by
    rw [show loopFuel = 199 + 1 from rfl, expandLoop2_succ,
      update2End_allws L doc true st hall]
    dsimp only []
    rw [update2Start_allws L doc true st hall]
    rfl
  rw [Impl2.lineExpand, hloop]
  rfl

/-- Claim C5: the post-expansion trim of either variant collapses the
whole line range whenever a boundary still sits at the original seed
offset and the seed character is whitespace or zero-width; consequently a
seed position in a pure-whitespace document (where no expansion probe ever
fires) yields a collapsed line range in both variants. -/
theorem whitespace_seed_collapses (L : Layout) (doc : List DomNode)
    (i o : Nat) (t : List Char) (mouseY : ℚ)
    (st1 : LR1State) (st2 : LR2State)
    (hi : doc[i]? = some (.text t)) (hne : t ≠ [])
    (hws : doc.all nodeAllWs = true) :
    (∀ (st : LR1State) (j so : Nat) (u : List Char),
      (st.range.1 = (j, so) ∨ st.range.2 = (j, so + 1)) →
      isWhitespaceOrZeroWidth (jsCharAt u so) = true →
      Impl1.postProcessLine j so u st = Impl1.collapseLine st) ∧
    (∀ (st : LR2State) (j so : Nat) (u : List Char),
      (st.range.1 = (j, so) ∨ st.range.2 = (j, so + 1)) →
      isWhitespaceOrZeroWidth (jsCharAt u so) = true →
      Impl2.postProcessLine j so u st = Impl2.collapseLine st) ∧
    collapsedR (Impl1.setHighlightLineRange L doc (some (i, o)) mouseY
      st1).range = true ∧
    collapsedR (Impl2.setHighlightLineRange L doc (some (i, o)) mouseY
      st2).range = true := by
  have hlen : 0 < t.length := List.length_pos.mpr hne
  have hmem : DomNode.text t ∈ doc := List.getElem?_mem hi
  have htws : t.all isWhitespaceOrZeroWidth = true := by
    simpa [nodeAllWs] using List.all_eq_true.mp hws _ hmem
  have hso : natMin o (t.length - 1) < t.length := by
    rw [natMin]
    split <;> omega
  have hchar : isWhitespaceOrZeroWidth
      (jsCharAt t (natMin o (t.length - 1))) = true := by
    rw [jsCharAt_mem _ hso]
    exact List.all_eq_true.mp htws _ (List.getElem_mem hso)
  refine ⟨?_, ?_, ?_, ?_⟩
  · intro st j so u hb hc
    rw [Impl1.postProcessLine,
      if_pos (hb.elim (fun h => Or.inl ⟨h, hc⟩) (fun h => Or.inr ⟨h, hc⟩))]
  · intro st j so u hb hc
    rw [Impl2.postProcessLine,
      if_pos (hb.elim (fun h => Or.inl ⟨h, hc⟩) (fun h => Or.inr ⟨h, hc⟩))]
  · rw [Impl1.setHighlightLineRange, hi]
    dsimp only []
    split
    · simp [Impl1.collapseLine, collapseR, collapsedR]
    · split
      · simp [Impl1.collapseLine, collapseR, collapsedR]
      · rw [lineExpand1_allws L doc _ hws, Impl1.postProcessLine,
          if_pos (Or.inl ⟨rfl, hchar⟩)]
        simp [Impl1.collapseLine, collapseR, collapsedR]
  · rw [Impl2.setHighlightLineRange, hi]
    dsimp only []
    split
    · simp [Impl2.collapseLine, collapseR, collapsedR]
    · split
      · simp [Impl2.collapseLine, collapseR, collapsedR]
      · rw [lineExpand2_allws L doc _ hws, Impl2.postProcessLine,
          if_pos (Or.inl ⟨rfl, hchar⟩)]
        simp [Impl2.collapseLine, collapseR, collapsedR]

/-- Witness for claim C5: a boundary on a space collapses under the trim,
and both variants collapse the line range entirely on the single-space
document. -/
theorem whitespace_seed_collapses_witness :
    Impl1.postProcessLine 0 0 [' ']
      { range := ((0, 0), (0, 1)), bTop := 0, bBot := 10, minH := 10,
        checks := 0 }
      = Impl1.collapseLine
        { range := ((0, 0), (0, 1)), bTop := 0, bBot := 10, minH := 10,
          checks := 0 } ∧
    Impl2.postProcessLine 0 0 [' ']
      { range := ((0, 0), (0, 1)), checks := 0 }
      = Impl2.collapseLine { range := ((0, 0), (0, 1)), checks := 0 } ∧
    collapsedR (Impl1.setHighlightLineRange layoutDot docSpace
      (some (0, 0)) 5
      { range := ((0, 0), (0, 0)), bTop := 0, bBot := 0, minH := 0,
        checks := 0 }).range = true ∧
    collapsedR (Impl2.setHighlightLineRange layoutDot docSpace
      (some (0, 0)) 5 { range := ((0, 0), (0, 0)), checks := 0 }).range
      = true := by
  have h := whitespace_seed_collapses layoutDot docSpace 0 0 [' '] 5
    { range := ((0, 0), (0, 0)), bTop := 0, bBot := 0, minH := 0,
      checks := 0 }
    { range := ((0, 0), (0, 0)), checks := 0 }
    rfl (by decide) (by decide)
  exact ⟨h.1 _ 0 0 [' '] (Or.inl rfl) (by decide),
    h.2.1 _ 0 0 [' '] (Or.inl rfl) (by decide), h.2.2.1, h.2.2.2⟩

/-- Claim C10: characters classified whitespace-or-zero-width are passed
over by every inner expansion scan of both variants with the entire state
— range, bounds and check counter — untouched, so they consume no
expansion budget and are never individually probed; and when the scan then
meets a non-whitespace character, the single probe it performs proposes
the boundary just past that character, so the skipped whitespace run is
included in the range exactly when that later non-whitespace expansion is
accepted. -/
theorem whitespace_skip_costs_no_budget (L : Layout) (oneChar : Bool)
    (i o : Nat) (w suf bef : List Char) (cg : Bool)
    (st1 : LR1State) (st2 : LR2State)
    (hw : w.all isWhitespaceOrZeroWidth = true) :
    Impl1.scanEnd L oneChar i o (w ++ suf) st1
      = Impl1.scanEnd L oneChar i (o + w.length) suf st1 ∧
    Impl1.scanStart L oneChar i o (w ++ bef) st1
      = Impl1.scanStart L oneChar i (o - w.length) bef st1 ∧
    Impl2.scanEnd L oneChar i o (w ++ suf) cg st2
      = Impl2.scanEnd L oneChar i (o + w.length) suf cg st2 ∧
    Impl2.scanStart L oneChar i o (w ++ bef) st2
      = Impl2.scanStart L oneChar i (o - w.length) bef st2 ∧
    (∀ (c : Char) (suf' : List Char), isWhitespaceOrZeroWidth c = false →
      Impl1.scanEnd L true i o (w ++ c :: suf') st1
        = (if (Impl1.tryToExpandEnd L st1 (i, o + w.length + 1)).1 then
            ScanOutcome.done true
              (Impl1.tryToExpandEnd L st1 (i, o + w.length + 1)).2
           else
            ScanOutcome.done false
              (Impl1.tryToExpandEnd L st1 (i, o + w.length + 1)).2)) := by
  refine ⟨scanEnd1_skip L oneChar i w o suf st1 hw,
    scanStart1_skip L oneChar i w o bef st1 hw,
    scanEnd2_skip L oneChar i w o suf cg st2 hw,
    scanStart2_skip L oneChar i w o bef st2 hw, ?_⟩
  intro c suf' hc
  rw [scanEnd1_skip L true i w o (c :: suf') st1 hw, Impl1.scanEnd,
    if_neg (by simp [hc])]
  by_cases hp : (Impl1.tryToExpandEnd L st1 (i, o + w.length + 1)).1 <;>
    simp [hp]

/-- Witness for claim C10: skipping two spaces moves the scans by two
offsets at no cost, and the follow-up probe on a letter targets the
boundary past the skipped run. -/
theorem whitespace_skip_costs_no_budget_witness :
    Impl1.scanEnd layoutDot true 0 0 ([' ', ' '] ++ ['a', 'b'])
      { range := ((0, 0), (0, 1)), bTop := 0, bBot := 10, minH := 10,
        checks := 0 }
      = Impl1.scanEnd layoutDot true 0 2 ['a', 'b']
        { range := ((0, 0), (0, 1)), bTop := 0, bBot := 10, minH := 10,
          checks := 0 } ∧
    Impl2.scanStart layoutDot true 0 5 ([' ', ' '] ++ ['a', 'b'])
      { range := ((0, 0), (0, 1)), checks := 7 }
      = Impl2.scanStart layoutDot true 0 3 ['a', 'b']
        { range := ((0, 0), (0, 1)), checks := 7 } ∧
    Impl1.scanEnd layoutDot true 0 0 ([' ', ' '] ++ ['a'])
      { range := ((0, 0), (0, 1)), bTop := 0, bBot := 10, minH := 10,
        checks := 0 }
      = (if (Impl1.tryToExpandEnd layoutDot
            { range := ((0, 0), (0, 1)), bTop := 0, bBot := 10, minH := 10,
              checks := 0 } (0, 3)).1 then
          ScanOutcome.done true
            (Impl1.tryToExpandEnd layoutDot
              { range := ((0, 0), (0, 1)), bTop := 0, bBot := 10,
                minH := 10, checks := 0 } (0, 3)).2
         else
          ScanOutcome.done false
            (Impl1.tryToExpandEnd layoutDot
              { range := ((0, 0), (0, 1)), bTop := 0, bBot := 10,
                minH := 10, checks := 0 } (0, 3)).2) := by
  have h1 := whitespace_skip_costs_no_budget layoutDot true 0 0
    [' ', ' '] ['a', 'b'] ['a', 'b'] false
    { range := ((0, 0), (0, 1)), bTop := 0, bBot := 10, minH := 10,
      checks := 0 }
    { range := ((0, 0), (0, 1)), checks := 7 } (by decide)
  have h2 := whitespace_skip_costs_no_budget layoutDot true 0 5
    [' ', ' '] ['a', 'b'] ['a', 'b'] false
    { range := ((0, 0), (0, 1)), bTop := 0, bBot := 10, minH := 10,
      checks := 0 }
    { range := ((0, 0), (0, 1)), checks := 7 } (by decide)
  exact ⟨h1.1, h2.2.2.2.1, h1.2.2.2.2 'a' [] (by decide)⟩

/-- Every probe of variant 1's end expansion bumps the counter by exactly
one, and a successful probe stays within the budget. -/
theorem tryToExpandEnd1_bump (L : Layout) (st : LR1State) (p : Pos) :
    (Impl1.tryToExpandEnd L st p).2.checks = st.checks + 1 ∧
    ((Impl1.tryToExpandEnd L st p).1 = true →
      st.checks + 1 ≤ Impl1.maxChecks) := by
  rw [Impl1.tryToExpandEnd]
  by_cases h : Impl1.maxChecks < st.checks + 1
  · rw [if_pos h]
    exact ⟨rfl, fun hx => by simp at hx⟩
  · rw [if_neg h]
    dsimp only []
    repeat' split
    all_goals exact ⟨rfl, fun _ => by omega⟩

/-- Every probe of variant 1's start expansion bumps the counter by
exactly one, and a successful probe stays within the budget. -/
theorem tryToExpandStart1_bump (L : Layout) (st : LR1State) (p : Pos) :
    (Impl1.tryToExpandStart L st p).2.checks = st.checks + 1 ∧
    ((Impl1.tryToExpandStart L st p).1 = true →
      st.checks + 1 ≤ Impl1.maxChecks) := by
  rw [Impl1.tryToExpandStart]
  by_cases h : Impl1.maxChecks < st.checks + 1
  · rw [if_pos h]
    exact ⟨rfl, fun hx => by simp at hx⟩
  · rw [if_neg h]
    dsimp only []
    repeat' split
    all_goals exact ⟨rfl, fun _ => by omega⟩

/-- A successful probe of variant 2's end expansion bumps the counter by
exactly one and stays within the budget. -/
theorem tryToExpandEnd2_true (L : Layout) (st st' : LR2State) (p : Pos)
    (cg : Bool) (h : Impl2.tryToExpandEnd L st p cg = (true, st')) :
    st'.checks = st.checks + 1 ∧ st'.checks ≤ Impl2.maxChecks := by
  rw [Impl2.tryToExpandEnd] at h
  dsimp only [] at h
  split at h
  · simp at h
  · rw [Impl2.spansMultipleLines] at h
    dsimp only [] at h
    split at h
    · simp at h
    · rename_i st2 hbudget
      injection h with hb hst
      subst hst
      split at hbudget
    
      · simp at hbudget
      · rename_i hbb
        split at hbudget
        · injection hbudget with hb2 hst2
          subst hst2
          refine ⟨rfl, ?_⟩
          show st.checks + 1 ≤ Impl2.maxChecks
          omega
        · injection hbudget with hb2 hst2
          subst hst2
          refine ⟨rfl, ?_⟩
          show st.checks + 1 ≤ Impl2.maxChecks
          omega

/-- A successful probe of variant 2's start expansion bumps the counter
by exactly one and stays within the budget. -/
theorem tryToExpandStart2_true (L : Layout) (st st' : LR2State) (p : Pos)
    (cg : Bool) (h : Impl2.tryToExpandStart L st p cg = (true, st')) :
    st'.checks = st.checks + 1 ∧ st'.checks ≤ Impl2.maxChecks := by
  rw [Impl2.tryToExpandStart] at h
  dsimp only [] at h
  split at h
  · simp at h
  · rw [Impl2.spansMultipleLines] at h
    dsimp only [] at h
    split at h
    · simp at h
    · rename_i st2 hbudget
      injection h with hb hst
      subst hst
      split at hbudget
    
      · simp at hbudget
      · rename_i hbb
        split at hbudget
        · injection hbudget with hb2 hst2
          subst hst2
          refine ⟨rfl, ?_⟩
          show st.checks + 1 ≤ Impl2.maxChecks
          omega
        · injection hbudget with hb2 hst2
          subst hst2
          refine ⟨rfl, ?_⟩
          show st.checks + 1 ≤ Impl2.maxChecks
          omega
/-- In one-character mode, variant 1's forward scan hands over to the walk
only when it performed no probe at all. -/
theorem scanEnd1_next (L : Layout) (i : Nat) :
    ∀ (suf : List Char) (o : Nat) (st st' : LR1State),
      Impl1.scanEnd L true i o suf st = ScanOutcome.next st' → st' = st := by
  intro suf
  induction suf with
  | nil =>
    intro o st st' h
    rw [Impl1.scanEnd] at h
    injection h with h1
    exact h1.symm
  | cons c suf' ih =>
    intro o st st' h
    rw [Impl1.scanEnd] at h
    by_cases hc : isWhitespaceOrZeroWidth c
    · rw [if_pos hc] at h
      exact ih (o + 1) st st' h
    · rw [if_neg hc] at h
      dsimp only [] at h
      split at h
      · simp at h
      · simp at h

/-- In one-character mode, a variant 1 forward scan that reports growth
performed exactly one in-budget probe. -/
theorem scanEnd1_true (L : Layout) (i : Nat) :
    ∀ (suf : List Char) (o : Nat) (st st' : LR1State),
      Impl1.scanEnd L true i o suf st = ScanOutcome.done true st' →
      st'.checks = st.checks + 1 ∧ st'.checks ≤ Impl1.maxChecks := by
  intro suf
  induction suf with
  | nil =>
    intro o st st' h
    rw [Impl1.scanEnd] at h
    simp at h
  | cons c suf' ih =>
    intro o st st' h
    rw [Impl1.scanEnd] at h
    by_cases hc : isWhitespaceOrZeroWidth c
    · rw [if_pos hc] at h
      exact ih (o + 1) st st' h
    · rw [if_neg hc] at h
      dsimp only [] at h
      split at h
      · rename_i hp
        injection h with hb hst
        have hbump := tryToExpandEnd1_bump L st (i, o + 1)
        rw [hst] at hbump
        exact ⟨hbump.1, hbump.1 ▸ hbump.2 hp⟩
      · simp at h

/-- In one-character mode, variant 1's backward scan hands over to the
walk only when it performed no probe at all. -/
theorem scanStart1_next (L : Layout) (i : Nat) :
    ∀ (bef : List Char) (o : Nat) (st st' : LR1State),
      Impl1.scanStart L true i o bef st = ScanOutcome.next st' →
      st' = st := by
  intro bef
  induction bef with
  | nil =>
    intro o st st' h
    rw [Impl1.scanStart] at h
    injection h with h1
    exact h1.symm
  | cons c bef' ih =>
    intro o st st' h
    rw [Impl1.scanStart] at h
    by_cases hc : isWhitespaceOrZeroWidth c
    · rw [if_pos hc] at h
      exact ih (o - 1) st st' h
    · rw [if_neg hc] at h
      dsimp only [] at h
      split at h
      · simp at h
      · simp at h

/-- In one-character mode, a variant 1 backward scan that reports growth
performed exactly one in-budget probe. -/
theorem scanStart1_true (L : Layout) (i : Nat) :
    ∀ (bef : List Char) (o : Nat) (st st' : LR1State),
      Impl1.scanStart L true i o bef st = ScanOutcome.done true st' →
      st'.checks = st.checks + 1 ∧ st'.checks ≤ Impl1.maxChecks := by
  intro bef
  induction bef with
  | nil =>
    intro o st st' h
    rw [Impl1.scanStart] at h
    simp at h
  | cons c bef' ih =>
    intro o st st' h
    rw [Impl1.scanStart] at h
    by_cases hc : isWhitespaceOrZeroWidth c
    · rw [if_pos hc] at h
      exact ih (o - 1) st st' h
    · rw [if_neg hc] at h
      dsimp only [] at h
      split at h
      · rename_i hp
        injection h with hb hst
        have hbump := tryToExpandStart1_bump L st (i, o - 1)
        rw [hst] at hbump
        exact ⟨hbump.1, hbump.1 ▸ hbump.2 hp⟩
      · simp at h
/-- In one-character mode, a variant 1 forward walk that reports growth
performed exactly one in-budget probe. -/
theorem walkEnd1_true (L : Layout) :
    ∀ (rest : List DomNode) (j : Nat) (st st' : LR1State),
      Impl1.walkEnd L true j rest st = (true, st') →
      st'.checks = st.checks + 1 ∧ st'.checks ≤ Impl1.maxChecks := by
  intro rest
  induction rest with
  | nil =>
    intro j st st' h
    rw [walkEnd1_nil] at h
    simp at h
  | cons nd rest' ih =>
    intro j st st' h
    cases nd with
    | text u =>
      cases u with
      | nil =>
        rw [walkEnd1_text_nil] at h
        exact ih (j + 1) st st' h
      | cons c cs =>
        rw [walkEnd1_text_cons] at h
        cases hs : Impl1.scanEnd L true j 0 (c :: cs) st with
        | done b st1 =>
          rw [hs] at h
          dsimp only [] at h
          injection h with hb hst
          subst hst
          subst hb
          exact scanEnd1_true L j (c :: cs) 0 _ _ hs
        | next st1 =>
          rw [hs] at h
          dsimp only [] at h
          have he := scanEnd1_next L j (c :: cs) 0 st st1 hs
          subst he
          exact ih (j + 1) _ _ h
    | elem b =>
      rw [walkEnd1_elem] at h
      exact ih (j + 1) st st' h

/-- In one-character mode, a variant 1 backward walk that reports growth
performed exactly one in-budget probe. -/
theorem walkStart1_true (L : Layout) :
    ∀ (rest : List DomNode) (j : Nat) (st st' : LR1State),
      Impl1.walkStart L true j rest st = (true, st') →
      st'.checks = st.checks + 1 ∧ st'.checks ≤ Impl1.maxChecks := by
  intro rest
  induction rest with
  | nil =>
    intro j st st' h
    rw [walkStart1_nil] at h
    simp at h
  | cons nd rest' ih =>
    intro j st st' h
    cases nd with
    | text u =>
      cases u with
      | nil =>
        rw [walkStart1_text_nil] at h
        exact ih (j - 1) st st' h
      | cons c cs =>
        rw [walkStart1_text_cons] at h
        by_cases hlast : isWhitespaceOrZeroWidth
            (jsCharAt (c :: cs) ((c :: cs).length - 1))
        · rw [if_pos hlast] at h
          cases hs : Impl1.scanStart L true j ((c :: cs).length - 1)
              (((c :: cs).take ((c :: cs).length - 1)).reverse) st with
          | done b st1 =>
            rw [hs] at h
            dsimp only [] at h
            injection h with hb hst
            subst hst
            subst hb
            exact scanStart1_true L j _ _ _ _ hs
          | next st1 =>
            rw [hs] at h
            dsimp only [] at h
            have he := scanStart1_next L j _ _ st st1 hs
            subst he
            exact ih (j - 1) _ _ h
        · rw [if_neg hlast] at h
          dsimp only [] at h
          split at h
          · rename_i hp
            injection h with hb hst
            have hbump := tryToExpandStart1_bump L st
              (j, (c :: cs).length - 1)
            rw [hst] at hbump
            exact ⟨hbump.1, hbump.1 ▸ hbump.2 hp⟩
          · simp at h
    | elem b =>
      rw [walkStart1_elem] at h
      exact ih (j - 1) st st' h

/-- In one-character mode, a variant 1 end update that reports growth
performed exactly one in-budget probe. -/
theorem update1End_true (L : Layout) (doc : List DomNode)
    (st st' : LR1State)
    (h : Impl1.updateHighlightLineRangeEnd L doc true st = (true, st')) :
    st'.checks = st.checks + 1 ∧ st'.checks ≤ Impl1.maxChecks := by
  rw [Impl1.updateHighlightLineRangeEnd] at h
  split at h
  · rename_i t heq
    cases hs : Impl1.scanEnd L true st.range.2.1 st.range.2.2
        (t.drop st.range.2.2) st with
    | done b st1 =>
      rw [hs] at h
      dsimp only [] at h
      injection h with hb hst
      subst hst
      subst hb
      exact scanEnd1_true L _ _ _ _ _ hs
    | next st1 =>
      rw [hs] at h
      dsimp only [] at h
      have he := scanEnd1_next L st.range.2.1 _ _ st st1 hs
      subst he
      exact walkEnd1_true L _ _ _ _ h
  · simp at h

/-- In one-character mode, a variant 1 start update that reports growth
performed exactly one in-budget probe. -/
theorem update1Start_true (L : Layout) (doc : List DomNode)
    (st st' : LR1State)
    (h : Impl1.updateHighlightLineRangeStart L doc true st = (true, st')) :
    st'.checks = st.checks + 1 ∧ st'.checks ≤ Impl1.maxChecks := by
  rw [Impl1.updateHighlightLineRangeStart] at h
  split at h
  · rename_i t heq
    cases hs : Impl1.scanStart L true st.range.1.1 st.range.1.2
        ((t.take st.range.1.2).reverse) st with
    | done b st1 =>
      rw [hs] at h
      dsimp only [] at h
      injection h with hb hst
      subst hst
      subst hb
      exact scanStart1_true L _ _ _ _ _ hs
    | next st1 =>
      rw [hs] at h
      dsimp only [] at h
      have he := scanStart1_next L st.range.1.1 _ _ st st1 hs
      subst he
      exact walkStart1_true L _ _ _ _ h
  · simp at h
/-- In one-character mode, variant 2's forward scan hands over to the
walk only when it performed no probe at all. -/
theorem scanEnd2_next (L : Layout) (i : Nat) :
    ∀ (suf : List Char) (o : Nat) (cg : Bool) (st st' : LR2State),
      Impl2.scanEnd L true i o suf cg st = ScanOutcome.next st' →
      st' = st := by
  intro suf
  induction suf with
  | nil =>
    intro o cg st st' h
    rw [Impl2.scanEnd] at h
    injection h with h1
    exact h1.symm
  | cons c suf' ih =>
    intro o cg st st' h
    rw [Impl2.scanEnd] at h
    by_cases hc : isWhitespaceOrZeroWidth c
    · rw [if_pos hc] at h
      exact ih (o + 1) cg st st' h
    · rw [if_neg hc] at h
      dsimp only [] at h
      split at h
      · simp at h
      · simp at h

/-- In one-character mode, a variant 2 forward scan that reports growth
performed exactly one in-budget probe. -/
theorem scanEnd2_true (L : Layout) (i : Nat) :
    ∀ (suf : List Char) (o : Nat) (cg : Bool) (st st' : LR2State),
      Impl2.scanEnd L true i o suf cg st = ScanOutcome.done true st' →
      st'.checks = st.checks + 1 ∧ st'.checks ≤ Impl2.maxChecks := by
  intro suf
  induction suf with
  | nil =>
    intro o cg st st' h
    rw [Impl2.scanEnd] at h
    simp at h
  | cons c suf' ih =>
    intro o cg st st' h
    rw [Impl2.scanEnd] at h
    by_cases hc : isWhitespaceOrZeroWidth c
    · rw [if_pos hc] at h
      exact ih (o + 1) cg st st' h
    · rw [if_neg hc] at h
      dsimp only [] at h
      split at h
      · rename_i hp
        injection h with hb hst
        have hpair : Impl2.tryToExpandEnd L st (i, o + 1) cg
            = (true, (Impl2.tryToExpandEnd L st (i, o + 1) cg).2) :=
          Prod.ext hp rfl
        have hbump := tryToExpandEnd2_true L st _ (i, o + 1) cg hpair
        rw [hst] at hbump
        exact hbump
      · simp at h

/-- In one-character mode, variant 2's backward scan hands over to the
walk only when it performed no probe at all. -/
theorem scanStart2_next (L : Layout) (i : Nat) :
    ∀ (bef : List Char) (o : Nat) (st st' : LR2State),
      Impl2.scanStart L true i o bef st = ScanOutcome.next st' →
      st' = st := by
  intro bef
  induction bef with
  | nil =>
    intro o st st' h
    rw [Impl2.scanStart] at h
    injection h with h1
    exact h1.symm
  | cons c bef' ih =>
    intro o st st' h
    rw [Impl2.scanStart] at h
    by_cases hc : isWhitespaceOrZeroWidth c
    · rw [if_pos hc] at h
      exact ih (o - 1) st st' h
    · rw [if_neg hc] at h
      dsimp only [] at h
      split at h
      · simp at h
      · simp at h

/-- In one-character mode, a variant 2 backward scan that reports growth
performed exactly one in-budget probe. -/
theorem scanStart2_true (L : Layout) (i : Nat) :
    ∀ (bef : List Char) (o : Nat) (st st' : LR2State),
      Impl2.scanStart L true i o bef st = ScanOutcome.done true st' →
      st'.checks = st.checks + 1 ∧ st'.checks ≤ Impl2.maxChecks := by
  intro bef
  induction bef with
  | nil =>
    intro o st st' h
    rw [Impl2.scanStart] at h
    simp at h
  | cons c bef' ih =>
    intro o st st' h
    rw [Impl2.scanStart] at h
    by_cases hc : isWhitespaceOrZeroWidth c
    · rw [if_pos hc] at h
      exact ih (o - 1) st st' h
    · rw [if_neg hc] at h
      dsimp only [] at h
      split at h
      · rename_i hp
        injection h with hb hst
        have hpair : Impl2.tryToExpandStart L st (i, o - 1) false
            = (true, (Impl2.tryToExpandStart L st (i, o - 1) false).2) :=
          Prod.ext hp rfl
        have hbump := tryToExpandStart2_true L st _ (i, o - 1) false hpair
        rw [hst] at hbump
        exact hbump
      · simp at h

/-- In one-character mode, a variant 2 forward walk that reports growth
performed exactly one in-budget probe. -/
theorem walkEnd2_true (L : Layout) :
    ∀ (rest : List DomNode) (j : Nat) (st st' : LR2State),
      Impl2.walkEnd L true j rest st = (true, st') →
      st'.checks = st.checks + 1 ∧ st'.checks ≤ Impl2.maxChecks := by
  intro rest
  induction rest with
  | nil =>
    intro j st st' h
    rw [walkEnd2_nil] at h
    simp at h
  | cons nd rest' ih =>
    intro j st st' h
    cases nd with
    | text u =>
      cases u with
      | nil =>
        rw [walkEnd2_text_nil] at h
        exact ih (j + 1) st st' h
      | cons c cs =>
        rw [walkEnd2_text_cons] at h
        cases hs : Impl2.scanEnd L true j 0 (c :: cs) true st with
        | done b st1 =>
          rw [hs] at h
          dsimp only [] at h
          injection h with hb hst
          subst hst
          subst hb
          exact scanEnd2_true L j (c :: cs) 0 true _ _ hs
        | next st1 =>
          rw [hs] at h
          dsimp only [] at h
          have he := scanEnd2_next L j (c :: cs) 0 true st st1 hs
          subst he
          exact ih (j + 1) _ _ h
    | elem b =>
      rw [walkEnd2_elem] at h
      cases b with
      | true =>
        rw [if_pos rfl] at h
        exact ih (j + 1) st st' h
      | false =>
        rw [if_neg (by simp)] at h
        simp at h

/-- In one-character mode, a variant 2 backward walk that reports growth
performed exactly one in-budget probe. -/
theorem walkStart2_true (L : Layout) :
    ∀ (rest : List DomNode) (j : Nat) (st st' : LR2State),
      Impl2.walkStart L true j rest st = (true, st') →
      st'.checks = st.checks + 1 ∧ st'.checks ≤ Impl2.maxChecks := by
  intro rest
  induction rest with
  | nil =>
    intro j st st' h
    rw [walkStart2_nil] at h
    simp at h
  | cons nd rest' ih =>
    intro j st st' h
    cases nd with
    | text u =>
      cases u with
      | nil =>
        rw [walkStart2_text_nil] at h
        exact ih (j - 1) st st' h
      | cons c cs =>
        rw [walkStart2_text_cons] at h
        by_cases hlast : isWhitespaceOrZeroWidth
            (jsCharAt (c :: cs) ((c :: cs).length - 1))
        · rw [if_pos hlast] at h
          cases hs : Impl2.scanStart L true j ((c :: cs).length - 1)
              (((c :: cs).take ((c :: cs).length - 1)).reverse) st with
          | done b st1 =>
            rw [hs] at h
            dsimp only [] at h
            injection h with hb hst
            subst hst
            subst hb
            exact scanStart2_true L j _ _ _ _ hs
          | next st1 =>
            rw [hs] at h
            dsimp only [] at h
            have he := scanStart2_next L j _ _ st st1 hs
            subst he
            exact ih (j - 1) _ _ h
        · rw [if_neg hlast] at h
          dsimp only [] at h
          split at h
          · rename_i hp
            injection h with hb hst
            have hpair : Impl2.tryToExpandStart L st
                (j, (c :: cs).length - 1) true
                = (true, (Impl2.tryToExpandStart L st
                    (j, (c :: cs).length - 1) true).2) :=
              Prod.ext hp rfl
            have hbump := tryToExpandStart2_true L st _
              (j, (c :: cs).length - 1) true hpair
            rw [hst] at hbump
            exact hbump
          · simp at h
    | elem b =>
      rw [walkStart2_elem] at h
      cases b with
      | true =>
        rw [if_pos rfl] at h
        exact ih (j - 1) st st' h
      | false =>
        rw [if_neg (by simp)] at h
        simp at h

/-- In one-character mode, a variant 2 end update that reports growth
performed exactly one in-budget probe. -/
theorem update2End_true (L : Layout) (doc : List DomNode)
    (st st' : LR2State)
    (h : Impl2.updateHighlightLineRangeEnd L doc true st = (true, st')) :
    st'.checks = st.checks + 1 ∧ st'.checks ≤ Impl2.maxChecks := by
  rw [Impl2.updateHighlightLineRangeEnd] at h
  split at h
  · rename_i t heq
    cases hs : Impl2.scanEnd L true st.range.2.1 st.range.2.2
        (t.drop st.range.2.2) false st with
    | done b st1 =>
      rw [hs] at h
      dsimp only [] at h
      injection h with hb hst
      subst hst
      subst hb
      exact scanEnd2_true L _ _ _ _ _ _ hs
    | next st1 =>
      rw [hs] at h
      dsimp only [] at h
      have he := scanEnd2_next L st.range.2.1 _ _ _ st st1 hs
      subst he
      exact walkEnd2_true L _ _ _ _ h
  · simp at h

/-- In one-character mode, a variant 2 start update that reports growth
performed exactly one in-budget probe. -/
theorem update2Start_true (L : Layout) (doc : List DomNode)
    (st st' : LR2State)
    (h : Impl2.updateHighlightLineRangeStart L doc true st = (true, st')) :
    st'.checks = st.checks + 1 ∧ st'.checks ≤ Impl2.maxChecks := by
  rw [Impl2.updateHighlightLineRangeStart] at h
  split at h
  · rename_i t heq
    cases hs : Impl2.scanStart L true st.range.1.1 st.range.1.2
        ((t.take st.range.1.2).reverse) st with
    | done b st1 =>
      rw [hs] at h
      dsimp only [] at h
      injection h with hb hst
      subst hst
      subst hb
      exact scanStart2_true L _ _ _ _ _ hs
    | next st1 =>
      rw [hs] at h
      dsimp only [] at h
      have he := scanStart2_next L st.range.1.1 _ _ st st1 hs
      subst he
      exact walkStart2_true L _ _ _ _ h
  · simp at h
/-- With enough fuel relative to the remaining budget, one more unit of
fuel does not change variant 1's alternation loop: the loop exits through
its own condition before the fuel runs out. -/
theorem expandLoop1_fuel (L : Layout) (doc : List DomNode) :
    ∀ (f : Nat) (st : LR1State),
      Impl1.maxChecks + 1 ≤ 2 * f + st.checks →
      Impl1.expandLoop L doc (f + 1) st
        = Impl1.expandLoop L doc (f + 2) st := by
  intro f
  induction f with
  | zero =>
    intro st hb
    rw [expandLoop1_succ L doc 0 st, expandLoop1_succ L doc 1 st]
    rcases h1 : Impl1.updateHighlightLineRangeEnd L doc true st with
      ⟨ke, st1⟩
    rcases h2 : Impl1.updateHighlightLineRangeStart L doc true st1 with
      ⟨ks, st2⟩
    dsimp only []
    rw [h2]
    dsimp only []
    by_cases hke : ks && ke
    · obtain ⟨hks, hke'⟩ := Bool.and_eq_true _ _ |>.mp hke
      subst hks
      subst hke'
      have b1 := update1End_true L doc st st1 h1
      have b2 := update1Start_true L doc st1 st2 h2
      omega
    · rw [if_neg hke, if_neg hke]
  | succ g ih =>
    intro st hb
    rw [expandLoop1_succ L doc (g + 1) st, expandLoop1_succ L doc (g + 2) st]
    rcases h1 : Impl1.updateHighlightLineRangeEnd L doc true st with
      ⟨ke, st1⟩
    rcases h2 : Impl1.updateHighlightLineRangeStart L doc true st1 with
      ⟨ks, st2⟩
    dsimp only []
    rw [h2]
    dsimp only []
    by_cases hke : ks && ke
    · rw [if_pos hke, if_pos hke]
      obtain ⟨hks, hke'⟩ := Bool.and_eq_true _ _ |>.mp hke
      subst hks
      subst hke'
      have b1 := update1End_true L doc st st1 h1
      have b2 := update1Start_true L doc st1 st2 h2
      exact ih st2 (by omega)
    · rw [if_neg hke, if_neg hke]

/-- With enough fuel relative to the remaining budget, one more unit of
fuel does not change variant 2's alternation loop. -/
theorem expandLoop2_fuel (L : Layout) (doc : List DomNode) :
    ∀ (f : Nat) (st : LR2State),
      Impl2.maxChecks + 1 ≤ 2 * f + st.checks →
      Impl2.expandLoop L doc (f + 1) st
        = Impl2.expandLoop L doc (f + 2) st := by
  intro f
  induction f with
  | zero =>
    intro st hb
    rw [expandLoop2_succ L doc 0 st, expandLoop2_succ L doc 1 st]
    rcases h1 : Impl2.updateHighlightLineRangeEnd L doc true st with
      ⟨ke, st1⟩
    rcases h2 : Impl2.updateHighlightLineRangeStart L doc true st1 with
      ⟨ks, st2⟩
    dsimp only []
    rw [h2]
    dsimp only []
    by_cases hke : ks && ke
    · obtain ⟨hks, hke'⟩ := Bool.and_eq_true _ _ |>.mp hke
      subst hks
      subst hke'
      have b1 := update2End_true L doc st st1 h1
      have b2 := update2Start_true L doc st1 st2 h2
      omega
    · rw [if_neg hke, if_neg hke]
  | succ g ih =>
    intro st hb
    rw [expandLoop2_succ L doc (g + 1) st, expandLoop2_succ L doc (g + 2) st]
    rcases h1 : Impl2.updateHighlightLineRangeEnd L doc true st with
      ⟨ke, st1⟩
    rcases h2 : Impl2.updateHighlightLineRangeStart L doc true st1 with
      ⟨ks, st2⟩
    dsimp only []
    rw [h2]
    dsimp only []
    by_cases hke : ks && ke
    · rw [if_pos hke, if_pos hke]
      obtain ⟨hks, hke'⟩ := Bool.and_eq_true _ _ |>.mp hke
      subst hks
      subst hke'
      have b1 := update2End_true L doc st st1 h1
      have b2 := update2Start_true L doc st1 st2 h2
      exact ih st2 (by omega)
    · rw [if_neg hke, if_neg hke]
/-- Any fuel beyond `loopFuel` leaves variant 1's alternation loop result
unchanged: the loop always terminates through its own exit condition
within the provided fuel. -/
theorem expandLoop1_fuel_indep (L : Layout) (doc : List DomNode) :
    ∀ (k : Nat) (st : LR1State),
      Impl1.expandLoop L doc (loopFuel + k) st
        = Impl1.expandLoop L doc loopFuel st := by
  intro k
  induction k with
  | zero => intro st; rfl
  | succ m ih =>
    intro st
    have e1 : loopFuel + (m + 1) = (199 + m) + 2 := by
      show 200 + (m + 1) = 199 + m + 2
      omega
    have e2 : loopFuel + m = (199 + m) + 1 := by
      show 200 + m = 199 + m + 1
      omega
    have h := expandLoop1_fuel L doc (199 + m) st
      (by show 105 + 1 ≤ 2 * (199 + m) + st.checks; omega)
    rw [e1, ← h, ← e2, ih st]

/-- Any fuel beyond `loopFuel` leaves variant 2's alternation loop result
unchanged. -/
theorem expandLoop2_fuel_indep (L : Layout) (doc : List DomNode) :
    ∀ (k : Nat) (st : LR2State),
      Impl2.expandLoop L doc (loopFuel + k) st
        = Impl2.expandLoop L doc loopFuel st := by
  intro k
  induction k with
  | zero => intro st; rfl
  | succ m ih =>
    intro st
    have e1 : loopFuel + (m + 1) = (199 + m) + 2 := by
      show 200 + (m + 1) = 199 + m + 2
      omega
    have e2 : loopFuel + m = (199 + m) + 1 := by
      show 200 + m = 199 + m + 1
      omega
    have h := expandLoop2_fuel L doc (199 + m) st
      (by show 115 + 1 ≤ 2 * (199 + m) + st.checks; omega)
    rw [e1, ← h, ← e2, ih st]

/-- Claim C4: the expansion budgets are the fixed constants 105 and 115;
once the counter has reached the budget every further growth attempt of
either variant is rejected with the range left exactly as already
computed (no error state exists in the embedding), and the alternating
expansion loop always terminates through its own exit condition — its
result is independent of any fuel beyond `loopFuel`. -/
theorem expansion_budget_bounds (L : Layout) (doc : List DomNode)
    (st1 : LR1State) (st2 : LR2State) (st1' : LR1State) (st2' : LR2State)
    (p : Pos) (cg : Bool) (k : Nat)
    (h1 : Impl1.maxChecks ≤ st1.checks)
    (h2 : Impl2.maxChecks ≤ st2.checks) :
    Impl1.maxChecks = 105 ∧ Impl2.maxChecks = 115 ∧
    Impl1.tryToExpandEnd L st1 p
      = (false, { st1 with checks := st1.checks + 1 }) ∧
    Impl1.tryToExpandStart L st1 p
      = (false, { st1 with checks := st1.checks + 1 }) ∧
    (Impl2.tryToExpandEnd L st2 p cg).1 = false ∧
    (Impl2.tryToExpandEnd L st2 p cg).2.range = st2.range ∧
    (Impl2.tryToExpandStart L st2 p cg).1 = false ∧
    (Impl2.tryToExpandStart L st2 p cg).2.range = st2.range ∧
    Impl1.expandLoop L doc (loopFuel + k) st1'
      = Impl1.expandLoop L doc loopFuel st1' ∧
    Impl2.expandLoop L doc (loopFuel + k) st2'
      = Impl2.expandLoop L doc loopFuel st2' := by
  refine ⟨rfl, rfl, ?_, ?_, ?_, ?_, ?_, ?_,
    expandLoop1_fuel_indep L doc k st1', expandLoop2_fuel_indep L doc k st2'⟩
  · rw [Impl1.tryToExpandEnd, if_pos (by omega)]
  · rw [Impl1.tryToExpandStart, if_pos (by omega)]
  · rw [Impl2.tryToExpandEnd]
    dsimp only []
    split
    · rfl
    · rw [Impl2.spansMultipleLines, if_pos (by omega : Impl2.maxChecks
        < st2.checks + 1)]
  · rw [Impl2.tryToExpandEnd]
    dsimp only []
    split
    · rfl
    · rw [Impl2.spansMultipleLines, if_pos (by omega : Impl2.maxChecks
        < st2.checks + 1)]
  · rw [Impl2.tryToExpandStart]
    dsimp only []
    split
    · rfl
    · rw [Impl2.spansMultipleLines, if_pos (by omega : Impl2.maxChecks
        < st2.checks + 1)]
  · rw [Impl2.tryToExpandStart]
    dsimp only []
    split
    · rfl
    · rw [Impl2.spansMultipleLines, if_pos (by omega : Impl2.maxChecks
        < st2.checks + 1)]

/-- Witness for claim C4 at the budget boundary states. -/
theorem expansion_budget_bounds_witness :
    Impl1.maxChecks = 105 ∧ Impl2.maxChecks = 115 ∧
    Impl1.tryToExpandEnd layoutDot
      { range := ((0, 0), (0, 1)), bTop := 0, bBot := 10, minH := 10,
        checks := 105 } (0, 2)
      = (false,
        { range := ((0, 0), (0, 1)), bTop := 0, bBot := 10,
          minH := 10, checks := 106 }) ∧
    (Impl2.tryToExpandEnd layoutDot
      { range := ((0, 0), (0, 1)), checks := 115 } (0, 2) false).1
      = false ∧
    (Impl2.tryToExpandEnd layoutDot
      { range := ((0, 0), (0, 1)), checks := 115 } (0, 2) false).2.range
      = ((0, 0), (0, 1)) ∧
    Impl1.expandLoop layoutDot docDot (loopFuel + 3)
      { range := ((0, 0), (0, 1)), bTop := 0, bBot := 10, minH := 10,
        checks := 0 }
      = Impl1.expandLoop layoutDot docDot loopFuel
        { range := ((0, 0), (0, 1)), bTop := 0, bBot := 10, minH := 10,
          checks := 0 } := by
  have h := expansion_budget_bounds layoutDot docDot
    { range := ((0, 0), (0, 1)), bTop := 0, bBot := 10, minH := 10,
      checks := 105 }
    { range := ((0, 0), (0, 1)), checks := 115 }
    { range := ((0, 0), (0, 1)), bTop := 0, bBot := 10, minH := 10,
      checks := 0 }
    { range := ((0, 0), (0, 1)), checks := 0 }
    (0, 2) false 3 (by decide) (by decide)
  exact ⟨h.1, h.2.1, h.2.2.1, h.2.2.2.2.1, h.2.2.2.2.2.1,
    h.2.2.2.2.2.2.2.2.1⟩

/-- Claim C1: on well-formed single-line inline text the incremental
heuristic of variant 1 (running bounds, minimum height, factor 7/4) and
the recomputing heuristic of variant 2 (filtered client rectangles,
factor 1.73, strict-growth guard) take the same accept/reject decision
for a candidate one-character growth of the same range.  Well-formedness
of the accept side: the character rectangle lies exactly on the current
line, the grown range still yields fewer than two non-degenerate client
rectangles, and the bounding rectangle strictly grew; of the reject side:
the character rectangle starts at or below the current line's bottom and
the grown range shows two or more non-degenerate client rectangles whose
bounding height reaches 1.73 times their minimum height.  In the first
situation both variants accept, in the second both reject. -/
theorem heuristic_equivalence (L : Layout)
    (st1 : LR1State) (st2 : LR2State) (p : Pos) (cg : Bool)
    (hchk1 : st1.checks + 1 ≤ Impl1.maxChecks)
    (hchk2 : st2.checks + 1 ≤ Impl2.maxChecks)
    (hr2 : st2.range = st1.range)
    (hh : 0 < st1.minH) (hbounds : st1.bBot = st1.bTop + st1.minH) :
    ((L.rangeRect ((p.1, p.2 - 1), (p.1, p.2))).top = st1.bTop →
     (L.rangeRect ((p.1, p.2 - 1), (p.1, p.2))).bottom = st1.bBot →
     ((L.rangeRects (st2.range.1, p)).filter
        (fun r => decide (0 < r.width) && decide (0 < r.height))).length
          < 2 →
     rectanglesAreEqual (L.rangeRect st2.range)
       (L.rangeRect (st2.range.1, p)) = false →
     (Impl1.tryToExpandEnd L st1 p).1 = true ∧
     (Impl2.tryToExpandEnd L st2 p cg).1 = true) ∧
    (st1.bBot ≤ (L.rangeRect ((p.1, p.2 - 1), (p.1, p.2))).top →
     (L.rangeRect ((p.1, p.2 - 1), (p.1, p.2))).top
       ≤ (L.rangeRect ((p.1, p.2 - 1), (p.1, p.2))).bottom →
     2 ≤ ((L.rangeRects (st2.range.1, p)).filter
        (fun r => decide (0 < r.width) && decide (0 < r.height))).length →
     (173 / 100 : ℚ) * minRectHeight ((L.rangeRects (st2.range.1, p)).filter
        (fun r => decide (0 < r.width) && decide (0 < r.height)))
       ≤ (L.rangeRect (st2.range.1, p)).height →
     (Impl1.tryToExpandEnd L st1 p).1 = false ∧
     (Impl2.tryToExpandEnd L st2 p cg).1 = false) := by
  constructor
  · intro htop hbot hflt hgrew
    constructor
    · rw [Impl1.tryToExpandEnd, if_neg (by omega)]
      dsimp only [Rect.height]
      rw [htop, hbot, hbounds]
      simp only [lt_self_iff_false, if_false]
      have e : st1.bTop + st1.minH - st1.bTop = st1.minH := by ring
      rw [e, ratMin, if_pos (le_refl st1.minH)]
      rw [if_pos (by
        simp only [Bool.and_eq_true, decide_eq_true_eq]
        constructor <;> linarith)]
    · rw [Impl2.tryToExpandEnd]
      dsimp only []
      rw [if_neg (by simp [hgrew])]
      rw [Impl2.spansMultipleLines]
      dsimp only []
      rw [if_neg (by omega), if_pos hflt]
  · intro hge hrtb hflt2 hmulti
    constructor
    · rw [Impl1.tryToExpandEnd, if_neg (by omega)]
      dsimp only [Rect.height]
      have hbt : st1.bTop < st1.bBot := by
        rw [hbounds]
        linarith
      have hnlt : ¬ (L.rangeRect ((p.1, p.2 - 1), (p.1, p.2))).top
          < st1.bTop := by
        push_neg
        linarith
      rw [if_neg hnlt, if_neg hnlt]
      by_cases hc : st1.bBot
          < (L.rangeRect ((p.1, p.2 - 1), (p.1, p.2))).bottom
      · rw [if_pos hc, if_pos hc]
        rw [if_neg (by
          simp only [Bool.and_eq_true, decide_eq_true_eq, not_and]
          intro _
          push_neg
          linarith)]
      · rw [if_neg hc, if_neg hc]
        push_neg at hc
        rw [if_neg (by
          simp only [Bool.and_eq_true, decide_eq_true_eq, not_and]
          intro _
          push_neg
          linarith)]
    · rw [Impl2.tryToExpandEnd]
      dsimp only []
      split
      · rfl
      · rw [Impl2.spansMultipleLines]
        dsimp only []
        rw [if_neg (by omega), if_neg (by omega)]
        have hdec : decide ((173 / 100 : ℚ)
            * minRectHeight ((L.rangeRects (st2.range.1, p)).filter
              (fun r => decide (0 < r.width) && decide (0 < r.height)))
            ≤ (L.rangeRect (st2.range.1, p)).height) = true :=
          decide_eq_true hmulti
        rw [hdec]

/-- Witness for claim C1 in the two-line layout `layoutEq`: both variants
accept the on-line growth to offset 2 and both reject the growth onto the
second line. -/
theorem heuristic_equivalence_witness :
    ((Impl1.tryToExpandEnd layoutEq
      { range := ((0, 0), (0, 1)), bTop := 0, bBot := 10, minH := 10,
        checks := 0 } (0, 2)).1 = true ∧
     (Impl2.tryToExpandEnd layoutEq
      { range := ((0, 0), (0, 1)), checks := 0 } (0, 2) true).1 = true) ∧
    ((Impl1.tryToExpandEnd layoutEq
      { range := ((0, 0), (0, 1)), bTop := 0, bBot := 10, minH := 10,
        checks := 0 } (1, 1)).1 = false ∧
     (Impl2.tryToExpandEnd layoutEq
      { range := ((0, 0), (0, 1)), checks := 0 } (1, 1) true).1 = false)
    := by
  have ha := heuristic_equivalence layoutEq
    { range := ((0, 0), (0, 1)), bTop := 0, bBot := 10, minH := 10,
      checks := 0 }
    { range := ((0, 0), (0, 1)), checks := 0 } (0, 2) true
    (by decide) (by decide) rfl (by with_unfolding_all decide)
    (by with_unfolding_all decide)
  have hb := heuristic_equivalence layoutEq
    { range := ((0, 0), (0, 1)), bTop := 0, bBot := 10, minH := 10,
      checks := 0 }
    { range := ((0, 0), (0, 1)), checks := 0 } (1, 1) true
    (by decide) (by decide) rfl (by with_unfolding_all decide)
    (by with_unfolding_all decide)
  exact ⟨ha.1 (by with_unfolding_all decide) (by with_unfolding_all decide)
      (by with_unfolding_all decide) (by with_unfolding_all decide),
    hb.2 (by with_unfolding_all decide) (by with_unfolding_all decide)
      (by with_unfolding_all decide) (by with_unfolding_all decide)⟩

/-- Indexing `textContent` at or past its length yields `undefined`, whose
test character is `'u'`. -/
theorem jsCharAt_ge {t : List Char} {k : Nat} (hk : t.length ≤ k) :
    jsCharAt t k = 'u' := by
  rw [jsCharAt, List.getD_eq_getElem?_getD, List.getElem?_eq_none hk]
  rfl

/-- The backward word scan started at or past the text's length first walks
down through the `undefined` region without stopping (no character of
"undefined" is a delimiter). -/
theorem scanBwd_ge (isDel : Char → Bool) (t : List Char)
    (hu : isDel 'u' = false) :
    ∀ o, t.length ≤ o → scanBwd isDel t o = scanBwd isDel t t.length := by
  intro o
  induction o with
  | zero =>
    intro h
    have h0 : t.length = 0 := by omega
    rw [h0]
  | succ k ih =>
    intro h
    rcases Nat.eq_or_lt_of_le h with he | hlt
    · rw [← he]
    · have hk : t.length ≤ k := by omega
      rw [scanBwd, jsCharAt_ge hk, if_neg (by simp [hu])]
      exact ih hk

/-- The backward word search from an overflowing offset equals the search
from the text's length. -/
theorem findWordStart_ge (isDel : Char → Bool) (i : Nat) (t : List Char)
    (o : Nat) (prevRest : List DomNode) (hu : isDel 'u' = false)
    (ho : t.length ≤ o) :
    findWordStart isDel i t o prevRest
      = findWordStart isDel i t t.length prevRest := by
  rw [findWordStart, findWordStart, scanBwd_ge isDel t hu o ho]

/-- In the overflowing-offset case the resolver starts the backward search
at the caret offset and the forward search at the text's length. -/
theorem setHighlightWordRange_eq_of_overflow (isDel : Char → Bool)
    (doc : List DomNode) (i o : Nat) (t : List Char) (r : RangeV)
    (hi : doc[i]? = some (.text t)) (ho : ¬ o < t.length) :
    setHighlightWordRange isDel doc (some (i, o)) r
      = (findWordStart isDel i t o ((doc.take i).reverse),
        findWordEnd isDel i t t.length (doc.drop (i + 1))) := by
  rw [setHighlightWordRange, hi]
  dsimp only []
  rw [dif_neg ho]

/-- What the backward zipper characterization says about the start
boundary: it references the seed node or a non-empty node entered by the
walk, with an in-range offset. -/
theorem startZip_boundary {isDel : Char → Bool} {doc : List DomNode}
    {i : Nat} {t : List Char} {P S : List Char} {res : Nat × Nat}
    (hne : t ≠ []) (h : StartZip isDel doc i t P S res) :
    ∃ us, doc[res.1]? = some (.text us) ∧ us ≠ [] ∧ res.2 ≤ us.length := by
  obtain ⟨us, H1, H2, H3, _, _⟩ := h
  refine ⟨us, H1, ?_, H2⟩
  rcases H3 with ⟨_, hu3⟩ | hu3
  · rw [hu3]
    exact hne
  · exact hu3

/-- What the forward zipper characterization says about the end boundary:
it references a text node with an in-range offset, the offset being `0`
whenever that node is empty. -/
theorem endZip_boundary {isDel : Char → Bool} {doc : List DomNode}
    {P S : List Char} {res : Nat × Nat}
    (h : EndZip isDel doc P S res) :
    ∃ ue, doc[res.1]? = some (.text ue) ∧ res.2 ≤ ue.length ∧
      (ue = [] → res.2 = 0) := by
  obtain ⟨ue, H1, H2, _, _⟩ := h
  refine ⟨ue, H1, H2, fun hue => ?_⟩
  rw [hue] at H2
  simpa using H2

/-- Composition step for boundary tracking: a boundary equal to an earlier
one inherits its alternative. -/
theorem boundary_trans {doc : List DomNode} {x y z : Pos}
    (h1 : x = y ∨ refsNonEmptyText doc x.1)
    (h2 : y = z ∨ refsNonEmptyText doc y.1) :
    x = z ∨ refsNonEmptyText doc x.1 := by
  rcases h1 with h1 | h1
  · rcases h2 with h2 | h2
    · exact Or.inl (h1.trans h2)
    · refine Or.inr ?_
      rw [h1]
      exact h2
  · exact Or.inr h1

/-- A variant 1 end probe never touches the start boundary and moves the
end boundary, if at all, to the probed position. -/
theorem tryToExpandEnd1_range (L : Layout) (st : LR1State) (q : Pos) :
    (Impl1.tryToExpandEnd L st q).2.range.1 = st.range.1 ∧
    ((Impl1.tryToExpandEnd L st q).2.range.2 = st.range.2 ∨
      (Impl1.tryToExpandEnd L st q).2.range.2 = q) := by
  rw [Impl1.tryToExpandEnd]
  by_cases h : Impl1.maxChecks < st.checks + 1
  · rw [if_pos h]
    exact ⟨rfl, Or.inl rfl⟩
  · rw [if_neg h]
    dsimp only []
    repeat' split
    all_goals first
      | exact ⟨rfl, Or.inl rfl⟩
      | exact ⟨rfl, Or.inr rfl⟩

/-- A variant 1 start probe never touches the end boundary and moves the
start boundary, if at all, to the probed position. -/
theorem tryToExpandStart1_range (L : Layout) (st : LR1State) (q : Pos) :
    (Impl1.tryToExpandStart L st q).2.range.2 = st.range.2 ∧
    ((Impl1.tryToExpandStart L st q).2.range.1 = st.range.1 ∨
      (Impl1.tryToExpandStart L st q).2.range.1 = q) := by
  rw [Impl1.tryToExpandStart]
  by_cases h : Impl1.maxChecks < st.checks + 1
  · rw [if_pos h]
    exact ⟨rfl, Or.inl rfl⟩
  · rw [if_neg h]
    dsimp only []
    repeat' split
    all_goals first
      | exact ⟨rfl, Or.inl rfl⟩
      | exact ⟨rfl, Or.inr rfl⟩

/-- `spansMultipleLines` only bumps the counter. -/
theorem spansMultipleLines_state (L : Layout) (st : LR2State) :
    (Impl2.spansMultipleLines L st).2.range = st.range := by
  rw [Impl2.spansMultipleLines]
  dsimp only []
  repeat' split
  all_goals rfl

/-- A variant 2 end probe never touches the start boundary and moves the
end boundary, if at all, to the probed position. -/
theorem tryToExpandEnd2_range (L : Layout) (st : LR2State) (q : Pos)
    (cg : Bool) :
    (Impl2.tryToExpandEnd L st q cg).2.range.1 = st.range.1 ∧
    ((Impl2.tryToExpandEnd L st q cg).2.range.2 = st.range.2 ∨
      (Impl2.tryToExpandEnd L st q cg).2.range.2 = q) := by
  rw [Impl2.tryToExpandEnd]
  dsimp only []
  split
  · exact ⟨rfl, Or.inl rfl⟩
  · split
    · rename_i st2 heq
      have h0 := congrArg (fun p => (Prod.snd p).range) heq
      dsimp only [] at h0
      have hrange : st2.range = (st.range.1, q) := by
        rw [← h0]
        exact spansMultipleLines_state L _
      constructor
      · show st2.range.1 = st.range.1
        rw [hrange]
      · exact Or.inl rfl
    · rename_i st2 heq
      have h0 := congrArg (fun p => (Prod.snd p).range) heq
      dsimp only [] at h0
      have hrange : st2.range = (st.range.1, q) := by
        rw [← h0]
        exact spansMultipleLines_state L _
      constructor
      · show st2.range.1 = st.range.1
        rw [hrange]
      · refine Or.inr ?_
        show st2.range.2 = q
        rw [hrange]

/-- A variant 2 start probe never touches the end boundary and moves the
start boundary, if at all, to the probed position. -/
theorem tryToExpandStart2_range (L : Layout) (st : LR2State) (q : Pos)
    (cg : Bool) :
    (Impl2.tryToExpandStart L st q cg).2.range.2 = st.range.2 ∧
    ((Impl2.tryToExpandStart L st q cg).2.range.1 = st.range.1 ∨
      (Impl2.tryToExpandStart L st q cg).2.range.1 = q) := by
  rw [Impl2.tryToExpandStart]
  dsimp only []
  split
  · exact ⟨rfl, Or.inl rfl⟩
  · split
    · rename_i st2 heq
      have h0 := congrArg (fun p => (Prod.snd p).range) heq
      dsimp only [] at h0
      have hrange : st2.range = (q, st.range.2) := by
        rw [← h0]
        exact spansMultipleLines_state L _
      constructor
      · show st2.range.2 = st.range.2
        rw [hrange]
      · exact Or.inl rfl
    · rename_i st2 heq
      have h0 := congrArg (fun p => (Prod.snd p).range) heq
      dsimp only [] at h0
      have hrange : st2.range = (q, st.range.2) := by
        rw [← h0]
        exact spansMultipleLines_state L _
      constructor
      · show st2.range.2 = st.range.2
        rw [hrange]
      · refine Or.inr ?_
        show st2.range.1 = q
        rw [hrange]
/-- Variant 1's forward scan never touches the start boundary and moves
the end boundary only to an offset of the scanned (non-empty) node. -/
theorem scanEnd1_range (L : Layout) (oneChar : Bool) (i : Nat) :
    ∀ (suf : List Char) (o : Nat) (st : LR1State),
      (Impl1.scanEnd L oneChar i o suf st).state.range.1 = st.range.1 ∧
      ((Impl1.scanEnd L oneChar i o suf st).state.range.2 = st.range.2 ∨
        ((Impl1.scanEnd L oneChar i o suf st).state.range.2.1 = i ∧
          suf ≠ [])) := by
  intro suf
  induction suf with
  | nil =>
    intro o st
    rw [Impl1.scanEnd]
    exact ⟨rfl, Or.inl rfl⟩
  | cons c suf' ih =>
    intro o st
    rw [Impl1.scanEnd]
    by_cases hc : isWhitespaceOrZeroWidth c
    · rw [if_pos hc]
      rcases ih (o + 1) st with ⟨h1, h2⟩
      refine ⟨h1, ?_⟩
      rcases h2 with h2 | ⟨h2, _⟩
      · exact Or.inl h2
      · exact Or.inr ⟨h2, by simp⟩
    · rw [if_neg hc]
      dsimp only []
      have hp := tryToExpandEnd1_range L st (i, o + 1)
      split
      · split
        · simp only [ScanOutcome.state]
          refine ⟨hp.1, ?_⟩
          rcases hp.2 with h | h
          · exact Or.inl h
          · exact Or.inr ⟨by rw [h], by simp⟩
        · rcases ih (o + 1) (Impl1.tryToExpandEnd L st (i, o + 1)).2
            with ⟨h1, h2⟩
          refine ⟨h1.trans hp.1, ?_⟩
          rcases h2 with h2 | ⟨h2, _⟩
          · rw [h2]
            rcases hp.2 with h | h
            · exact Or.inl h
            · exact Or.inr ⟨by rw [h], by simp⟩
          · exact Or.inr ⟨h2, by simp⟩
      · simp only [ScanOutcome.state]
        refine ⟨hp.1, ?_⟩
        rcases hp.2 with h | h
        · exact Or.inl h
        · exact Or.inr ⟨by rw [h], by simp⟩

/-- Variant 1's backward scan never touches the end boundary and moves
the start boundary only to an offset of the scanned (non-empty) node. -/
theorem scanStart1_range (L : Layout) (oneChar : Bool) (i : Nat) :
    ∀ (bef : List Char) (o : Nat) (st : LR1State),
      (Impl1.scanStart L oneChar i o bef st).state.range.2 = st.range.2 ∧
      ((Impl1.scanStart L oneChar i o bef st).state.range.1 = st.range.1 ∨
        ((Impl1.scanStart L oneChar i o bef st).state.range.1.1 = i ∧
          bef ≠ [])) := by
  intro bef
  induction bef with
  | nil =>
    intro o st
    rw [Impl1.scanStart]
    exact ⟨rfl, Or.inl rfl⟩
  | cons c bef' ih =>
    intro o st
    rw [Impl1.scanStart]
    by_cases hc : isWhitespaceOrZeroWidth c
    · rw [if_pos hc]
      rcases ih (o - 1) st with ⟨h1, h2⟩
      refine ⟨h1, ?_⟩
      rcases h2 with h2 | ⟨h2, _⟩
      · exact Or.inl h2
      · exact Or.inr ⟨h2, by simp⟩
    · rw [if_neg hc]
      dsimp only []
      have hp := tryToExpandStart1_range L st (i, o - 1)
      split
      · split
        · simp only [ScanOutcome.state]
          refine ⟨hp.1, ?_⟩
          rcases hp.2 with h | h
          · exact Or.inl h
          · exact Or.inr ⟨by rw [h], by simp⟩
        · rcases ih (o - 1) (Impl1.tryToExpandStart L st (i, o - 1)).2
            with ⟨h1, h2⟩
          refine ⟨h1.trans hp.1, ?_⟩
          rcases h2 with h2 | ⟨h2, _⟩
          · rw [h2]
            rcases hp.2 with h | h
            · exact Or.inl h
            · exact Or.inr ⟨by rw [h], by simp⟩
          · exact Or.inr ⟨h2, by simp⟩
      · simp only [ScanOutcome.state]
        refine ⟨hp.1, ?_⟩
        rcases hp.2 with h | h
        · exact Or.inl h
        · exact Or.inr ⟨by rw [h], by simp⟩

/-- Variant 2's forward scan never touches the start boundary and moves
the end boundary only to an offset of the scanned (non-empty) node. -/
theorem scanEnd2_range (L : Layout) (oneChar : Bool) (i : Nat) :
    ∀ (suf : List Char) (o : Nat) (cg : Bool) (st : LR2State),
      (Impl2.scanEnd L oneChar i o suf cg st).state.range.1 = st.range.1 ∧
      ((Impl2.scanEnd L oneChar i o suf cg st).state.range.2 = st.range.2 ∨
        ((Impl2.scanEnd L oneChar i o suf cg st).state.range.2.1 = i ∧
          suf ≠ [])) := by
  intro suf
  induction suf with
  | nil =>
    intro o cg st
    rw [Impl2.scanEnd]
    exact ⟨rfl, Or.inl rfl⟩
  | cons c suf' ih =>
    intro o cg st
    rw [Impl2.scanEnd]
    by_cases hc : isWhitespaceOrZeroWidth c
    · rw [if_pos hc]
      rcases ih (o + 1) cg st with ⟨h1, h2⟩
      refine ⟨h1, ?_⟩
      rcases h2 with h2 | ⟨h2, _⟩
      · exact Or.inl h2
      · exact Or.inr ⟨h2, by simp⟩
    · rw [if_neg hc]
      dsimp only []
      have hp := tryToExpandEnd2_range L st (i, o + 1) cg
      split
      · split
        · simp only [ScanOutcome.state]
          refine ⟨hp.1, ?_⟩
          rcases hp.2 with h | h
          · exact Or.inl h
          · exact Or.inr ⟨by rw [h], by simp⟩
        · rcases ih (o + 1) false (Impl2.tryToExpandEnd L st (i, o + 1) cg).2
            with ⟨h1, h2⟩
          refine ⟨h1.trans hp.1, ?_⟩
          rcases h2 with h2 | ⟨h2, _⟩
          · rw [h2]
            rcases hp.2 with h | h
            · exact Or.inl h
            · exact Or.inr ⟨by rw [h], by simp⟩
          · exact Or.inr ⟨h2, by simp⟩
      · simp only [ScanOutcome.state]
        refine ⟨hp.1, ?_⟩
        rcases hp.2 with h | h
        · exact Or.inl h
        · exact Or.inr ⟨by rw [h], by simp⟩

/-- Variant 2's backward scan never touches the end boundary and moves
the start boundary only to an offset of the scanned (non-empty) node. -/
theorem scanStart2_range (L : Layout) (oneChar : Bool) (i : Nat) :
    ∀ (bef : List Char) (o : Nat) (st : LR2State),
      (Impl2.scanStart L oneChar i o bef st).state.range.2 = st.range.2 ∧
      ((Impl2.scanStart L oneChar i o bef st).state.range.1 = st.range.1 ∨
        ((Impl2.scanStart L oneChar i o bef st).state.range.1.1 = i ∧
          bef ≠ [])) := by
  intro bef
  induction bef with
  | nil =>
    intro o st
    rw [Impl2.scanStart]
    exact ⟨rfl, Or.inl rfl⟩
  | cons c bef' ih =>
    intro o st
    rw [Impl2.scanStart]
    by_cases hc : isWhitespaceOrZeroWidth c
    · rw [if_pos hc]
      rcases ih (o - 1) st with ⟨h1, h2⟩
      refine ⟨h1, ?_⟩
      rcases h2 with h2 | ⟨h2, _⟩
      · exact Or.inl h2
      · exact Or.inr ⟨h2, by simp⟩
    · rw [if_neg hc]
      dsimp only []
      have hp := tryToExpandStart2_range L st (i, o - 1) false
      split
      · split
        · simp only [ScanOutcome.state]
          refine ⟨hp.1, ?_⟩
          rcases hp.2 with h | h
          · exact Or.inl h
          · exact Or.inr ⟨by rw [h], by simp⟩
        · rcases ih (o - 1) (Impl2.tryToExpandStart L st (i, o - 1) false).2
            with ⟨h1, h2⟩
          refine ⟨h1.trans hp.1, ?_⟩
          rcases h2 with h2 | ⟨h2, _⟩
          · rw [h2]
            rcases hp.2 with h | h
            · exact Or.inl h
            · exact Or.inr ⟨by rw [h], by simp⟩
          · exact Or.inr ⟨h2, by simp⟩
      · simp only [ScanOutcome.state]
        refine ⟨hp.1, ?_⟩
        rcases hp.2 with h | h
        · exact Or.inl h
        · exact Or.inr ⟨by rw [h], by simp⟩
/-- Variant 1's forward walk never touches the start boundary and moves
the end boundary only into a non-empty text sibling. -/
theorem walkEnd1_range (L : Layout) (oneChar : Bool) (doc : List DomNode) :
    ∀ (rest : List DomNode) (j : Nat) (st : LR1State),
      rest = doc.drop j →
      (Impl1.walkEnd L oneChar j rest st).2.range.1 = st.range.1 ∧
      ((Impl1.walkEnd L oneChar j rest st).2.range.2 = st.range.2 ∨
        refsNonEmptyText doc
          (Impl1.walkEnd L oneChar j rest st).2.range.2.1) := by
  intro rest
  induction rest with
  | nil =>
    intro j st _
    rw [walkEnd1_nil]
    exact ⟨rfl, Or.inl rfl⟩
  | cons nd rest' ih =>
    intro j st hrest
    have hjlt : j < doc.length := by
      by_contra hcon
      rw [List.drop_eq_nil_of_le (by omega)] at hrest
      simp at hrest
    have hdecomp : doc.drop j = doc[j] :: doc.drop (j + 1) :=
      List.drop_eq_getElem_cons hjlt
    rw [hdecomp] at hrest
    injection hrest with hhd hrest'
    cases nd with
    | text u =>
      cases u with
      | nil =>
        rw [walkEnd1_text_nil]
        exact ih (j + 1) st hrest'
      | cons c cs =>
        have hkk : doc[j]? = some (.text (c :: cs)) := by
          rw [List.getElem?_eq_getElem hjlt, ← hhd]
        rw [walkEnd1_text_cons]
        cases hs : Impl1.scanEnd L oneChar j 0 (c :: cs) st with
        | done b st1 =>
          dsimp only []
          have hr := scanEnd1_range L oneChar j (c :: cs) 0 st
          rw [hs] at hr
          simp only [ScanOutcome.state] at hr
          refine ⟨hr.1, ?_⟩
          rcases hr.2 with h | ⟨h, _⟩
          · exact Or.inl h
          · refine Or.inr ?_
            rw [h]
            exact ⟨c :: cs, hkk, by simp⟩
        | next st1 =>
          dsimp only []
          have hr := scanEnd1_range L oneChar j (c :: cs) 0 st
          rw [hs] at hr
          simp only [ScanOutcome.state] at hr
          have hr2 : st1.range.2 = st.range.2 ∨
              refsNonEmptyText doc st1.range.2.1 := by
            rcases hr.2 with h | ⟨h, _⟩
            · exact Or.inl h
            · refine Or.inr ?_
              rw [h]
              exact ⟨c :: cs, hkk, by simp⟩
          rcases ih (j + 1) st1 hrest' with ⟨h1, h2⟩
          exact ⟨h1.trans hr.1, boundary_trans h2 hr2⟩
    | elem b =>
      rw [walkEnd1_elem]
      exact ih (j + 1) st hrest'

/-- Variant 2's forward walk never touches the start boundary and moves
the end boundary only into a non-empty text sibling. -/
theorem walkEnd2_range (L : Layout) (oneChar : Bool) (doc : List DomNode) :
    ∀ (rest : List DomNode) (j : Nat) (st : LR2State),
      rest = doc.drop j →
      (Impl2.walkEnd L oneChar j rest st).2.range.1 = st.range.1 ∧
      ((Impl2.walkEnd L oneChar j rest st).2.range.2 = st.range.2 ∨
        refsNonEmptyText doc
          (Impl2.walkEnd L oneChar j rest st).2.range.2.1) := by
  intro rest
  induction rest with
  | nil =>
    intro j st _
    rw [walkEnd2_nil]
    exact ⟨rfl, Or.inl rfl⟩
  | cons nd rest' ih =>
    intro j st hrest
    have hjlt : j < doc.length := by
      by_contra hcon
      rw [List.drop_eq_nil_of_le (by omega)] at hrest
      simp at hrest
    have hdecomp : doc.drop j = doc[j] :: doc.drop (j + 1) :=
      List.drop_eq_getElem_cons hjlt
    rw [hdecomp] at hrest
    injection hrest with hhd hrest'
    cases nd with
    | text u =>
      cases u with
      | nil =>
        rw [walkEnd2_text_nil]
        exact ih (j + 1) st hrest'
      | cons c cs =>
        have hkk : doc[j]? = some (.text (c :: cs)) := by
          rw [List.getElem?_eq_getElem hjlt, ← hhd]
        rw [walkEnd2_text_cons]
        cases hs : Impl2.scanEnd L oneChar j 0 (c :: cs) true st with
        | done b st1 =>
          dsimp only []
          have hr := scanEnd2_range L oneChar j (c :: cs) 0 true st
          rw [hs] at hr
          simp only [ScanOutcome.state] at hr
          refine ⟨hr.1, ?_⟩
          rcases hr.2 with h | ⟨h, _⟩
          · exact Or.inl h
          · refine Or.inr ?_
            rw [h]
            exact ⟨c :: cs, hkk, by simp⟩
        | next st1 =>
          dsimp only []
          have hr := scanEnd2_range L oneChar j (c :: cs) 0 true st
          rw [hs] at hr
          simp only [ScanOutcome.state] at hr
          have hr2 : st1.range.2 = st.range.2 ∨
              refsNonEmptyText doc st1.range.2.1 := by
            rcases hr.2 with h | ⟨h, _⟩
            · exact Or.inl h
            · refine Or.inr ?_
              rw [h]
              exact ⟨c :: cs, hkk, by simp⟩
          rcases ih (j + 1) st1 hrest' with ⟨h1, h2⟩
          exact ⟨h1.trans hr.1, boundary_trans h2 hr2⟩
    | elem b =>
      rw [walkEnd2_elem]
      cases b with
      | true =>
        rw [if_pos rfl]
        exact ih (j + 1) st hrest'
      | false =>
        rw [if_neg (by simp)]
        exact ⟨rfl, Or.inl rfl⟩
/-- Variant 1's backward walk never touches the end boundary and moves
the start boundary only into a non-empty text sibling. -/
theorem walkStart1_range (L : Layout) (oneChar : Bool)
    (doc : List DomNode) :
    ∀ (m : Nat), m ≤ doc.length → ∀ (st : LR1State),
      (Impl1.walkStart L oneChar (m - 1)
          ((doc.take m).reverse) st).2.range.2 = st.range.2 ∧
      ((Impl1.walkStart L oneChar (m - 1)
          ((doc.take m).reverse) st).2.range.1 = st.range.1 ∨
        refsNonEmptyText doc
          (Impl1.walkStart L oneChar (m - 1)
            ((doc.take m).reverse) st).2.range.1.1) := by
  intro m
  induction m with
  | zero =>
    intro _ st
    simp only [List.take_zero, List.reverse_nil]
    rw [walkStart1_nil]
    exact ⟨rfl, Or.inl rfl⟩
  | succ k ih =>
    intro hm st
    have hklt : k < doc.length := by omega
    have htake : (doc.take (k + 1)).reverse
        = doc[k] :: (doc.take k).reverse := by
      rw [List.take_succ, List.getElem?_eq_getElem hklt]
      simp
    simp only [Nat.add_sub_cancel]
    rw [htake]
    cases hdk : doc[k] with
    | text u =>
      have hkk : doc[k]? = some (.text u) := by
        rw [List.getElem?_eq_getElem hklt, hdk]
      cases u with
      | nil =>
        rw [walkStart1_text_nil]
        exact ih (by omega) st
      | cons c cs =>
        rw [walkStart1_text_cons]
        by_cases hlast : isWhitespaceOrZeroWidth
            (jsCharAt (c :: cs) ((c :: cs).length - 1))
        · rw [if_pos hlast]
          cases hs : Impl1.scanStart L oneChar k ((c :: cs).length - 1)
              (((c :: cs).take ((c :: cs).length - 1)).reverse) st with
          | done b st1 =>
            dsimp only []
            have hr := scanStart1_range L oneChar k
              (((c :: cs).take ((c :: cs).length - 1)).reverse)
              ((c :: cs).length - 1) st
            rw [hs] at hr
            simp only [ScanOutcome.state] at hr
            refine ⟨hr.1, ?_⟩
            rcases hr.2 with h | ⟨h, _⟩
            · exact Or.inl h
            · refine Or.inr ?_
              rw [h]
              exact ⟨c :: cs, hkk, by simp⟩
          | next st1 =>
            dsimp only []
            have hr := scanStart1_range L oneChar k
              (((c :: cs).take ((c :: cs).length - 1)).reverse)
              ((c :: cs).length - 1) st
            rw [hs] at hr
            simp only [ScanOutcome.state] at hr
            have hr2 : st1.range.1 = st.range.1 ∨
                refsNonEmptyText doc st1.range.1.1 := by
              rcases hr.2 with h | ⟨h, _⟩
              · exact Or.inl h
              · refine Or.inr ?_
                rw [h]
                exact ⟨c :: cs, hkk, by simp⟩
            rcases ih (by omega) st1 with ⟨h1, h2⟩
            exact ⟨h1.trans hr.1, boundary_trans h2 hr2⟩
        · rw [if_neg hlast]
          dsimp only []
          have hp := tryToExpandStart1_range L st (k, (c :: cs).length - 1)
          have hpr : (Impl1.tryToExpandStart L st
                (k, (c :: cs).length - 1)).2.range.1 = st.range.1 ∨
              refsNonEmptyText doc (Impl1.tryToExpandStart L st
                (k, (c :: cs).length - 1)).2.range.1.1 := by
            rcases hp.2 with h | h
            · exact Or.inl h
            · refine Or.inr ?_
              rw [h]
              exact ⟨c :: cs, hkk, by simp⟩
          split
          · split
            · exact ⟨hp.1, hpr⟩
            · cases hs : Impl1.scanStart L oneChar k ((c :: cs).length - 1)
                  (((c :: cs).take ((c :: cs).length - 1)).reverse)
                  (Impl1.tryToExpandStart L st
                    (k, (c :: cs).length - 1)).2 with
              | done b st1 =>
                dsimp only []
                have hr := scanStart1_range L oneChar k
                  (((c :: cs).take ((c :: cs).length - 1)).reverse)
                  ((c :: cs).length - 1)
                  (Impl1.tryToExpandStart L st (k, (c :: cs).length - 1)).2
                rw [hs] at hr
                simp only [ScanOutcome.state] at hr
                have hr2 : st1.range.1
                    = (Impl1.tryToExpandStart L st
                        (k, (c :: cs).length - 1)).2.range.1 ∨
                    refsNonEmptyText doc st1.range.1.1 := by
                  rcases hr.2 with h | ⟨h, _⟩
                  · exact Or.inl h
                  · refine Or.inr ?_
                    rw [h]
                    exact ⟨c :: cs, hkk, by simp⟩
                exact ⟨hr.1.trans hp.1, boundary_trans hr2 hpr⟩
              | next st1 =>
                dsimp only []
                have hr := scanStart1_range L oneChar k
                  (((c :: cs).take ((c :: cs).length - 1)).reverse)
                  ((c :: cs).length - 1)
                  (Impl1.tryToExpandStart L st (k, (c :: cs).length - 1)).2
                rw [hs] at hr
                simp only [ScanOutcome.state] at hr
                have hr2 : st1.range.1
                    = (Impl1.tryToExpandStart L st
                        (k, (c :: cs).length - 1)).2.range.1 ∨
                    refsNonEmptyText doc st1.range.1.1 := by
                  rcases hr.2 with h | ⟨h, _⟩
                  · exact Or.inl h
                  · refine Or.inr ?_
                    rw [h]
                    exact ⟨c :: cs, hkk, by simp⟩
                rcases ih (by omega) st1 with ⟨h1, h2⟩
                exact ⟨(h1.trans hr.1).trans hp.1,
                  boundary_trans (boundary_trans h2 hr2) hpr⟩
          · exact ⟨hp.1, hpr⟩
    | elem b =>
      rw [walkStart1_elem]
      exact ih (by omega) st

/-- Variant 2's backward walk never touches the end boundary and moves
the start boundary only into a non-empty text sibling. -/
theorem walkStart2_range (L : Layout) (oneChar : Bool)
    (doc : List DomNode) :
    ∀ (m : Nat), m ≤ doc.length → ∀ (st : LR2State),
      (Impl2.walkStart L oneChar (m - 1)
          ((doc.take m).reverse) st).2.range.2 = st.range.2 ∧
      ((Impl2.walkStart L oneChar (m - 1)
          ((doc.take m).reverse) st).2.range.1 = st.range.1 ∨
        refsNonEmptyText doc
          (Impl2.walkStart L oneChar (m - 1)
            ((doc.take m).reverse) st).2.range.1.1) := by
  intro m
  induction m with
  | zero =>
    intro _ st
    simp only [List.take_zero, List.reverse_nil]
    rw [walkStart2_nil]
    exact ⟨rfl, Or.inl rfl⟩
  | succ k ih =>
    intro hm st
    have hklt : k < doc.length := by omega
    have htake : (doc.take (k + 1)).reverse
        = doc[k] :: (doc.take k).reverse := by
      rw [List.take_succ, List.getElem?_eq_getElem hklt]
      simp
    simp only [Nat.add_sub_cancel]
    rw [htake]
    cases hdk : doc[k] with
    | text u =>
      have hkk : doc[k]? = some (.text u) := by
        rw [List.getElem?_eq_getElem hklt, hdk]
      cases u with
      | nil =>
        rw [walkStart2_text_nil]
        exact ih (by omega) st
      | cons c cs =>
        rw [walkStart2_text_cons]
        by_cases hlast : isWhitespaceOrZeroWidth
            (jsCharAt (c :: cs) ((c :: cs).length - 1))
        · rw [if_pos hlast]
          cases hs : Impl2.scanStart L oneChar k ((c :: cs).length - 1)
              (((c :: cs).take ((c :: cs).length - 1)).reverse) st with
          | done b st1 =>
            dsimp only []
            have hr := scanStart2_range L oneChar k
              (((c :: cs).take ((c :: cs).length - 1)).reverse)
              ((c :: cs).length - 1) st
            rw [hs] at hr
            simp only [ScanOutcome.state] at hr
            refine ⟨hr.1, ?_⟩
            rcases hr.2 with h | ⟨h, _⟩
            · exact Or.inl h
            · refine Or.inr ?_
              rw [h]
              exact ⟨c :: cs, hkk, by simp⟩
          | next st1 =>
            dsimp only []
            have hr := scanStart2_range L oneChar k
              (((c :: cs).take ((c :: cs).length - 1)).reverse)
              ((c :: cs).length - 1) st
            rw [hs] at hr
            simp only [ScanOutcome.state] at hr
            have hr2 : st1.range.1 = st.range.1 ∨
                refsNonEmptyText doc st1.range.1.1 := by
              rcases hr.2 with h | ⟨h, _⟩
              · exact Or.inl h
              · refine Or.inr ?_
                rw [h]
                exact ⟨c :: cs, hkk, by simp⟩
            rcases ih (by omega) st1 with ⟨h1, h2⟩
            exact ⟨h1.trans hr.1, boundary_trans h2 hr2⟩
        · rw [if_neg hlast]
          dsimp only []
          have hp := tryToExpandStart2_range L st
            (k, (c :: cs).length - 1) true
          have hpr : (Impl2.tryToExpandStart L st
                (k, (c :: cs).length - 1) true).2.range.1 = st.range.1 ∨
              refsNonEmptyText doc (Impl2.tryToExpandStart L st
                (k, (c :: cs).length - 1) true).2.range.1.1 := by
            rcases hp.2 with h | h
            · exact Or.inl h
            · refine Or.inr ?_
              rw [h]
              exact ⟨c :: cs, hkk, by simp⟩
          split
          · split
            · exact ⟨hp.1, hpr⟩
            · cases hs : Impl2.scanStart L oneChar k ((c :: cs).length - 1)
                  (((c :: cs).take ((c :: cs).length - 1)).reverse)
                  (Impl2.tryToExpandStart L st
                    (k, (c :: cs).length - 1) true).2 with
              | done b st1 =>
                dsimp only []
                have hr := scanStart2_range L oneChar k
                  (((c :: cs).take ((c :: cs).length - 1)).reverse)
                  ((c :: cs).length - 1)
                  (Impl2.tryToExpandStart L st
                    (k, (c :: cs).length - 1) true).2
                rw [hs] at hr
                simp only [ScanOutcome.state] at hr
                have hr2 : st1.range.1
                    = (Impl2.tryToExpandStart L st
                        (k, (c :: cs).length - 1) true).2.range.1 ∨
                    refsNonEmptyText doc st1.range.1.1 := by
                  rcases hr.2 with h | ⟨h, _⟩
                  · exact Or.inl h
                  · refine Or.inr ?_
                    rw [h]
                    exact ⟨c :: cs, hkk, by simp⟩
                exact ⟨hr.1.trans hp.1, boundary_trans hr2 hpr⟩
              | next st1 =>
                dsimp only []
                have hr := scanStart2_range L oneChar k
                  (((c :: cs).take ((c :: cs).length - 1)).reverse)
                  ((c :: cs).length - 1)
                  (Impl2.tryToExpandStart L st
                    (k, (c :: cs).length - 1) true).2
                rw [hs] at hr
                simp only [ScanOutcome.state] at hr
                have hr2 : st1.range.1
                    = (Impl2.tryToExpandStart L st
                        (k, (c :: cs).length - 1) true).2.range.1 ∨
                    refsNonEmptyText doc st1.range.1.1 := by
                  rcases hr.2 with h | ⟨h, _⟩
                  · exact Or.inl h
                  · refine Or.inr ?_
                    rw [h]
                    exact ⟨c :: cs, hkk, by simp⟩
                rcases ih (by omega) st1 with ⟨h1, h2⟩
                exact ⟨(h1.trans hr.1).trans hp.1,
                  boundary_trans (boundary_trans h2 hr2) hpr⟩
          · exact ⟨hp.1, hpr⟩
    | elem b =>
      rw [walkStart2_elem]
      cases b with
      | true =>
        rw [if_pos rfl]
        exact ih (by omega) st
      | false =>
        rw [if_neg (by simp)]
        exact ⟨rfl, Or.inl rfl⟩
/-- Variant 1's end update never touches the start boundary and moves the
end boundary only into a non-empty text run. -/
theorem update1End_range (L : Layout) (doc : List DomNode) (oneChar : Bool)
    (st : LR1State) :
    (Impl1.updateHighlightLineRangeEnd L doc oneChar st).2.range.1
      = st.range.1 ∧
    ((Impl1.updateHighlightLineRangeEnd L doc oneChar st).2.range.2
      = st.range.2 ∨
      refsNonEmptyText doc
        (Impl1.updateHighlightLineRangeEnd L doc oneChar
          st).2.range.2.1) := by
  rw [Impl1.updateHighlightLineRangeEnd]
  cases heq : doc[st.range.2.1]? with
  | none => exact ⟨rfl, Or.inl rfl⟩
  | some nd =>
    cases nd with
    | text t =>
      dsimp only []
      cases hs : Impl1.scanEnd L oneChar st.range.2.1 st.range.2.2
          (t.drop st.range.2.2) st with
      | done b st1 =>
        dsimp only []
        have hr := scanEnd1_range L oneChar st.range.2.1
          (t.drop st.range.2.2) st.range.2.2 st
        rw [hs] at hr
        simp only [ScanOutcome.state] at hr
        refine ⟨hr.1, ?_⟩
        rcases hr.2 with h | ⟨h, hne⟩
        · exact Or.inl h
        · refine Or.inr ?_
          rw [h]
          refine ⟨t, heq, ?_⟩
          intro ht
          rw [ht] at hne
          simp at hne
      | next st1 =>
        dsimp only []
        have hr := scanEnd1_range L oneChar st.range.2.1
          (t.drop st.range.2.2) st.range.2.2 st
        rw [hs] at hr
        simp only [ScanOutcome.state] at hr
        have hr2 : st1.range.2 = st.range.2 ∨
            refsNonEmptyText doc st1.range.2.1 := by
          rcases hr.2 with h | ⟨h, hne⟩
          · exact Or.inl h
          · refine Or.inr ?_
            rw [h]
            refine ⟨t, heq, ?_⟩
            intro ht
            rw [ht] at hne
            simp at hne
        have hw := walkEnd1_range L oneChar doc
          (doc.drop (st.range.2.1 + 1)) (st.range.2.1 + 1) st1 rfl
        exact ⟨hw.1.trans hr.1, boundary_trans hw.2 hr2⟩
    | elem b => exact ⟨rfl, Or.inl rfl⟩

/-- Variant 1's start update never touches the end boundary and moves the
start boundary only into a non-empty text run. -/
theorem update1Start_range (L : Layout) (doc : List DomNode)
    (oneChar : Bool) (st : LR1State) :
    (Impl1.updateHighlightLineRangeStart L doc oneChar st).2.range.2
      = st.range.2 ∧
    ((Impl1.updateHighlightLineRangeStart L doc oneChar st).2.range.1
      = st.range.1 ∨
      refsNonEmptyText doc
        (Impl1.updateHighlightLineRangeStart L doc oneChar
          st).2.range.1.1) := by
  rw [Impl1.updateHighlightLineRangeStart]
  cases heq : doc[st.range.1.1]? with
  | none => exact ⟨rfl, Or.inl rfl⟩
  | some nd =>
    cases nd with
    | text t =>
      dsimp only []
      cases hs : Impl1.scanStart L oneChar st.range.1.1 st.range.1.2
          ((t.take st.range.1.2).reverse) st with
      | done b st1 =>
        dsimp only []
        have hr := scanStart1_range L oneChar st.range.1.1
          ((t.take st.range.1.2).reverse) st.range.1.2 st
        rw [hs] at hr
        simp only [ScanOutcome.state] at hr
        refine ⟨hr.1, ?_⟩
        rcases hr.2 with h | ⟨h, hne⟩
        · exact Or.inl h
        · refine Or.inr ?_
          rw [h]
          refine ⟨t, heq, ?_⟩
          intro ht
          rw [ht] at hne
          simp at hne
      | next st1 =>
        dsimp only []
        have hr := scanStart1_range L oneChar st.range.1.1
          ((t.take st.range.1.2).reverse) st.range.1.2 st
        rw [hs] at hr
        simp only [ScanOutcome.state] at hr
        have hr2 : st1.range.1 = st.range.1 ∨
            refsNonEmptyText doc st1.range.1.1 := by
          rcases hr.2 with h | ⟨h, hne⟩
          · exact Or.inl h
          · refine Or.inr ?_
            rw [h]
            refine ⟨t, heq, ?_⟩
            intro ht
            rw [ht] at hne
            simp at hne
        have hle : st.range.1.1 ≤ doc.length := by
          by_contra hcon
          rw [List.getElem?_eq_none (by omega)] at heq
          simp at heq
        have hw := walkStart1_range L oneChar doc st.range.1.1 hle st1
        exact ⟨hw.1.trans hr.1, boundary_trans hw.2 hr2⟩
    | elem b => exact ⟨rfl, Or.inl rfl⟩

/-- Variant 2's end update never touches the start boundary and moves the
end boundary only into a non-empty text run. -/
theorem update2End_range (L : Layout) (doc : List DomNode) (oneChar : Bool)
    (st : LR2State) :
    (Impl2.updateHighlightLineRangeEnd L doc oneChar st).2.range.1
      = st.range.1 ∧
    ((Impl2.updateHighlightLineRangeEnd L doc oneChar st).2.range.2
      = st.range.2 ∨
      refsNonEmptyText doc
        (Impl2.updateHighlightLineRangeEnd L doc oneChar
          st).2.range.2.1) := by
  rw [Impl2.updateHighlightLineRangeEnd]
  cases heq : doc[st.range.2.1]? with
  | none => exact ⟨rfl, Or.inl rfl⟩
  | some nd =>
    cases nd with
    | text t =>
      dsimp only []
      cases hs : Impl2.scanEnd L oneChar st.range.2.1 st.range.2.2
          (t.drop st.range.2.2) false st with
      | done b st1 =>
        dsimp only []
        have hr := scanEnd2_range L oneChar st.range.2.1
          (t.drop st.range.2.2) st.range.2.2 false st
        rw [hs] at hr
        simp only [ScanOutcome.state] at hr
        refine ⟨hr.1, ?_⟩
        rcases hr.2 with h | ⟨h, hne⟩
        · exact Or.inl h
        · refine Or.inr ?_
          rw [h]
          refine ⟨t, heq, ?_⟩
          intro ht
          rw [ht] at hne
          simp at hne
      | next st1 =>
        dsimp only []
        have hr := scanEnd2_range L oneChar st.range.2.1
          (t.drop st.range.2.2) st.range.2.2 false st
        rw [hs] at hr
        simp only [ScanOutcome.state] at hr
        have hr2 : st1.range.2 = st.range.2 ∨
            refsNonEmptyText doc st1.range.2.1 := by
          rcases hr.2 with h | ⟨h, hne⟩
          · exact Or.inl h
          · refine Or.inr ?_
            rw [h]
            refine ⟨t, heq, ?_⟩
            intro ht
            rw [ht] at hne
            simp at hne
        have hw := walkEnd2_range L oneChar doc
          (doc.drop (st.range.2.1 + 1)) (st.range.2.1 + 1) st1 rfl
        exact ⟨hw.1.trans hr.1, boundary_trans hw.2 hr2⟩
    | elem b => exact ⟨rfl, Or.inl rfl⟩

/-- Variant 2's start update never touches the end boundary and moves the
start boundary only into a non-empty text run. -/
theorem update2Start_range (L : Layout) (doc : List DomNode)
    (oneChar : Bool) (st : LR2State) :
    (Impl2.updateHighlightLineRangeStart L doc oneChar st).2.range.2
      = st.range.2 ∧
    ((Impl2.updateHighlightLineRangeStart L doc oneChar st).2.range.1
      = st.range.1 ∨
      refsNonEmptyText doc
        (Impl2.updateHighlightLineRangeStart L doc oneChar
          st).2.range.1.1) := by
  rw [Impl2.updateHighlightLineRangeStart]
  cases heq : doc[st.range.1.1]? with
  | none => exact ⟨rfl, Or.inl rfl⟩
  | some nd =>
    cases nd with
    | text t =>
      dsimp only []
      cases hs : Impl2.scanStart L oneChar st.range.1.1 st.range.1.2
          ((t.take st.range.1.2).reverse) st with
      | done b st1 =>
        dsimp only []
        have hr := scanStart2_range L oneChar st.range.1.1
          ((t.take st.range.1.2).reverse) st.range.1.2 st
        rw [hs] at hr
        simp only [ScanOutcome.state] at hr
        refine ⟨hr.1, ?_⟩
        rcases hr.2 with h | ⟨h, hne⟩
        · exact Or.inl h
        · refine Or.inr ?_
          rw [h]
          refine ⟨t, heq, ?_⟩
          intro ht
          rw [ht] at hne
          simp at hne
      | next st1 =>
        dsimp only []
        have hr := scanStart2_range L oneChar st.range.1.1
          ((t.take st.range.1.2).reverse) st.range.1.2 st
        rw [hs] at hr
        simp only [ScanOutcome.state] at hr
        have hr2 : st1.range.1 = st.range.1 ∨
            refsNonEmptyText doc st1.range.1.1 := by
          rcases hr.2 with h | ⟨h, hne⟩
          · exact Or.inl h
          · refine Or.inr ?_
            rw [h]
            refine ⟨t, heq, ?_⟩
            intro ht
            rw [ht] at hne
            simp at hne
        have hle : st.range.1.1 ≤ doc.length := by
          by_contra hcon
          rw [List.getElem?_eq_none (by omega)] at heq
          simp at heq
        have hw := walkStart2_range L oneChar doc st.range.1.1 hle st1
        exact ⟨hw.1.trans hr.1, boundary_trans hw.2 hr2⟩
    | elem b => exact ⟨rfl, Or.inl rfl⟩
/-- Variant 1's alternation loop moves each boundary only into a
non-empty text run. -/
theorem expandLoop1_range (L : Layout) (doc : List DomNode) :
    ∀ (f : Nat) (st : LR1State),
      ((Impl1.expandLoop L doc f st).2.2.range.1 = st.range.1 ∨
        refsNonEmptyText doc
          (Impl1.expandLoop L doc f st).2.2.range.1.1) ∧
      ((Impl1.expandLoop L doc f st).2.2.range.2 = st.range.2 ∨
        refsNonEmptyText doc
          (Impl1.expandLoop L doc f st).2.2.range.2.1) := by
  intro f
  induction f with
  | zero =>
    intro st
    exact ⟨Or.inl rfl, Or.inl rfl⟩
  | succ g ih =>
    intro st
    rw [expandLoop1_succ]
    rcases h1 : Impl1.updateHighlightLineRangeEnd L doc true st with
      ⟨ke, st1⟩
    rcases h2 : Impl1.updateHighlightLineRangeStart L doc true st1 with
      ⟨ks, st2⟩
    dsimp only []
    rw [h2]
    dsimp only []
    have u1 := update1End_range L doc true st
    rw [h1] at u1
    dsimp only [] at u1
    have u2 := update1Start_range L doc true st1
    rw [h2] at u2
    dsimp only [] at u2
    by_cases hke : ks && ke
    · rw [if_pos hke]
      rcases ih st2 with ⟨g1, g2⟩
      constructor
      · exact boundary_trans (boundary_trans g1 u2.2) (Or.inl u1.1)
      · exact boundary_trans (boundary_trans g2 (Or.inl u2.1)) u1.2
    · rw [if_neg hke]
      dsimp only []
      constructor
      · exact boundary_trans u2.2 (Or.inl u1.1)
      · exact boundary_trans (Or.inl u2.1) u1.2

/-- Variant 2's alternation loop moves each boundary only into a
non-empty text run. -/
theorem expandLoop2_range (L : Layout) (doc : List DomNode) :
    ∀ (f : Nat) (st : LR2State),
      ((Impl2.expandLoop L doc f st).2.2.range.1 = st.range.1 ∨
        refsNonEmptyText doc
          (Impl2.expandLoop L doc f st).2.2.range.1.1) ∧
      ((Impl2.expandLoop L doc f st).2.2.range.2 = st.range.2 ∨
        refsNonEmptyText doc
          (Impl2.expandLoop L doc f st).2.2.range.2.1) := by
  intro f
  induction f with
  | zero =>
    intro st
    exact ⟨Or.inl rfl, Or.inl rfl⟩
  | succ g ih =>
    intro st
    rw [expandLoop2_succ]
    rcases h1 : Impl2.updateHighlightLineRangeEnd L doc true st with
      ⟨ke, st1⟩
    rcases h2 : Impl2.updateHighlightLineRangeStart L doc true st1 with
      ⟨ks, st2⟩
    dsimp only []
    rw [h2]
    dsimp only []
    have u1 := update2End_range L doc true st
    rw [h1] at u1
    dsimp only [] at u1
    have u2 := update2Start_range L doc true st1
    rw [h2] at u2
    dsimp only [] at u2
    by_cases hke : ks && ke
    · rw [if_pos hke]
      rcases ih st2 with ⟨g1, g2⟩
      constructor
      · exact boundary_trans (boundary_trans g1 u2.2) (Or.inl u1.1)
      · exact boundary_trans (boundary_trans g2 (Or.inl u2.1)) u1.2
    · rw [if_neg hke]
      dsimp only []
      constructor
      · exact boundary_trans u2.2 (Or.inl u1.1)
      · exact boundary_trans (Or.inl u2.1) u1.2

/-- Variant 1's whole expansion phase moves each boundary only into a
non-empty text run. -/
theorem lineExpand1_range (L : Layout) (doc : List DomNode)
    (st : LR1State) :
    ((Impl1.lineExpand L doc st).range.1 = st.range.1 ∨
      refsNonEmptyText doc (Impl1.lineExpand L doc st).range.1.1) ∧
    ((Impl1.lineExpand L doc st).range.2 = st.range.2 ∨
      refsNonEmptyText doc (Impl1.lineExpand L doc st).range.2.1) := by
  rw [Impl1.lineExpand]
  rcases hl : Impl1.expandLoop L doc loopFuel st with ⟨ks, ke, st1⟩
  have g := expandLoop1_range L doc loopFuel st
  rw [hl] at g
  dsimp only [] at g
  dsimp only []
  have u2 := update1Start_range L doc false st1
  cases ks with
  | false =>
    cases ke with
    | false =>
      exact g
    | true =>
      have u1 := update1End_range L doc false st1
      exact ⟨boundary_trans (Or.inl u1.1) g.1, boundary_trans u1.2 g.2⟩
  | true =>
    cases ke with
    | false =>
      exact ⟨boundary_trans u2.2 g.1,
        boundary_trans (Or.inl u2.1) g.2⟩
    | true =>
      have u1 := update1End_range L doc false
        (Impl1.updateHighlightLineRangeStart L doc false st1).2
      exact ⟨boundary_trans (Or.inl u1.1) (boundary_trans u2.2 g.1),
        boundary_trans u1.2 (boundary_trans (Or.inl u2.1) g.2)⟩

/-- Variant 2's whole expansion phase moves each boundary only into a
non-empty text run. -/
theorem lineExpand2_range (L : Layout) (doc : List DomNode)
    (st : LR2State) :
    ((Impl2.lineExpand L doc st).range.1 = st.range.1 ∨
      refsNonEmptyText doc (Impl2.lineExpand L doc st).range.1.1) ∧
    ((Impl2.lineExpand L doc st).range.2 = st.range.2 ∨
      refsNonEmptyText doc (Impl2.lineExpand L doc st).range.2.1) := by
  rw [Impl2.lineExpand]
  rcases hl : Impl2.expandLoop L doc loopFuel st with ⟨ks, ke, st1⟩
  have g := expandLoop2_range L doc loopFuel st
  rw [hl] at g
  dsimp only [] at g
  dsimp only []
  have u2 := update2Start_range L doc false st1
  cases ks with
  | false =>
    cases ke with
    | false =>
      exact g
    | true =>
      have u1 := update2End_range L doc false st1
      exact ⟨boundary_trans (Or.inl u1.1) g.1, boundary_trans u1.2 g.2⟩
  | true =>
    cases ke with
    | false =>
      exact ⟨boundary_trans u2.2 g.1,
        boundary_trans (Or.inl u2.1) g.2⟩
    | true =>
      have u1 := update2End_range L doc false
        (Impl2.updateHighlightLineRangeStart L doc false st1).2
      exact ⟨boundary_trans (Or.inl u1.1) (boundary_trans u2.2 g.1),
        boundary_trans u1.2 (boundary_trans (Or.inl u2.1) g.2)⟩

/-- Collapsing a variant 1 line state leaves a collapsed range. -/
theorem collapsedR_collapseLine1 (st : LR1State) :
    collapsedR (Impl1.collapseLine st).range = true := by
  simp [Impl1.collapseLine, collapseR, collapsedR]

/-- Collapsing a variant 2 line state leaves a collapsed range. -/
theorem collapsedR_collapseLine2 (st : LR2State) :
    collapsedR (Impl2.collapseLine st).range = true := by
  simp [Impl2.collapseLine, collapseR, collapsedR]

/-- Variant 1's whitespace trim either collapses the state or returns it
unchanged. -/
theorem postProcessLine1_cases (i so : Nat) (t : List Char)
    (st : LR1State) :
    Impl1.postProcessLine i so t st = Impl1.collapseLine st ∨
    Impl1.postProcessLine i so t st = st := by
  rw [Impl1.postProcessLine]
  split
  · exact Or.inl rfl
  · exact Or.inr rfl

/-- Variant 2's whitespace trim either collapses the state or returns it
unchanged. -/
theorem postProcessLine2_cases (i so : Nat) (t : List Char)
    (st : LR2State) :
    Impl2.postProcessLine i so t st = Impl2.collapseLine st ∨
    Impl2.postProcessLine i so t st = st := by
  rw [Impl2.postProcessLine]
  split
  · exact Or.inl rfl
  · exact Or.inr rfl

/-- The three exit shapes of variant 1's `setHighlightLineRange` on a text
hit: vertical-check collapse, seed-rectangle-check collapse, or the
trimmed expansion result. -/
theorem setHighlightLineRange1_cases (L : Layout) (doc : List DomNode)
    (i o : Nat) (t : List Char) (mouseY : ℚ) (st : LR1State)
    (hi : doc[i]? = some (.text t)) :
    Impl1.setHighlightLineRange L doc (some (i, o)) mouseY st
        = Impl1.collapseLine
            { st with range := ((i, natMin o (t.length - 1)),
                (i, natMin o (t.length - 1) + 1)) } ∨
    Impl1.setHighlightLineRange L doc (some (i, o)) mouseY st
        = Impl1.collapseLine
            (Impl1.setInitialRect
              { st with range := ((i, natMin o (t.length - 1)),
                  (i, natMin o (t.length - 1) + 1)) }
              (L.rangeRect ((i, natMin o (t.length - 1)),
                (i, natMin o (t.length - 1) + 1)))) ∨
    Impl1.setHighlightLineRange L doc (some (i, o)) mouseY st
        = Impl1.postProcessLine i (natMin o (t.length - 1)) t
            (Impl1.lineExpand L doc
              (Impl1.setInitialRect
                { st with range := ((i, natMin o (t.length - 1)),
                    (i, natMin o (t.length - 1) + 1)) }
                (L.rangeRect ((i, natMin o (t.length - 1)),
                  (i, natMin o (t.length - 1) + 1))))) := by
  rw [Impl1.setHighlightLineRange, hi]
  dsimp only []
  split
  · exact Or.inl rfl
  · split
    · exact Or.inr (Or.inl rfl)
    · exact Or.inr (Or.inr rfl)

/-- The exit shapes of variant 2's `setHighlightLineRange` on a text hit:
a collapse of the seeded state (vertical check or raw-rectangle-count
check), or the trimmed expansion result on the counter-reset state. -/
theorem setHighlightLineRange2_cases (L : Layout) (doc : List DomNode)
    (i o : Nat) (t : List Char) (mouseY : ℚ) (st : LR2State)
    (hi : doc[i]? = some (.text t)) :
    Impl2.setHighlightLineRange L doc (some (i, o)) mouseY st
        = Impl2.collapseLine
            { st with range := ((i, natMin o (t.length - 1)),
                (i, natMin o (t.length - 1) + 1)) } ∨
    Impl2.setHighlightLineRange L doc (some (i, o)) mouseY st
        = Impl2.postProcessLine i (natMin o (t.length - 1)) t
            (Impl2.lineExpand L doc
              { range := ((i, natMin o (t.length - 1)),
                  (i, natMin o (t.length - 1) + 1)),
                checks := 0 }) := by
  rw [Impl2.setHighlightLineRange, hi]
  dsimp only []
  split
  · exact Or.inl rfl
  · split
    · exact Or.inl rfl
    · exact Or.inr rfl

/-- Claim C6 (amended): after a completed word resolution seeded in a
non-empty text run — at a word character whenever the caret offset falls
inside the run — the start boundary references a non-empty text run with
an in-range offset, and the end boundary references a text run with an
in-range offset which may be empty; in that case the end offset is `0`,
which is the only deviation from the claimed invariant and is realised by
the counterexample above.  After a completed line resolution seeded in
the same run, a non-collapsed line range's boundaries always reference
non-empty text runs, in both variants. -/
theorem word_range_boundary_runs (isDel : Char → Bool) (L : Layout)
    (doc : List DomNode) (i o : Nat) (t : List Char) (r : RangeV)
    (mouseY : ℚ) (st1 : LR1State) (st2 : LR2State)
    (hi : doc[i]? = some (.text t)) (hne : t ≠ [])
    (hu : isDel 'u' = false)
    (hseed : ∀ h : o < t.length, isDel (t.get ⟨o, h⟩) = false) :
    (∃ us, doc[(setHighlightWordRange isDel doc (some (i, o)) r).1.1]?
        = some (.text us) ∧ us ≠ [] ∧
        (setHighlightWordRange isDel doc (some (i, o)) r).1.2
          ≤ us.length) ∧
    (∃ ue, doc[(setHighlightWordRange isDel doc (some (i, o)) r).2.1]?
        = some (.text ue) ∧
        (setHighlightWordRange isDel doc (some (i, o)) r).2.2
          ≤ ue.length ∧
        (ue = [] →
          (setHighlightWordRange isDel doc (some (i, o)) r).2.2 = 0)) ∧
    (collapsedR (Impl1.setHighlightLineRange L doc (some (i, o)) mouseY
        st1).range = false →
      refsNonEmptyText doc
        (Impl1.setHighlightLineRange L doc (some (i, o)) mouseY
          st1).range.1.1 ∧
      refsNonEmptyText doc
        (Impl1.setHighlightLineRange L doc (some (i, o)) mouseY
          st1).range.2.1) ∧
    (collapsedR (Impl2.setHighlightLineRange L doc (some (i, o)) mouseY
        st2).range = false →
      refsNonEmptyText doc
        (Impl2.setHighlightLineRange L doc (some (i, o)) mouseY
          st2).range.1.1 ∧
      refsNonEmptyText doc
        (Impl2.setHighlightLineRange L doc (some (i, o)) mouseY
          st2).range.2.1) := by
  obtain ⟨hws, hwe⟩ :
      (∃ us, doc[(setHighlightWordRange isDel doc (some (i, o)) r).1.1]?
          = some (.text us) ∧ us ≠ [] ∧
          (setHighlightWordRange isDel doc (some (i, o)) r).1.2
            ≤ us.length) ∧
      (∃ ue, doc[(setHighlightWordRange isDel doc (some (i, o)) r).2.1]?
          = some (.text ue) ∧
          (setHighlightWordRange isDel doc (some (i, o)) r).2.2
            ≤ ue.length ∧
          (ue = [] →
            (setHighlightWordRange isDel doc (some (i, o)) r).2.2
              = 0)) := by
    by_cases ho : o < t.length
    · have hw := hseed ho
      have hs := findWordStart_zip isDel doc i t o hi (le_of_lt ho)
      have he := findWordEnd_zip isDel doc (doc.drop (i + 1)) i t (o + 1)
        hi rfl (by omega)
      rw [setHighlightWordRange_eq_of_word isDel doc i o t r hi ho hw]
      exact ⟨startZip_boundary hne hs, endZip_boundary he⟩
    · have hs := findWordStart_zip isDel doc i t t.length hi (le_refl _)
      have he := findWordEnd_zip isDel doc (doc.drop (i + 1)) i t
        t.length hi rfl (le_refl _)
      rw [setHighlightWordRange_eq_of_overflow isDel doc i o t r hi ho,
        findWordStart_ge isDel i t o ((doc.take i).reverse) hu
          (by omega)]
      exact ⟨startZip_boundary hne hs, endZip_boundary he⟩
  refine ⟨hws, hwe, ?_, ?_⟩
  · intro hnc
    rcases setHighlightLineRange1_cases L doc i o t mouseY st1 hi with
      hc | hc | hc
    · rw [hc, collapsedR_collapseLine1] at hnc
      simp at hnc
    · rw [hc, collapsedR_collapseLine1] at hnc
      simp at hnc
    · rcases postProcessLine1_cases i (natMin o (t.length - 1)) t
        (Impl1.lineExpand L doc (Impl1.setInitialRect
          { st1 with range := ((i, natMin o (t.length - 1)),
              (i, natMin o (t.length - 1) + 1)) }
          (L.rangeRect ((i, natMin o (t.length - 1)),
            (i, natMin o (t.length - 1) + 1))))) with hp | hp
      · rw [hc, hp, collapsedR_collapseLine1] at hnc
        simp at hnc
      · rw [hc, hp]
        have g := lineExpand1_range L doc (Impl1.setInitialRect
          { st1 with range := ((i, natMin o (t.length - 1)),
              (i, natMin o (t.length - 1) + 1)) }
          (L.rangeRect ((i, natMin o (t.length - 1)),
            (i, natMin o (t.length - 1) + 1))))
        constructor
        · rcases g.1 with h | h
          · rw [h]
            exact ⟨t, hi, hne⟩
          · exact h
        · rcases g.2 with h | h
          · rw [h]
            exact ⟨t, hi, hne⟩
          · exact h
  · intro hnc
    rcases setHighlightLineRange2_cases L doc i o t mouseY st2 hi with
      hc | hc
    · rw [hc, collapsedR_collapseLine2] at hnc
      simp at hnc
    · rcases postProcessLine2_cases i (natMin o (t.length - 1)) t
        (Impl2.lineExpand L doc
          { range := ((i, natMin o (t.length - 1)),
              (i, natMin o (t.length - 1) + 1)),
            checks := 0 }) with hp | hp
      · rw [hc, hp, collapsedR_collapseLine2] at hnc
        simp at hnc
      · rw [hc, hp]
        have g := lineExpand2_range L doc
          { range := ((i, natMin o (t.length - 1)),
              (i, natMin o (t.length - 1) + 1)),
            checks := 0 }
        constructor
        · rcases g.1 with h | h
          · rw [h]
            exact ⟨t, hi, hne⟩
          · exact h
        · rcases g.2 with h | h
          · rw [h]
            exact ⟨t, hi, hne⟩
          · exact h

/-- Witness for the amended claim C6: seeded at the word `ab` of
`docTrailingEmpty` under `layoutDot`, the resolved word range's start
references the non-empty run and its end references the trailing empty
run at offset `0`, and both variants' completed line resolutions are
non-collapsed with both boundaries in the non-empty run. -/
theorem word_range_boundary_runs_witness :
    (∃ us, docTrailingEmpty[(setHighlightWordRange Impl1.isDelimiter
        docTrailingEmpty (some (0, 0)) ((0, 0), (0, 0))).1.1]?
        = some (DomNode.text us) ∧ us ≠ [] ∧
        (setHighlightWordRange Impl1.isDelimiter docTrailingEmpty
          (some (0, 0)) ((0, 0), (0, 0))).1.2 ≤ us.length) ∧
    (∃ ue, docTrailingEmpty[(setHighlightWordRange Impl1.isDelimiter
        docTrailingEmpty (some (0, 0)) ((0, 0), (0, 0))).2.1]?
        = some (DomNode.text ue) ∧
        (setHighlightWordRange Impl1.isDelimiter docTrailingEmpty
          (some (0, 0)) ((0, 0), (0, 0))).2.2 ≤ ue.length ∧
        (ue = [] →
          (setHighlightWordRange Impl1.isDelimiter docTrailingEmpty
            (some (0, 0)) ((0, 0), (0, 0))).2.2 = 0)) ∧
    (collapsedR (Impl1.setHighlightLineRange layoutDot docTrailingEmpty
        (some (0, 0)) 5
        { range := ((0, 0), (0, 0)), bTop := 0, bBot := 0, minH := 0,
          checks := 0 }).range = false ∧
      refsNonEmptyText docTrailingEmpty
        (Impl1.setHighlightLineRange layoutDot docTrailingEmpty
          (some (0, 0)) 5
          { range := ((0, 0), (0, 0)), bTop := 0, bBot := 0, minH := 0,
            checks := 0 }).range.1.1 ∧
      refsNonEmptyText docTrailingEmpty
        (Impl1.setHighlightLineRange layoutDot docTrailingEmpty
          (some (0, 0)) 5
          { range := ((0, 0), (0, 0)), bTop := 0, bBot := 0, minH := 0,
            checks := 0 }).range.2.1) ∧
    (collapsedR (Impl2.setHighlightLineRange layoutDot docTrailingEmpty
        (some (0, 0)) 5
        { range := ((0, 0), (0, 0)), checks := 0 }).range = false ∧
      refsNonEmptyText docTrailingEmpty
        (Impl2.setHighlightLineRange layoutDot docTrailingEmpty
          (some (0, 0)) 5
          { range := ((0, 0), (0, 0)), checks := 0 }).range.1.1 ∧
      refsNonEmptyText docTrailingEmpty
        (Impl2.setHighlightLineRange layoutDot docTrailingEmpty
          (some (0, 0)) 5
          { range := ((0, 0), (0, 0)), checks := 0 }).range.2.1) := by
  have h := word_range_boundary_runs Impl1.isDelimiter layoutDot
    docTrailingEmpty 0 0 ['a', 'b'] ((0, 0), (0, 0)) 5
    { range := ((0, 0), (0, 0)), bTop := 0, bBot := 0, minH := 0,
      checks := 0 }
    { range := ((0, 0), (0, 0)), checks := 0 }
    rfl (by decide) (by decide)
    (fun _ => (by decide : Impl1.isDelimiter 'a' = false))
  have hc1 : collapsedR (Impl1.setHighlightLineRange layoutDot
      docTrailingEmpty (some (0, 0)) 5
      { range := ((0, 0), (0, 0)), bTop := 0, bBot := 0, minH := 0,
        checks := 0 }).range = false := by
    with_unfolding_all decide
  have hc2 : collapsedR (Impl2.setHighlightLineRange layoutDot
      docTrailingEmpty (some (0, 0)) 5
      { range := ((0, 0), (0, 0)), checks := 0 }).range = false := by
    with_unfolding_all decide
  exact ⟨h.1, h.2.1, ⟨hc1, h.2.2.1 hc1⟩, ⟨hc2, h.2.2.2 hc2⟩⟩

/-- Claim C8 (amended): the defensive seed check is not "more than one
non-degenerate client rectangle", and each variant's actual condition is
both necessary and sufficient for the early collapse.  After a passing
vertical check, variant 1 collapses the line range at the seed's end and
stops precisely when some adjacent pair of the seed's raw client
rectangles consists of two distinct space-occupying rectangles
(`hasMoreThanOne`); when that scan fails — as it does when a degenerate
rectangle separates two distinct non-degenerate ones — resolution
proceeds to the expansion and trim phases.  Variant 2 collapses precisely
when the raw rectangle count exceeds one, degenerate rectangles included,
and otherwise proceeds likewise. -/
theorem seed_rect_check_amended (L : Layout) (doc : List DomNode)
    (i o so : Nat) (t : List Char) (mouseY : ℚ)
    (st1 : LR1State) (st2 : LR2State)
    (hi : doc[i]? = some (.text t)) (hso : so = natMin o (t.length - 1))
    (hv : ¬ ((L.rangeRect ((i, so), (i, so + 1))).height = 0 ∨
      mouseY < (L.rangeRect ((i, so), (i, so + 1))).top ∨
      (L.rangeRect ((i, so), (i, so + 1))).bottom < mouseY)) :
    (hasMoreThanOne (L.rangeRects ((i, so), (i, so + 1))) = true →
      (Impl1.setHighlightLineRange L doc (some (i, o)) mouseY st1).range
          = ((i, so + 1), (i, so + 1)) ∧
      collapsedR (Impl1.setHighlightLineRange L doc (some (i, o)) mouseY
        st1).range = true) ∧
    (hasMoreThanOne (L.rangeRects ((i, so), (i, so + 1))) = false →
      Impl1.setHighlightLineRange L doc (some (i, o)) mouseY st1
        = Impl1.postProcessLine i so t
            (Impl1.lineExpand L doc
              (Impl1.setInitialRect
                { st1 with range := ((i, so), (i, so + 1)) }
                (L.rangeRect ((i, so), (i, so + 1)))))) ∧
    (1 < (L.rangeRects ((i, so), (i, so + 1))).length →
      (Impl2.setHighlightLineRange L doc (some (i, o)) mouseY st2).range
          = ((i, so + 1), (i, so + 1)) ∧
      collapsedR (Impl2.setHighlightLineRange L doc (some (i, o)) mouseY
        st2).range = true) ∧
    (¬ 1 < (L.rangeRects ((i, so), (i, so + 1))).length →
      Impl2.setHighlightLineRange L doc (some (i, o)) mouseY st2
        = Impl2.postProcessLine i so t
            (Impl2.lineExpand L doc
              { range := ((i, so), (i, so + 1)), checks := 0 })) := by
  subst hso
  refine ⟨fun hm => ?_, fun hm => ?_, fun hm => ?_, fun hm => ?_⟩
  · constructor <;>
      simp [Impl1.setHighlightLineRange, hi, if_neg hv,
        Impl1.setInitialRect, hm, Impl1.collapseLine, collapseR,
        collapsedR]
  · simp [Impl1.setHighlightLineRange, hi, if_neg hv,
      Impl1.setInitialRect, hm]
  · constructor <;>
      simp [Impl2.setHighlightLineRange, hi, if_neg hv, hm,
        Impl2.collapseLine, collapseR, collapsedR]
  · simp [Impl2.setHighlightLineRange, hi, if_neg hv, hm]

/-- Witness for the amended claim C8: `layoutTwo`'s adjacent distinct
seed rectangles make variant 1 collapse at the seed's end; `layoutAdj`'s
degenerate-separated rectangles let variant 1 proceed to expansion while
their raw count of three makes variant 2 collapse; `layoutDot`'s single
seed rectangle lets variant 2 proceed. -/
theorem seed_rect_check_amended_witness :
    ((Impl1.setHighlightLineRange layoutTwo docSingle (some (0, 0)) 5
        { range := ((0, 0), (0, 0)), bTop := 0, bBot := 0, minH := 0,
          checks := 0 }).range = ((0, 1), (0, 1)) ∧
      collapsedR (Impl1.setHighlightLineRange layoutTwo docSingle
        (some (0, 0)) 5
        { range := ((0, 0), (0, 0)), bTop := 0, bBot := 0, minH := 0,
          checks := 0 }).range = true) ∧
    (Impl1.setHighlightLineRange layoutAdj docSingle (some (0, 0)) 5
        { range := ((0, 0), (0, 0)), bTop := 0, bBot := 0, minH := 0,
          checks := 0 }
      = Impl1.postProcessLine 0 0 ['a']
          (Impl1.lineExpand layoutAdj docSingle
            (Impl1.setInitialRect
              { range := ((0, 0), (0, 1)), bTop := 0, bBot := 0,
                minH := 0, checks := 0 }
              (layoutAdj.rangeRect ((0, 0), (0, 1)))))) ∧
    ((Impl2.setHighlightLineRange layoutAdj docSingle (some (0, 0)) 5
        { range := ((0, 0), (0, 0)), checks := 3 }).range
        = ((0, 1), (0, 1)) ∧
      collapsedR (Impl2.setHighlightLineRange layoutAdj docSingle
        (some (0, 0)) 5
        { range := ((0, 0), (0, 0)), checks := 3 }).range = true) ∧
    (Impl2.setHighlightLineRange layoutDot docSingle (some (0, 0)) 5
        { range := ((0, 0), (0, 0)), checks := 3 }
      = Impl2.postProcessLine 0 0 ['a']
          (Impl2.lineExpand layoutDot docSingle
            { range := ((0, 0), (0, 1)), checks := 0 })) := by
  refine ⟨?_, ?_, ?_, ?_⟩
  · exact (seed_rect_check_amended layoutTwo docSingle 0 0 0 ['a'] 5
      { range := ((0, 0), (0, 0)), bTop := 0, bBot := 0, minH := 0,
        checks := 0 }
      { range := ((0, 0), (0, 0)), checks := 3 }
      rfl rfl (by with_unfolding_all decide)).1
      (by with_unfolding_all decide)
  · exact (seed_rect_check_amended layoutAdj docSingle 0 0 0 ['a'] 5
      { range := ((0, 0), (0, 0)), bTop := 0, bBot := 0, minH := 0,
        checks := 0 }
      { range := ((0, 0), (0, 0)), checks := 3 }
      rfl rfl (by with_unfolding_all decide)).2.1
      (by with_unfolding_all decide)
  · exact (seed_rect_check_amended layoutAdj docSingle 0 0 0 ['a'] 5
      { range := ((0, 0), (0, 0)), bTop := 0, bBot := 0, minH := 0,
        checks := 0 }
      { range := ((0, 0), (0, 0)), checks := 3 }
      rfl rfl (by with_unfolding_all decide)).2.2.1
      (by with_unfolding_all decide)
  · exact (seed_rect_check_amended layoutDot docSingle 0 0 0 ['a'] 5
      { range := ((0, 0), (0, 0)), bTop := 0, bBot := 0, minH := 0,
        checks := 0 }
      { range := ((0, 0), (0, 0)), checks := 3 }
      rfl rfl (by with_unfolding_all decide)).2.2.2
      (by with_unfolding_all decide)

end HoverHighlighter
